import Mathlib

/-!
# GCFragModel (salmon, `include/GCFragModel.hpp`)

A shallow embedding of the GC-bias histogram of salmon and of its bin
descriptor, with the properties of the specification proved over it.

## Numbers

A C++ `double` is embedded as `Dbl K`: a finite value taken in an ordered
field `K` (exact arithmetic, no rounding), one of the two infinities, or NaN.
The operations follow IEEE-754 on the special values (`x / 0`, `∞ - ∞`,
comparisons with NaN are false); there is a single zero, so the sign of a zero
is not tracked.  `K` is left general: `ℚ` makes every definition evaluable,
`ℝ` carries the real exponential and logarithm.

The same program is also given in binary64 arithmetic (namespace `Binary64`):
every arithmetic result over `Dbl ℚ` is rounded by `fl64` to the nearest
binary64 number, ties to even, with overflow to an infinity and the subnormal
numbers.  The statements in exact arithmetic say so; the statements where
rounding decides are made over `Binary64`.

`std::exp` and `std::log` on finite values are a parameter (`Libm K`); their
real laws are the hypothesis `Libm.Exact`, used only by statements about LOG
space.  `salmon::math::LOG_0`, `logAdd` and `isLog0` live in `SalmonMath.hpp`,
which is not among the sources; they are modelled from the specification.

## Integers and undefined behaviour

An `int32_t` is an `Int`; a `size_t` is a `Nat`.  The conversion of a double to
`int32_t` truncates toward zero and is undefined outside the range of
`int32_t`: `castInt32` returns `none` there.  The conversion of `condBins_` to
the `int32_t` parameter of `contextBin` is taken modulo `2^32` (`narrow32`).

A coefficient access `counts_(r, c)` outside the matrix is undefined in C++.
The accesses of a model to its own matrix inside its loops are always inside;
the accesses of `inc` and `get` (indices computed from the descriptor) and the
accesses to `other` in `combineCounts` and `ratio` go through
`GCFragModel.coeff`, which returns `none` outside.  `inc` and `get` return an
`Option`; `combineCounts` and `ratio` return an `Except Fault`, whose error
`Fault.exit1` is the call `std::exit(1)` of `combineCounts`.

## Objects

A method that mutates `this` is a function that returns the new model.  `ratio`
also normalizes its argument in place: it returns both models and the model it
builds (`RatioResult`), and is stated for two distinct objects.
-/

namespace GCFrag

/-! ## Exact doubles -/

/-- A `double` in exact arithmetic: NaN, minus infinity, a finite value, or plus infinity. -/
inductive Dbl (K : Type) where
  | nan : Dbl K
  | ninf : Dbl K
  | fin (x : K) : Dbl K
  | pinf : Dbl K
  deriving DecidableEq

namespace Dbl

variable {K : Type} [LinearOrderedField K]

/-- The infinity of the given sign (`true` is plus). -/
def inf (positive : Bool) : Dbl K :=
  if positive then pinf else ninf

/-- Unary minus. -/
def neg : Dbl K → Dbl K
  | nan => nan
  | ninf => pinf
  | fin x => fin (-x)
  | pinf => ninf

/-- Addition of doubles: `∞ + (-∞)` is NaN. -/
def add : Dbl K → Dbl K → Dbl K
  | nan, _ => nan
  | _, nan => nan
  | fin a, fin b => fin (a + b)
  | fin _, ninf => ninf
  | fin _, pinf => pinf
  | ninf, fin _ => ninf
  | pinf, fin _ => pinf
  | ninf, ninf => ninf
  | pinf, pinf => pinf
  | ninf, pinf => nan
  | pinf, ninf => nan

/-- Multiplication of doubles: `0 * ∞` is NaN. -/
def mul : Dbl K → Dbl K → Dbl K
  | nan, _ => nan
  | _, nan => nan
  | fin a, fin b => fin (a * b)
  | fin a, ninf => if a = 0 then nan else inf (decide (a < 0))
  | fin a, pinf => if a = 0 then nan else inf (decide (0 < a))
  | ninf, fin b => if b = 0 then nan else inf (decide (b < 0))
  | pinf, fin b => if b = 0 then nan else inf (decide (0 < b))
  | ninf, ninf => pinf
  | pinf, pinf => pinf
  | ninf, pinf => ninf
  | pinf, ninf => ninf

/-- Division of doubles: a nonzero finite value over zero is an infinity,
`0 / 0` and `∞ / ∞` are NaN, a finite value over an infinity is zero. -/
def div : Dbl K → Dbl K → Dbl K
  | nan, _ => nan
  | _, nan => nan
  | fin a, fin b =>
      if b = 0 then (if a = 0 then nan else inf (decide (0 < a))) else fin (a / b)
  | fin _, ninf => fin 0
  | fin _, pinf => fin 0
  | ninf, fin b => inf (decide (b < 0))
  | pinf, fin b => inf (decide (0 ≤ b))
  | ninf, ninf => nan
  | pinf, pinf => nan
  | ninf, pinf => nan
  | pinf, ninf => nan

/-- The comparison `a < b` of doubles; false as soon as one side is NaN. -/
def blt : Dbl K → Dbl K → Bool
  | fin a, fin b => decide (a < b)
  | ninf, fin _ => true
  | ninf, pinf => true
  | fin _, pinf => true
  | _, _ => false

instance : Zero (Dbl K) := ⟨fin 0⟩
instance : One (Dbl K) := ⟨fin 1⟩
instance : Neg (Dbl K) := ⟨neg⟩
instance : Add (Dbl K) := ⟨add⟩
instance : Sub (Dbl K) := ⟨fun a b => add a (neg b)⟩
instance : Mul (Dbl K) := ⟨mul⟩
instance : Div (Dbl K) := ⟨div⟩
instance : LT (Dbl K) := ⟨fun a b => blt a b = true⟩
instance : LE (Dbl K) := ⟨fun a b => a < b ∨ (a = b ∧ a ≠ nan)⟩

instance : AddCommMonoid (Dbl K) where
  add := add
  zero := fin 0
  nsmul := nsmulRec
  add_assoc a b c := by
    show add (add a b) c = add a (add b c)
    cases a <;> cases b <;> cases c <;> simp [add, add_assoc]
  zero_add a := by
    show add (fin 0) a = a
    cases a <;> simp [add]
  add_zero a := by
    show add a (fin 0) = a
    cases a <;> simp [add]
  add_comm a b := by
    show add a b = add b a
    cases a <;> cases b <;> simp [add, add_comm]

instance decLT (a b : Dbl K) : Decidable (a < b) :=
  inferInstanceAs (Decidable (blt a b = true))

instance decLE (a b : Dbl K) : Decidable (a ≤ b) :=
  inferInstanceAs (Decidable (a < b ∨ (a = b ∧ a ≠ nan)))

/-- The real number held by a finite double (0 for the special values). -/
def val : Dbl K → K
  | fin x => x
  | _ => 0

/-- A double that is not below zero: NaN, plus infinity, or a real number `≥ 0`.
The values of `std::exp`, and the sums of such values, are of this kind. -/
def NotNeg : Dbl K → Prop
  | fin x => 0 ≤ x
  | ninf => False
  | _ => True

/-- A double that holds a real number (not an infinity, not NaN). -/
def IsFinite : Dbl K → Prop
  | fin _ => True
  | _ => False

instance decIsFinite (a : Dbl K) : Decidable (IsFinite a) := by
  cases a <;> unfold IsFinite <;> infer_instance

end Dbl

/-- The functions `std::exp` and `std::log` of the C++ library on finite arguments. -/
structure Libm (K : Type) where
  /-- The function `std::exp` at a finite argument. -/
  exp : K → K
  /-- The function `std::log` at a positive finite argument. -/
  log : K → K

/-- The laws of the real exponential and logarithm: what exact arithmetic means for `Libm`. -/
structure Libm.Exact {K : Type} [LinearOrderedField K] (F : Libm K) : Prop where
  exp_pos : ∀ x, 0 < F.exp x
  exp_sub : ∀ x y, F.exp (x - y) = F.exp x / F.exp y
  exp_log : ∀ y, 0 < y → F.exp (F.log y) = y

namespace Dbl

variable {K : Type} [LinearOrderedField K]

/-- The value of `std::exp` on a double: `exp(-∞) = 0`, `exp(+∞) = +∞`. -/
def exp (F : Libm K) : Dbl K → Dbl K
  | nan => nan
  | ninf => fin 0
  | fin x => fin (F.exp x)
  | pinf => pinf

/-- The value of `std::log` on a double: `log 0 = -∞`, NaN on a negative argument. -/
def log (F : Libm K) : Dbl K → Dbl K
  | nan => nan
  | ninf => nan
  | fin x => if x = 0 then ninf else if 0 < x then fin (F.log x) else nan
  | pinf => pinf

end Dbl

/-! ## `salmon::math` -/

section SalmonMath

variable {K : Type} [LinearOrderedField K]

/-- Modelled from the spec: `salmon::math::LOG_0` of `SalmonMath.hpp` (not among
the sources), "a sentinel value representing a probability of exactly zero in
log space (formally negative infinity)". -/
def LOG_0 : Dbl K := Dbl.ninf

/-- Modelled from the spec: `salmon::math::isLog0` of `SalmonMath.hpp` (not among
the sources), the "log-zero test" that honours the sentinel `LOG_0`. -/
def isLog0 (x : Dbl K) : Bool := decide (x = LOG_0)

/-- Modelled from the spec: `salmon::math::logAdd` of `SalmonMath.hpp` (not among
the sources), "`logAdd(a,b) = log(exp(a)+exp(b))`". -/
def logAdd (F : Libm K) (a b : Dbl K) : Dbl K :=
  Dbl.log F (Dbl.exp F a + Dbl.exp F b)

end SalmonMath

/-! ## Machine integers -/

/-- The range of `int32_t`. -/
def inInt32 (i : Int) : Prop := -2147483648 ≤ i ∧ i ≤ 2147483647

instance decInInt32 (i : Int) : Decidable (inInt32 i) := by
  unfold inInt32; infer_instance

/-- Truncation toward zero of an exact value. -/
def trunc (q : ℚ) : Int := if 0 ≤ q then ⌊q⌋ else ⌈q⌉

/-- The conversion `static_cast<int32_t>(x)` of a double: the value truncated
toward zero; undefined (`none`) when that value is not an `int32_t`, or when
`x` is an infinity or NaN. -/
def castInt32 : Dbl ℚ → Option Int
  | Dbl.fin q => if inInt32 (trunc q) then some (trunc q) else none
  | _ => none

/-- The implicit conversion of a `size_t` to `int32_t` (modulo `2^32`). -/
def narrow32 (n : Nat) : Int := ((n : Int) + 2147483648) % 4294967296 - 2147483648

/-! ## The bin descriptor -/

/-- The struct `GCDesc`: two `int32_t` percentiles. -/
structure GCDesc where
  fragFrac : Int
  contextFrac : Int
  deriving DecidableEq

namespace GCDesc

/-- The accessor `fragBin()`, which assumes 101 bins. -/
def fragBin (d : GCDesc) : Int := d.fragFrac

/-- The accessor `contextBin()`, which assumes 101 bins. -/
def contextBin (d : GCDesc) : Int := d.contextFrac

/-- The shared body of `fragBin(n)` and `contextBin(n)`:
`w = 100.0 / n; min(n-1, static_cast<int32_t>(frac / w))`, with the quotient in
exact arithmetic; `none` when the conversion is undefined or `n-1` overflows. -/
def binOf (frac n : Int) : Option Int :=
  let w : Dbl ℚ := Dbl.fin 100 / Dbl.fin (n : ℚ)
  if inInt32 (n - 1) then
    (castInt32 (Dbl.fin (frac : ℚ) / w)).map (fun b => min (n - 1) b)
  else none

/-- The accessor `fragBin(int32_t n)`. -/
def fragBinN (d : GCDesc) (n : Int) : Option Int := binOf d.fragFrac n

/-- The accessor `contextBin(int32_t n)`. -/
def contextBinN (d : GCDesc) (n : Int) : Option Int := binOf d.contextFrac n

end GCDesc

/-! ## The model -/

/-- The enumeration `distribution_utils::DistributionSpace`. -/
inductive DistributionSpace where
  | LOG : DistributionSpace
  | LINEAR : DistributionSpace
  deriving DecidableEq

/-- The two ways a call can leave the defined behaviour of the program:
`std::exit(1)` after the diagnostic of `combineCounts`, and a matrix access
outside the matrix (undefined in C++). -/
inductive Fault where
  | exit1 : Fault
  | outOfBounds : Fault
  deriving DecidableEq

/-- The coefficients of an `Eigen::MatrixXd`, by row and column. -/
structure MatrixXd (K : Type) where
  /-- The coefficient at a row and a column. -/
  coeff : Nat → Nat → Dbl K

/-- The assignment `t(r,c) = v` on a matrix. -/
def MatrixXd.set {K : Type} (t : MatrixXd K) (r c : Nat) (v : Dbl K) : MatrixXd K :=
  ⟨fun i j => if i = r ∧ j = c then v else t.coeff i j⟩

/-- The class `GCFragModel`.  The matrix `counts_` is allocated
`condBins_ × numGCBins_` by the constructor and never resized, so its shape is
given by these two fields; `counts_.coeff r c` is its coefficient for
`r < condBins_` and `c < numGCBins_` (the values elsewhere stand for nothing). -/
structure GCFragModel (K : Type) where
  condBins_ : Nat
  numGCBins_ : Nat
  dspace_ : DistributionSpace
  normalized_ : Bool
  counts_ : MatrixXd K

namespace GCFragModel

variable {K : Type} [LinearOrderedField K]

/-- The matrix access `counts_(r, c)` at signed indices that the caller does
not control: `none` outside the matrix. -/
def coeff (m : GCFragModel K) (r c : Int) : Option (Dbl K) :=
  if 0 ≤ r ∧ r < m.condBins_ ∧ 0 ≤ c ∧ c < m.numGCBins_ then
    some (m.counts_.coeff r.toNat c.toNat)
  else none

/-- The initial matrix: `setOnes(); counts_ *= LOG_0` in LOG space, `setZero()` otherwise. -/
def initCounts (dspace : DistributionSpace) : MatrixXd K :=
  if dspace = DistributionSpace.LOG then ⟨fun _ _ => (1 : Dbl K) * LOG_0⟩ else ⟨fun _ _ => 0⟩

/-- The constructor `GCFragModel(condBins, numGCBins, dspace)`. -/
def new (condBins numGCBins : Nat) (dspace : DistributionSpace) : GCFragModel K :=
  { condBins_ := condBins, numGCBins_ := numGCBins, dspace_ := dspace,
    normalized_ := false, counts_ := initCounts dspace }

/-- The method `reset(dspace)`. -/
def reset (m : GCFragModel K) (dspace : DistributionSpace) : GCFragModel K :=
  { m with normalized_ := false, dspace_ := dspace, counts_ := initCounts dspace }

/-- The row index of `inc` and `get`:
`(condBins_ > 1) ? desc.contextBin(condBins_) : 0`. -/
def ctxOf (m : GCFragModel K) (desc : GCDesc) : Option Int :=
  if m.condBins_ > 1 then desc.contextBinN (narrow32 m.condBins_) else some 0

/-- The method `inc(desc, fragWeight)`; `none` when the addressed cell is not
in the matrix or the bin computation is undefined. -/
def inc (F : Libm K) (m : GCFragModel K) (desc : GCDesc) (fragWeight : Dbl K) :
    Option (GCFragModel K) := do
  let ctx ← m.ctxOf desc
  let frag := desc.fragBin
  let old ← m.coeff ctx frag
  if m.dspace_ = DistributionSpace.LOG then
    pure { m with counts_ := m.counts_.set ctx.toNat frag.toNat (logAdd F old fragWeight) }
  else
    pure { m with counts_ := m.counts_.set ctx.toNat frag.toNat (old + fragWeight) }

/-- The calls `inc(desc, fragWeight)` for the observations of a list, in order. -/
def incAll (F : Libm K) (m : GCFragModel K) : List (GCDesc × Dbl K) → Option (GCFragModel K)
  | [] => some m
  | o :: rest => (m.inc F o.1 o.2).bind (fun m1 => incAll F m1 rest)

/-- The method `distributionSpace()`. -/
def distributionSpace (m : GCFragModel K) : DistributionSpace := m.dspace_

/-- The two nested loops of `combineCounts`, and of `ratio`: for every cell of
`this`, in row-major order, `t(r,c) = f r c (t(r,c)) (other.counts_(r,c))`. -/
def zipLoop (condBins numGCBins : Nat) (other : GCFragModel K)
    (f : Nat → Nat → Dbl K → Dbl K → Dbl K) (t : MatrixXd K) :
    Except Fault (MatrixXd K) :=
  (List.range condBins).foldlM (fun t (r : Nat) =>
    (List.range numGCBins).foldlM (fun t (c : Nat) =>
      match other.coeff (r : Int) (c : Int) with
      | some o => Except.ok (t.set r c (f r c (t.coeff r c) o))
      | none => Except.error Fault.outOfBounds) t) t

/-- The method `combineCounts(other)`: the fatal exit when the spaces differ,
otherwise the cell-wise `logAdd` (LOG) or sum (LINEAR). -/
def combineCounts (F : Libm K) (m other : GCFragModel K) : Except Fault (GCFragModel K) :=
  if m.dspace_ ≠ other.dspace_ then Except.error Fault.exit1
  else if m.dspace_ = DistributionSpace.LOG then
    (zipLoop m.condBins_ m.numGCBins_ other (fun _ _ x o => logAdd F x o) m.counts_).map
      (fun t => { m with counts_ := t })
  else
    (zipLoop m.condBins_ m.numGCBins_ other (fun _ _ x o => x + o) m.counts_).map
      (fun t => { m with counts_ := t })

/-- The accumulation loop of a row in LOG space:
`rowMass = logAdd(prior, logAdd(rowMass, counts_(r,c)))` from `LOG_0`. -/
def rowMassLog (F : Libm K) (prior : Dbl K) (numGCBins : Nat) (t : MatrixXd K)
    (r : Nat) : Dbl K :=
  (List.range numGCBins).foldl (fun rowMass c => logAdd F prior (logAdd F rowMass (t.coeff r c))) LOG_0

/-- The body of the row loop of `normalize` in LOG space (`prior` is already a logarithm). -/
def normalizeRowLog (F : Libm K) (prior : Dbl K) (numGCBins : Nat) (t : MatrixXd K)
    (r : Nat) : MatrixXd K :=
  let rowMass := rowMassLog F prior numGCBins t r
  if !isLog0 rowMass then
    (List.range numGCBins).foldl
      (fun t c => t.set r c (Dbl.exp F (logAdd F prior (t.coeff r c) - rowMass))) t
  else t

/-- The accumulation loop of a row in LINEAR space: `rowMass += (prior + counts_(r,c))` from `0.0`. -/
def rowMassLinear (prior : Dbl K) (numGCBins : Nat) (t : MatrixXd K) (r : Nat) : Dbl K :=
  (List.range numGCBins).foldl (fun rowMass c => rowMass + (prior + t.coeff r c)) 0

/-- The body of the row loop of `normalize` in LINEAR space. -/
def normalizeRowLinear (prior : Dbl K) (numGCBins : Nat) (t : MatrixXd K)
    (r : Nat) : MatrixXd K :=
  let rowMass := rowMassLinear prior numGCBins t r
  if (0 : Dbl K) < rowMass then
    let norm := (1 : Dbl K) / rowMass
    (List.range numGCBins).foldl (fun t c => t.set r c ((prior + t.coeff r c) * norm)) t
  else t

/-- The method `normalize(prior)`. -/
def normalize (F : Libm K) (m : GCFragModel K) (prior : Dbl K) : GCFragModel K :=
  if !m.normalized_ then
    let t :=
      if m.dspace_ = DistributionSpace.LOG then
        let prior := Dbl.log F prior
        (List.range m.condBins_).foldl (normalizeRowLog F prior m.numGCBins_) m.counts_
      else
        (List.range m.condBins_).foldl (normalizeRowLinear prior m.numGCBins_) m.counts_
    { m with counts_ := t, normalized_ := true, dspace_ := DistributionSpace.LINEAR }
  else m

/-- The default argument `prior = 0.1` of `normalize`. -/
def defaultPrior : Dbl K := Dbl.fin (1 / 10)

/-- The clamping of one quotient in `ratio`:
`if (rat > maxRatio) rat = maxRatio; if (rat < minRatio) rat = minRatio;`. -/
def clampRat (maxRatio minRatio rat : Dbl K) : Dbl K :=
  let rat := if maxRatio < rat then maxRatio else rat
  if rat < minRatio then minRatio else rat

/-- The states after a call `this.ratio(other, maxRatio)` on two distinct objects. -/
structure RatioResult (K : Type) where
  /-- The receiver after the call. -/
  self : GCFragModel K
  /-- The argument after the call. -/
  other : GCFragModel K
  /-- The returned model. -/
  ratioModel : GCFragModel K

/-- The method `ratio(other, maxRatio)`, called on two distinct objects. -/
def ratio (F : Libm K) (m other : GCFragModel K) (maxRatio : Dbl K) :
    Except Fault (RatioResult K) :=
  let m := if !m.normalized_ then m.normalize F defaultPrior else m
  let other := if !other.normalized_ then other.normalize F defaultPrior else other
  let minRatio := (1 : Dbl K) / maxRatio
  let ratioModel : GCFragModel K := new m.condBins_ m.numGCBins_ m.dspace_
  (zipLoop m.condBins_ m.numGCBins_ other
      (fun r c _ o => clampRat maxRatio minRatio (m.counts_.coeff r c / o)) ratioModel.counts_).map
    (fun t => { self := m, other := other, ratioModel := { ratioModel with counts_ := t } })

end GCFragModel

/-! ## Notions of the specification -/

section SpecNotions

variable {K : Type} [LinearOrderedField K]

/-- The sum of `f c` over the columns `c < n`, the "sum over columns" of the
specification. -/
def sumCols (n : Nat) (f : Nat → Dbl K) : Dbl K :=
  ∑ c in Finset.range n, f c

/-- Two models have the same shape. -/
def SameShape (a b : GCFragModel K) : Prop :=
  a.condBins_ = b.condBins_ ∧ a.numGCBins_ = b.numGCBins_

/-- The cell `(row, column)` that `inc` and `get` address in a table of
`condBins` rows and `numGCBins` columns, when that cell is inside the table:
the row is `(condBins > 1) ? desc.contextBin(condBins) : 0`, the column is
`desc.fragBin()`.  A descriptor is in range for a shape when this is not `none`. -/
def cellOf (condBins numGCBins : Nat) (desc : GCDesc) : Option (Nat × Nat) :=
  match (if condBins > 1 then desc.contextBinN (narrow32 condBins) else some 0) with
  | none => none
  | some ctx =>
    if 0 ≤ ctx ∧ ctx < condBins ∧ 0 ≤ desc.fragBin ∧ desc.fragBin < numGCBins then
      some (ctx.toNat, desc.fragBin.toNat)
    else none

/-- The total weight that a list of observations brings to the cell `(i, j)` of
a table of the given shape. -/
def cellTotal {M : Type} [AddCommMonoid M] (condBins numGCBins : Nat)
    (obs : List (GCDesc × M)) (i j : Nat) : M :=
  (obs.map (fun o => if cellOf condBins numGCBins o.1 = some (i, j) then o.2 else 0)).sum

/-- The states of a model that the public operations reach from construction:
the constructor, `reset`, `inc`, `combineCounts`, `normalize`, and `ratio`, which
leaves three models (the receiver, the argument, the returned model). -/
inductive Reachable (F : Libm K) : GCFragModel K → Prop
  | construct (condBins numGCBins : Nat) (dspace : DistributionSpace) :
      Reachable F (GCFragModel.new condBins numGCBins dspace)
  | reset (m : GCFragModel K) (dspace : DistributionSpace) :
      Reachable F m → Reachable F (m.reset dspace)
  | inc (m m1 : GCFragModel K) (desc : GCDesc) (w : Dbl K) :
      Reachable F m → m.inc F desc w = some m1 → Reachable F m1
  | combineCounts (m other m1 : GCFragModel K) :
      Reachable F m → Reachable F other → m.combineCounts F other = Except.ok m1 →
      Reachable F m1
  | normalize (m : GCFragModel K) (prior : Dbl K) :
      Reachable F m → Reachable F (m.normalize F prior)
  | ratioSelf (m other : GCFragModel K) (maxRatio : Dbl K) (res : GCFragModel.RatioResult K) :
      Reachable F m → Reachable F other → m.ratio F other maxRatio = Except.ok res →
      Reachable F res.self
  | ratioOther (m other : GCFragModel K) (maxRatio : Dbl K) (res : GCFragModel.RatioResult K) :
      Reachable F m → Reachable F other → m.ratio F other maxRatio = Except.ok res →
      Reachable F res.other
  | ratioModel (m other : GCFragModel K) (maxRatio : Dbl K) (res : GCFragModel.RatioResult K) :
      Reachable F m → Reachable F other → m.ratio F other maxRatio = Except.ok res →
      Reachable F res.ratioModel

end SpecNotions

/-! ## Binary64 arithmetic

The same program with every arithmetic result rounded to a binary64 number
(round to nearest, ties to even, overflow to an infinity), over `Dbl ℚ`. -/

/-- The integer nearest to an exact value, a tie going to the even one. -/
def roundEven (y : ℚ) : Int :=
  if y - ⌊y⌋ < 1 / 2 then ⌊y⌋
  else if 1 / 2 < y - ⌊y⌋ then ⌊y⌋ + 1
  else if ⌊y⌋ % 2 = 0 then ⌊y⌋ else ⌊y⌋ + 1

/-- The exponent of the unit in the last place of the binary64 numbers of the
magnitude of `x`: 52 below the binary exponent of `x`, which is taken not below
`-1022` (the subnormal numbers share the unit `2^-1074`). -/
def ulpExp (x : ℚ) : Int := max (Int.log 2 |x|) (-1022) - 52

/-- The binary64 number nearest to an exact value (ties to even): the
multiple of the unit in the last place nearest to it, an infinity when that
multiple is `2^1024` or more in magnitude. -/
def fl64 (x : ℚ) : Dbl ℚ :=
  let y : ℚ := (roundEven (x / 2 ^ ulpExp x) : ℚ) * 2 ^ ulpExp x
  if (2 : ℚ) ^ (1024 : Int) ≤ |y| then Dbl.inf (decide (0 < x)) else Dbl.fin y

/-- The rounding of an exact result to a double: a finite result is rounded to
binary64, an infinity and NaN stay. -/
def Dbl.rnd : Dbl ℚ → Dbl ℚ
  | Dbl.fin x => fl64 x
  | d => d

namespace Binary64

/-- The sum `a + b` of two doubles, in binary64. -/
def add (a b : Dbl ℚ) : Dbl ℚ := (a + b).rnd

/-- The difference `a - b` of two doubles, in binary64. -/
def sub (a b : Dbl ℚ) : Dbl ℚ := (a - b).rnd

/-- The product `a * b` of two doubles, in binary64. -/
def mul (a b : Dbl ℚ) : Dbl ℚ := (a * b).rnd

/-- The quotient `a / b` of two doubles, in binary64. -/
def div (a b : Dbl ℚ) : Dbl ℚ := (a / b).rnd

/-- The library functions that the program calls, as functions on doubles:
`std::exp`, `std::log`, and `salmon::math::logAdd` of `SalmonMath.hpp` (not among
the sources).  The sources do not fix how they round: they are a parameter of
the program in binary64. -/
structure Lib where
  /-- The function `std::exp`. -/
  exp : Dbl ℚ → Dbl ℚ
  /-- The function `std::log`. -/
  log : Dbl ℚ → Dbl ℚ
  /-- The function `salmon::math::logAdd`. -/
  logAdd : Dbl ℚ → Dbl ℚ → Dbl ℚ

/-- Modelled from the spec: a library whose results are the exact ones rounded
to binary64, with "`logAdd(a,b) = log(exp(a)+exp(b))`". -/
def Lib.ofLibm (F : Libm ℚ) : Lib where
  exp a := (Dbl.exp F a).rnd
  log a := (Dbl.log F a).rnd
  logAdd a b := (Dbl.log F (add (Dbl.exp F a).rnd (Dbl.exp F b).rnd)).rnd

/-- The shared body of `fragBin(n)` and `contextBin(n)` in binary64:
`w = 100.0 / n; min(n-1, static_cast<int32_t>(frac / w))`, both quotients
rounded; `none` when the conversion is undefined or `n-1` overflows. -/
def binOf (frac n : Int) : Option Int :=
  let w : Dbl ℚ := div (Dbl.fin 100) (Dbl.fin (n : ℚ))
  if inInt32 (n - 1) then
    (castInt32 (div (Dbl.fin (frac : ℚ)) w)).map (fun b => min (n - 1) b)
  else none

/-- The accessor `fragBin(int32_t n)` in binary64. -/
def fragBinN (d : GCDesc) (n : Int) : Option Int := binOf d.fragFrac n

/-- The accessor `contextBin(int32_t n)` in binary64. -/
def contextBinN (d : GCDesc) (n : Int) : Option Int := binOf d.contextFrac n

/-- The row index of `inc` in binary64:
`(condBins_ > 1) ? desc.contextBin(condBins_) : 0`. -/
def ctxOf (m : GCFragModel ℚ) (desc : GCDesc) : Option Int :=
  if m.condBins_ > 1 then contextBinN desc (narrow32 m.condBins_) else some 0

/-- The method `inc(desc, fragWeight)` in binary64; `none` when the addressed
cell is not in the matrix or the bin computation is undefined. -/
def inc (L : Lib) (m : GCFragModel ℚ) (desc : GCDesc) (fragWeight : Dbl ℚ) :
    Option (GCFragModel ℚ) := do
  let ctx ← ctxOf m desc
  let frag := desc.fragBin
  let old ← m.coeff ctx frag
  if m.dspace_ = DistributionSpace.LOG then
    pure { m with counts_ := m.counts_.set ctx.toNat frag.toNat (L.logAdd old fragWeight) }
  else
    pure { m with counts_ := m.counts_.set ctx.toNat frag.toNat (add old fragWeight) }

/-- The calls `inc(desc, fragWeight)` for the observations of a list, in order, in binary64. -/
def incAll (L : Lib) (m : GCFragModel ℚ) : List (GCDesc × Dbl ℚ) → Option (GCFragModel ℚ)
  | [] => some m
  | o :: rest => (inc L m o.1 o.2).bind (fun m1 => incAll L m1 rest)

/-- The method `combineCounts(other)` in binary64: the fatal exit when the
spaces differ, otherwise the cell-wise `logAdd` (LOG) or sum (LINEAR). -/
def combineCounts (L : Lib) (m other : GCFragModel ℚ) : Except Fault (GCFragModel ℚ) :=
  if m.dspace_ ≠ other.dspace_ then Except.error Fault.exit1
  else if m.dspace_ = DistributionSpace.LOG then
    (GCFragModel.zipLoop m.condBins_ m.numGCBins_ other (fun _ _ x o => L.logAdd x o)
      m.counts_).map (fun t => { m with counts_ := t })
  else
    (GCFragModel.zipLoop m.condBins_ m.numGCBins_ other (fun _ _ x o => add x o)
      m.counts_).map (fun t => { m with counts_ := t })

/-- The accumulation loop of a row in LOG space, in binary64:
`rowMass = logAdd(prior, logAdd(rowMass, counts_(r,c)))` from `LOG_0`. -/
def rowMassLog (L : Lib) (prior : Dbl ℚ) (numGCBins : Nat) (t : MatrixXd ℚ)
    (r : Nat) : Dbl ℚ :=
  (List.range numGCBins).foldl (fun rowMass c => L.logAdd prior (L.logAdd rowMass (t.coeff r c))) LOG_0

/-- The body of the row loop of `normalize` in LOG space, in binary64
(`prior` is already a logarithm). -/
def normalizeRowLog (L : Lib) (prior : Dbl ℚ) (numGCBins : Nat) (t : MatrixXd ℚ)
    (r : Nat) : MatrixXd ℚ :=
  let rowMass := rowMassLog L prior numGCBins t r
  if !isLog0 rowMass then
    (List.range numGCBins).foldl
      (fun t c => t.set r c (L.exp (sub (L.logAdd prior (t.coeff r c)) rowMass))) t
  else t

/-- The accumulation loop of a row in LINEAR space, in binary64:
`rowMass += (prior + counts_(r,c))` from `0.0`. -/
def rowMassLinear (prior : Dbl ℚ) (numGCBins : Nat) (t : MatrixXd ℚ) (r : Nat) : Dbl ℚ :=
  (List.range numGCBins).foldl (fun rowMass c => add rowMass (add prior (t.coeff r c))) 0

/-- The body of the row loop of `normalize` in LINEAR space, in binary64. -/
def normalizeRowLinear (prior : Dbl ℚ) (numGCBins : Nat) (t : MatrixXd ℚ)
    (r : Nat) : MatrixXd ℚ :=
  let rowMass := rowMassLinear prior numGCBins t r
  if (0 : Dbl ℚ) < rowMass then
    let norm := div (1 : Dbl ℚ) rowMass
    (List.range numGCBins).foldl (fun t c => t.set r c (mul (add prior (t.coeff r c)) norm)) t
  else t

/-- The method `normalize(prior)` in binary64. -/
def normalize (L : Lib) (m : GCFragModel ℚ) (prior : Dbl ℚ) : GCFragModel ℚ :=
  if !m.normalized_ then
    let t :=
      if m.dspace_ = DistributionSpace.LOG then
        let prior := L.log prior
        (List.range m.condBins_).foldl (normalizeRowLog L prior m.numGCBins_) m.counts_
      else
        (List.range m.condBins_).foldl (normalizeRowLinear prior m.numGCBins_) m.counts_
    { m with counts_ := t, normalized_ := true, dspace_ := DistributionSpace.LINEAR }
  else m

end Binary64

/-! ## Arithmetic of exact doubles -/

namespace Dbl

variable {K : Type} [LinearOrderedField K]

theorem zero_eq : (0 : Dbl K) = fin 0 := rfl

theorem one_eq : (1 : Dbl K) = fin 1 := rfl

@[simp] theorem fin_add_fin (a b : K) : (fin a + fin b : Dbl K) = fin (a + b) := rfl

@[simp] theorem fin_sub_fin (a b : K) : (fin a - fin b : Dbl K) = fin (a - b) := by
  show add (fin a) (neg (fin b)) = _
  simp [add, neg, sub_eq_add_neg]

@[simp] theorem fin_mul_fin (a b : K) : (fin a * fin b : Dbl K) = fin (a * b) := rfl

theorem fin_div_fin (a b : K) (hb : b ≠ 0) : (fin a / fin b : Dbl K) = fin (a / b) := by
  show div (fin a) (fin b) = _
  simp [div, hb]

@[simp] theorem fin_lt_fin (a b : K) : (fin a < fin b) ↔ a < b := by
  show blt (fin a) (fin b) = true ↔ _
  simp [blt]

@[simp] theorem not_nan_lt (a : Dbl K) : ¬ (nan < a) := by
  show ¬ (blt nan a = true)
  cases a <;> simp [blt]

@[simp] theorem not_lt_nan (a : Dbl K) : ¬ (a < nan) := by
  show ¬ (blt a nan = true)
  cases a <;> simp [blt]

@[simp] theorem fin_lt_pinf (a : K) : (fin a : Dbl K) < pinf := by
  show blt (fin a) pinf = true
  rfl

@[simp] theorem ninf_lt_fin (a : K) : (ninf : Dbl K) < fin a := by
  show blt ninf (fin a) = true
  rfl

@[simp] theorem not_pinf_lt (a : Dbl K) : ¬ (pinf < a) := by
  show ¬ (blt pinf a = true)
  cases a <;> simp [blt]

@[simp] theorem not_lt_ninf (a : Dbl K) : ¬ (a < ninf) := by
  show ¬ (blt a ninf = true)
  cases a <;> simp [blt]

@[simp] theorem nan_add (a : Dbl K) : nan + a = nan := by
  cases a <;> rfl

@[simp] theorem add_nan (a : Dbl K) : a + nan = nan := by
  cases a <;> rfl

@[simp] theorem sub_nan (a : Dbl K) : a - nan = nan := by
  cases a <;> rfl

@[simp] theorem nan_sub (a : Dbl K) : nan - a = nan := by
  cases a <;> rfl

@[simp] theorem nan_div (a : Dbl K) : nan / a = nan := by
  cases a <;> rfl

@[simp] theorem div_nan (a : Dbl K) : a / nan = nan := by
  cases a <;> rfl

@[simp] theorem exp_nan (F : Libm K) : exp F nan = nan := rfl

@[simp] theorem log_nan (F : Libm K) : log F nan = nan := rfl

@[simp] theorem exp_ninf (F : Libm K) : exp F ninf = fin 0 := rfl

@[simp] theorem exp_fin (F : Libm K) (x : K) : exp F (fin x) = fin (F.exp x) := rfl

theorem ltIrrefl (a : Dbl K) : ¬ (a < a) := by
  show ¬ (blt a a = true)
  cases a <;> simp [blt]

/-- Multiplying by the inverse of a positive mass is dividing by it. -/
theorem mul_one_div (x M : Dbl K) (hM : 0 < M) : x * (1 / M) = x / M := by
  cases M with
  | nan => exact absurd hM (not_lt_nan _)
  | ninf => exact absurd hM (not_lt_ninf _)
  | pinf =>
    show mul x (div (fin 1) pinf) = div x pinf
    cases x with
    | nan => rfl
    | ninf => simp [mul, div]
    | pinf => simp [mul, div]
    | fin a => simp [mul, div]
  | fin b =>
    have hb : 0 < b := by simpa [zero_eq] using hM
    have hb0 : b ≠ 0 := ne_of_gt hb
    have hinv : (0 : K) < 1 / b := by positivity
    show mul x (div (fin 1) (fin b)) = div x (fin b)
    cases x with
    | nan => simp [mul, div, hb0]
    | ninf => simp [mul, div, hb0, inf, not_lt.mpr hb.le]
    | pinf => simp [mul, div, hb0, inf, hb.le, hb]
    | fin a => simp [mul, div, hb0, div_eq_mul_inv]

end Dbl

/-! ## Sums over the columns -/

section Sums

variable {K : Type} [LinearOrderedField K]

theorem foldl_range_add (n : Nat) (f : Nat → Dbl K) (a : Dbl K) :
    (List.range n).foldl (fun acc c => acc + f c) a = a + sumCols n f := by
  induction n with
  | zero => simp [sumCols]
  | succ k ih =>
    rw [List.range_succ, List.foldl_append, ih]
    simp [sumCols, Finset.sum_range_succ, add_assoc]

theorem sumCols_fin (n : Nat) (g : Nat → K) :
    sumCols n (fun c => Dbl.fin (g c)) = Dbl.fin (∑ c in Finset.range n, g c) := by
  unfold sumCols
  induction n with
  | zero => simp [Dbl.zero_eq]
  | succ k ih => rw [Finset.sum_range_succ, Finset.sum_range_succ, ih, Dbl.fin_add_fin]

theorem sumCols_congr (n : Nat) (f g : Nat → Dbl K) (h : ∀ c, c < n → f c = g c) :
    sumCols n f = sumCols n g := by
  unfold sumCols
  exact Finset.sum_congr rfl (fun c hc => h c (Finset.mem_range.mp hc))

theorem Dbl.eq_fin_of_isFinite (a : Dbl K) (h : a.IsFinite) : a = Dbl.fin a.val := by
  cases a with
  | fin x => rfl
  | nan => exact absurd h id
  | ninf => exact absurd h id
  | pinf => exact absurd h id

end Sums

/-! ## The loops over the matrix -/

section Loops

variable {K : Type}

theorem MatrixXd.ext_coeff {s t : MatrixXd K} (h : ∀ i j, s.coeff i j = t.coeff i j) : s = t := by
  cases s; cases t
  congr
  funext i j
  exact h i j

theorem MatrixXd.coeff_set (t : MatrixXd K) (r c : Nat) (v : Dbl K) (i j : Nat) :
    (t.set r c v).coeff i j = if i = r ∧ j = c then v else t.coeff i j := rfl

/-- A loop over the columns of row `r` that rewrites each cell from its own old value. -/
theorem foldl_set_row (r : Nat) (h : Nat → Dbl K → Dbl K) (n : Nat) (t : MatrixXd K) :
    ∀ i j : Nat,
    ((List.range n).foldl (fun t c => t.set r c (h c (t.coeff r c))) t).coeff i j =
      if i = r ∧ j < n then h j (t.coeff r j) else t.coeff i j := by
  induction n with
  | zero => intro i j; simp
  | succ k ih =>
    intro i j
    rw [List.range_succ, List.foldl_append]
    simp only [List.foldl_cons, List.foldl_nil, MatrixXd.coeff_set, ih]
    by_cases hi : i = r
    · by_cases hj : j = k
      · simp [hi, hj]
      · by_cases hlt : j < k
        · have : j < k + 1 := by omega
          simp [hi, hj, hlt, this]
        · have : ¬ j < k + 1 := by omega
          simp [hi, hj, hlt, this]
    · simp [hi]

/-- A loop over the rows whose body rewrites row `r` only, from row `r` only. -/
theorem foldl_rows (op : MatrixXd K → Nat → MatrixXd K)
    (hframe : ∀ t r i j, i ≠ r → (op t r).coeff i j = t.coeff i j)
    (hlocal : ∀ t s r, (∀ j, t.coeff r j = s.coeff r j) →
      ∀ j, (op t r).coeff r j = (op s r).coeff r j)
    (n : Nat) (t : MatrixXd K) :
    ∀ i j : Nat, ((List.range n).foldl op t).coeff i j =
      if i < n then (op t i).coeff i j else t.coeff i j := by
  induction n with
  | zero => intro i j; simp
  | succ k ih =>
    intro i j
    rw [List.range_succ, List.foldl_append]
    simp only [List.foldl_cons, List.foldl_nil]
    by_cases hi : i = k
    · subst hi
      have hrow : ∀ j, ((List.range i).foldl op t).coeff i j = t.coeff i j := by
        intro j; rw [ih]; simp
      rw [hlocal _ t i hrow j]
      simp
    · rw [hframe _ _ _ _ hi, ih]
      by_cases hlt : i < k
      · have : i < k + 1 := by omega
        simp [hlt, this]
      · have : ¬ i < k + 1 := by omega
        simp [hlt, this]

theorem foldlM_ok {α β ε : Type} (f : β → α → Except ε β) (g : β → α → β) (l : List α)
    (h : ∀ b a, a ∈ l → f b a = Except.ok (g b a)) (b : β) :
    l.foldlM f b = Except.ok (l.foldl g b) := by
  induction l generalizing b with
  | nil => rfl
  | cons a l ih =>
    rw [List.foldlM_cons, h b a (List.mem_cons_self a l)]
    exact ih (fun b x hx => h b x (List.mem_cons_of_mem a hx)) (g b a)

theorem foldlM_ne_error {α β ε : Type} (f : β → α → Except ε β) (e : ε) (l : List α)
    (h : ∀ b a, f b a ≠ Except.error e) (b : β) :
    l.foldlM f b ≠ Except.error e := by
  induction l generalizing b with
  | nil => intro hc; cases hc
  | cons a l ih =>
    rw [List.foldlM_cons]
    cases hfa : f b a with
    | error x =>
      intro hc
      apply h b a
      rw [hfa]
      exact hc
    | ok y => exact ih y

end Loops

section ZipLoop

variable {K : Type} [LinearOrderedField K]

open GCFragModel

omit [LinearOrderedField K] in
theorem GCFragModel.coeff_natCast (m : GCFragModel K) (r c : Nat)
    (hr : r < m.condBins_) (hc : c < m.numGCBins_) :
    m.coeff (r : Int) (c : Int) = some (m.counts_.coeff r c) := by
  unfold GCFragModel.coeff
  have h : (0 : Int) ≤ (r : Int) ∧ (r : Int) < (m.condBins_ : Int) ∧ (0 : Int) ≤ (c : Int) ∧
      (c : Int) < (m.numGCBins_ : Int) := by
    refine ⟨by omega, by omega, by omega, by omega⟩
  rw [if_pos h]
  simp

omit [LinearOrderedField K] in
/-- The nested loops as a pure fold, once `other` is known to cover the cells that are read. -/
theorem zipLoop_eq (R n : Nat) (other : GCFragModel K)
    (f : Nat → Nat → Dbl K → Dbl K → Dbl K) (t : MatrixXd K)
    (hR : R ≤ other.condBins_) (hn : n ≤ other.numGCBins_) :
    zipLoop R n other f t = Except.ok ((List.range R).foldl (fun t r =>
      (List.range n).foldl (fun t c =>
        t.set r c (f r c (t.coeff r c) (other.counts_.coeff r c))) t) t) := by
  unfold zipLoop
  apply foldlM_ok
  intro b r hr
  apply foldlM_ok
  intro b c hc
  have hr1 : r < other.condBins_ := lt_of_lt_of_le (List.mem_range.mp hr) hR
  have hc1 : c < other.numGCBins_ := lt_of_lt_of_le (List.mem_range.mp hc) hn
  rw [GCFragModel.coeff_natCast other r c hr1 hc1]

omit [LinearOrderedField K] in
theorem zipLoop_fold_coeff (R n : Nat) (o : MatrixXd K)
    (f : Nat → Nat → Dbl K → Dbl K → Dbl K) (t : MatrixXd K) (i j : Nat) :
    ((List.range R).foldl (fun t r =>
      (List.range n).foldl (fun t c =>
        t.set r c (f r c (t.coeff r c) (o.coeff r c))) t) t).coeff i j =
      if i < R ∧ j < n then f i j (t.coeff i j) (o.coeff i j) else t.coeff i j := by
  have hinner : ∀ (t : MatrixXd K) (r i j : Nat),
      ((List.range n).foldl (fun t c =>
        t.set r c (f r c (t.coeff r c) (o.coeff r c))) t).coeff i j =
      if i = r ∧ j < n then f r j (t.coeff r j) (o.coeff r j) else t.coeff i j := by
    intro t r i j
    exact foldl_set_row r (fun c x => f r c x (o.coeff r c)) n t i j
  rw [foldl_rows (fun t r => (List.range n).foldl (fun t c =>
        t.set r c (f r c (t.coeff r c) (o.coeff r c))) t)]
  · rw [hinner]
    by_cases hi : i < R <;> by_cases hj : j < n <;> simp [hi, hj]
  · intro t r i j hne
    show ((List.range n).foldl _ t).coeff i j = _
    rw [hinner]
    simp [hne]
  · intro t s r hrow j
    show ((List.range n).foldl _ t).coeff r j = ((List.range n).foldl _ s).coeff r j
    rw [hinner, hinner, hrow]

omit [LinearOrderedField K] in
/-- The nested loops never take the fatal exit. -/
theorem zipLoop_ne_exit (R n : Nat) (other : GCFragModel K)
    (f : Nat → Nat → Dbl K → Dbl K → Dbl K) (t : MatrixXd K) :
    zipLoop R n other f t ≠ Except.error Fault.exit1 := by
  unfold zipLoop
  apply foldlM_ne_error
  intro b r
  apply foldlM_ne_error
  intro b c
  cases other.coeff (r : Int) (c : Int) with
  | none => intro hc; cases hc
  | some o => intro hc; cases hc

end ZipLoop

/-! ## Normalization in LINEAR space -/

section NormalizeLinear

variable {K : Type} [LinearOrderedField K]

open GCFragModel

theorem rowMassLinear_eq (prior : Dbl K) (n : Nat) (t : MatrixXd K) (r : Nat) :
    rowMassLinear prior n t r = sumCols n (fun c => prior + t.coeff r c) := by
  unfold rowMassLinear
  rw [foldl_range_add n (fun c => prior + t.coeff r c) 0, zero_add]

theorem normalizeRowLinear_coeff (prior : Dbl K) (n : Nat) (t : MatrixXd K) (r i j : Nat) :
    (normalizeRowLinear prior n t r).coeff i j =
      if i = r ∧ j < n ∧ 0 < sumCols n (fun c => prior + t.coeff r c) then
        (prior + t.coeff r j) / sumCols n (fun c => prior + t.coeff r c)
      else t.coeff i j := by
  unfold normalizeRowLinear
  simp only [rowMassLinear_eq]
  by_cases hM : (0 : Dbl K) < sumCols n (fun c => prior + t.coeff r c)
  · rw [if_pos hM]
    rw [foldl_set_row r (fun _ x => (prior + x) * (1 / sumCols n (fun c => prior + t.coeff r c)))]
    by_cases hij : i = r ∧ j < n
    · rw [if_pos hij, if_pos ⟨hij.1, hij.2, hM⟩, Dbl.mul_one_div _ _ hM]
    · rw [if_neg hij, if_neg (fun h => hij ⟨h.1, h.2.1⟩)]
  · rw [if_neg hM, if_neg (fun h => hM h.2.2)]

/-- The table of `normalize` in LINEAR space, cell by cell. -/
theorem normalize_linear_coeff (F : Libm K) (m : GCFragModel K) (prior : Dbl K)
    (hlin : m.dspace_ = DistributionSpace.LINEAR) (hnn : m.normalized_ = false) (i j : Nat) :
    (m.normalize F prior).counts_.coeff i j =
      if i < m.condBins_ ∧ j < m.numGCBins_ ∧
          0 < sumCols m.numGCBins_ (fun c => prior + m.counts_.coeff i c) then
        (prior + m.counts_.coeff i j) / sumCols m.numGCBins_ (fun c => prior + m.counts_.coeff i c)
      else m.counts_.coeff i j := by
  have hne : m.dspace_ ≠ DistributionSpace.LOG := by rw [hlin]; decide
  unfold GCFragModel.normalize
  simp only [hnn, hne, Bool.not_false, if_true, if_false]
  rw [foldl_rows (normalizeRowLinear prior m.numGCBins_)]
  · rw [normalizeRowLinear_coeff]
    by_cases hi : i < m.condBins_
    · simp [hi]
    · simp [hi]
  · intro t r i j hne
    rw [normalizeRowLinear_coeff, if_neg (fun h => hne h.1)]
  · intro t s r hrow j
    have hsum : sumCols m.numGCBins_ (fun c => prior + t.coeff r c) =
        sumCols m.numGCBins_ (fun c => prior + s.coeff r c) := by
      congr 1
      funext c
      rw [hrow]
    rw [normalizeRowLinear_coeff, normalizeRowLinear_coeff, hsum, hrow]

theorem normalize_flags (F : Libm K) (m : GCFragModel K) (prior : Dbl K) :
    (m.normalize F prior).condBins_ = m.condBins_ ∧
    (m.normalize F prior).numGCBins_ = m.numGCBins_ ∧
    (m.normalize F prior).normalized_ = true ∧
    (m.normalized_ = false → (m.normalize F prior).dspace_ = DistributionSpace.LINEAR) := by
  unfold GCFragModel.normalize
  cases h : m.normalized_ <;> simp [h]

theorem inc_linear_eq (F : Libm K) (m : GCFragModel K) (d : GCDesc) (w : Dbl K) (r : Int)
    (hlin : m.dspace_ = DistributionSpace.LINEAR) (hctx : m.ctxOf d = some r)
    (hin : 0 ≤ r ∧ r < m.condBins_ ∧ 0 ≤ d.fragFrac ∧ d.fragFrac < m.numGCBins_) :
    m.inc F d w = some (GCFragModel.mk m.condBins_ m.numGCBins_ m.dspace_ m.normalized_
      (m.counts_.set r.toNat d.fragFrac.toNat (m.counts_.coeff r.toNat d.fragFrac.toNat + w))) := by
  have hcoeff : m.coeff r d.fragFrac = some (m.counts_.coeff r.toNat d.fragFrac.toNat) := by
    unfold GCFragModel.coeff
    rw [if_pos hin]
  have hne : m.dspace_ ≠ DistributionSpace.LOG := by rw [hlin]; decide
  simp [GCFragModel.inc, hctx, GCDesc.fragBin, hcoeff, hne]

/-- The table of the scenario: weight 1 three times at the fragment percentile 50
and once at 90, on a fresh 1 x 101 LINEAR model. -/
theorem scenario_incAll (F : Libm ℚ) :
    (GCFragModel.new 1 101 DistributionSpace.LINEAR : GCFragModel ℚ).incAll F
      [(GCDesc.mk 50 0, 1), (GCDesc.mk 50 0, 1), (GCDesc.mk 50 0, 1), (GCDesc.mk 90 0, 1)] =
      some (GCFragModel.mk 1 101 DistributionSpace.LINEAR false
        (MatrixXd.mk (fun i j => if i = 0 ∧ j = 90 then Dbl.fin 1
          else if i = 0 ∧ j = 50 then Dbl.fin 3 else Dbl.fin 0))) := by
  have step : ∀ (t : MatrixXd ℚ) (f : Int) (_ : 0 ≤ f ∧ f < 101),
      (GCFragModel.mk 1 101 DistributionSpace.LINEAR false t).inc F (GCDesc.mk f 0) 1 =
        some (GCFragModel.mk 1 101 DistributionSpace.LINEAR false
          (t.set 0 f.toNat (t.coeff 0 f.toNat + 1))) := by
    intro t f hf
    have hin : (0 : Int) ≤ 0 ∧ (0 : Int) < ((1 : Nat) : Int) ∧ 0 ≤ f ∧ f < ((101 : Nat) : Int) :=
      ⟨le_refl _, by norm_num, hf.1, by simpa using hf.2⟩
    exact inc_linear_eq _ _ (GCDesc.mk f 0) 1 0 rfl rfl hin
  have hd : DistributionSpace.LINEAR ≠ DistributionSpace.LOG := by decide
  simp only [GCFragModel.incAll, GCFragModel.new, initCounts, if_neg hd]
  rw [step _ 50 (by decide)]
  simp only [Option.some_bind]
  rw [step _ 50 (by decide)]
  simp only [Option.some_bind]
  rw [step _ 50 (by decide)]
  simp only [Option.some_bind]
  rw [step _ 90 (by decide)]
  simp only [Option.some_bind]
  congr 2
  apply MatrixXd.ext_coeff
  intro i j
  simp only [MatrixXd.coeff_set]
  have e50 : (50 : Int).toNat = 50 := rfl
  have e90 : (90 : Int).toNat = 90 := rfl
  simp only [e50, e90]
  by_cases hi : i = 0 <;> by_cases h9 : j = 90 <;> by_cases h5 : j = 50 <;>
    simp [hi, h9, h5, Dbl.zero_eq, Dbl.one_eq]
  all_goals first | omega | norm_num

/-- The row mass of the scenario with the prior 0 is 4. -/
theorem scenario_rowMass :
    sumCols 101 (fun j => (0 : Dbl ℚ) + (MatrixXd.mk (fun i j =>
      if i = 0 ∧ j = 90 then Dbl.fin (1 : ℚ)
      else if i = 0 ∧ j = 50 then Dbl.fin 3 else Dbl.fin 0)).coeff 0 j) = Dbl.fin 4 := by
  have hf : ∀ x ∈ Finset.range 101, ((0 : Dbl ℚ) + (MatrixXd.mk (fun i j =>
      if i = 0 ∧ j = 90 then Dbl.fin (1 : ℚ)
      else if i = 0 ∧ j = 50 then Dbl.fin 3 else Dbl.fin 0)).coeff 0 x) =
      (if x = 90 then Dbl.fin (1 : ℚ) else 0) + (if x = 50 then Dbl.fin 3 else 0) := by
    intro x _
    by_cases h9 : x = 90 <;> by_cases h5 : x = 50 <;> simp [h9, h5, Dbl.zero_eq]
  unfold sumCols
  rw [Finset.sum_congr rfl hf, Finset.sum_add_distrib, Finset.sum_ite_eq', Finset.sum_ite_eq']
  norm_num

/-- In exact arithmetic a row of LINEAR space whose mass is positive sums to 1
after `normalize`. -/
theorem normalize_linear_row_sum (F : Libm K) (m : GCFragModel K) (prior : K) (r : Nat)
    (hlin : m.dspace_ = DistributionSpace.LINEAR) (hnn : m.normalized_ = false)
    (hr : r < m.condBins_)
    (hcells : ∀ c, c < m.numGCBins_ → (m.counts_.coeff r c).IsFinite)
    (hmass : 0 < sumCols m.numGCBins_ (fun c => Dbl.fin prior + m.counts_.coeff r c)) :
    sumCols m.numGCBins_ (fun c => (m.normalize F (Dbl.fin prior)).counts_.coeff r c) = 1 := by
  have hterm : ∀ c, c < m.numGCBins_ →
      Dbl.fin prior + m.counts_.coeff r c = Dbl.fin (prior + (m.counts_.coeff r c).val) := by
    intro c hc
    rw [Dbl.eq_fin_of_isFinite _ (hcells c hc)]
    rfl
  have hM : sumCols m.numGCBins_ (fun c => Dbl.fin prior + m.counts_.coeff r c) =
      Dbl.fin (∑ c in Finset.range m.numGCBins_, (prior + (m.counts_.coeff r c).val)) := by
    rw [sumCols_congr _ _ _ hterm, sumCols_fin]
  have hpos : 0 < ∑ c in Finset.range m.numGCBins_, (prior + (m.counts_.coeff r c).val) := by
    rw [hM] at hmass
    simpa [Dbl.zero_eq] using hmass
  have hcell : ∀ c, c < m.numGCBins_ →
      (m.normalize F (Dbl.fin prior)).counts_.coeff r c =
        Dbl.fin ((prior + (m.counts_.coeff r c).val) /
          ∑ c in Finset.range m.numGCBins_, (prior + (m.counts_.coeff r c).val)) := by
    intro c hc
    rw [normalize_linear_coeff F m _ hlin hnn, if_pos ⟨hr, hc, hmass⟩, hM, hterm c hc,
      Dbl.fin_div_fin _ _ (ne_of_gt hpos)]
  rw [sumCols_congr _ _ _ hcell, sumCols_fin, ← Finset.sum_div, div_self (ne_of_gt hpos)]
  rfl

end NormalizeLinear

/-! ## Logarithmic arithmetic -/

section LogArith

variable {K : Type} [LinearOrderedField K]

theorem Dbl.notNeg_exp (F : Libm K) (hF : F.Exact) (a : Dbl K) : (Dbl.exp F a).NotNeg := by
  cases a with
  | nan => exact trivial
  | ninf => exact le_refl (0 : K)
  | fin x => exact (hF.exp_pos x).le
  | pinf => exact trivial

theorem Dbl.notNeg_add (a b : Dbl K) (ha : a.NotNeg) (hb : b.NotNeg) : (a + b).NotNeg := by
  cases a with
  | nan => cases b <;> exact trivial
  | ninf => exact absurd ha id
  | pinf =>
    cases b with
    | nan => exact trivial
    | ninf => exact absurd hb id
    | pinf => exact trivial
    | fin y => exact trivial
  | fin x =>
    cases b with
    | nan => exact trivial
    | ninf => exact absurd hb id
    | pinf => exact trivial
    | fin y => exact add_nonneg ha hb

/-- The identity `exp (log s) = s` on the values that are not below zero. -/
theorem Dbl.exp_log (F : Libm K) (hF : F.Exact) (s : Dbl K) (hs : s.NotNeg) :
    Dbl.exp F (Dbl.log F s) = s := by
  cases s with
  | nan => rfl
  | ninf => exact absurd hs id
  | pinf => rfl
  | fin x =>
    have hx : 0 ≤ x := hs
    by_cases h0 : x = 0
    · simp [Dbl.log, Dbl.exp, h0]
    · have hpos : 0 < x := lt_of_le_of_ne hx (Ne.symm h0)
      simp [Dbl.log, Dbl.exp, h0, hpos, hF.exp_log x hpos]

theorem exp_logAdd (F : Libm K) (hF : F.Exact) (a b : Dbl K) :
    Dbl.exp F (logAdd F a b) = Dbl.exp F a + Dbl.exp F b := by
  unfold logAdd
  exact Dbl.exp_log F hF _ (Dbl.notNeg_add _ _ (Dbl.notNeg_exp F hF a) (Dbl.notNeg_exp F hF b))

@[simp] theorem logAdd_nan_left (F : Libm K) (b : Dbl K) : logAdd F Dbl.nan b = Dbl.nan := by
  simp [logAdd]

@[simp] theorem logAdd_nan_right (F : Libm K) (a : Dbl K) : logAdd F a Dbl.nan = Dbl.nan := by
  simp [logAdd]

theorem logAdd_comm (F : Libm K) (a b : Dbl K) : logAdd F a b = logAdd F b a := by
  unfold logAdd
  rw [add_comm]

theorem logAdd_assoc (F : Libm K) (hF : F.Exact) (a b c : Dbl K) :
    logAdd F (logAdd F a b) c = logAdd F a (logAdd F b c) := by
  have h1 := exp_logAdd F hF a b
  have h2 := exp_logAdd F hF b c
  unfold logAdd at h1 h2 ⊢
  rw [h1, h2, add_assoc]

end LogArith

/-! ## Normalization in LOG space -/

section NormalizeLog

variable {K : Type} [LinearOrderedField K]

open GCFragModel

/-- The exponential of the accumulated row mass is `sum over columns of (prior + exp cell)`. -/
theorem exp_rowMassLog (F : Libm K) (hF : F.Exact) (lp : Dbl K) (n : Nat) (t : MatrixXd K)
    (r : Nat) :
    Dbl.exp F (rowMassLog F lp n t r) =
      sumCols n (fun c => Dbl.exp F lp + Dbl.exp F (t.coeff r c)) := by
  unfold rowMassLog
  induction n with
  | zero => simp [sumCols, LOG_0, Dbl.exp, Dbl.zero_eq]
  | succ k ih =>
    rw [List.range_succ, List.foldl_append]
    simp only [List.foldl_cons, List.foldl_nil]
    rw [exp_logAdd F hF, exp_logAdd F hF, ih]
    unfold sumCols
    rw [Finset.sum_range_succ]
    abel

theorem rowMassLog_congr (F : Libm K) (lp : Dbl K) (n : Nat) (t s : MatrixXd K) (r : Nat)
    (h : ∀ j, t.coeff r j = s.coeff r j) :
    rowMassLog F lp n t r = rowMassLog F lp n s r := by
  unfold rowMassLog
  simp only [h]

theorem normalizeRowLog_coeff (F : Libm K) (lp : Dbl K) (n : Nat) (t : MatrixXd K)
    (r i j : Nat) :
    (normalizeRowLog F lp n t r).coeff i j =
      if i = r ∧ j < n ∧ rowMassLog F lp n t r ≠ LOG_0 then
        Dbl.exp F (logAdd F lp (t.coeff r j) - rowMassLog F lp n t r)
      else t.coeff i j := by
  unfold normalizeRowLog
  by_cases hM : rowMassLog F lp n t r = LOG_0
  · have h1 : (!isLog0 (rowMassLog F lp n t r)) = false := by simp [isLog0, hM]
    simp only [h1]
    rw [if_neg (show ¬ (i = r ∧ j < n ∧ rowMassLog F lp n t r ≠ LOG_0) from fun h => h.2.2 hM)]
    rfl
  · have h1 : (!isLog0 (rowMassLog F lp n t r)) = true := by simp [isLog0, hM]
    simp only [h1, if_true]
    rw [foldl_set_row r (fun _ x => Dbl.exp F (logAdd F lp x - rowMassLog F lp n t r))]
    by_cases hij : i = r ∧ j < n
    · rw [if_pos hij, if_pos ⟨hij.1, hij.2, hM⟩]
    · rw [if_neg hij, if_neg (fun h => hij ⟨h.1, h.2.1⟩)]

/-- The table of `normalize` in LOG space, cell by cell. -/
theorem normalize_log_coeff (F : Libm K) (m : GCFragModel K) (prior : Dbl K)
    (hlog : m.dspace_ = DistributionSpace.LOG) (hnn : m.normalized_ = false) (i j : Nat) :
    (m.normalize F prior).counts_.coeff i j =
      if i < m.condBins_ ∧ j < m.numGCBins_ ∧
          rowMassLog F (Dbl.log F prior) m.numGCBins_ m.counts_ i ≠ LOG_0 then
        Dbl.exp F (logAdd F (Dbl.log F prior) (m.counts_.coeff i j) -
          rowMassLog F (Dbl.log F prior) m.numGCBins_ m.counts_ i)
      else m.counts_.coeff i j := by
  unfold GCFragModel.normalize
  simp only [hnn, hlog, Bool.not_false, if_true]
  rw [foldl_rows (normalizeRowLog F (Dbl.log F prior) m.numGCBins_)]
  · rw [normalizeRowLog_coeff]
    by_cases hi : i < m.condBins_
    · simp [hi]
    · simp [hi]
  · intro t r i j hne
    rw [normalizeRowLog_coeff, if_neg (fun h => hne h.1)]
  · intro t s r hrow j
    rw [normalizeRowLog_coeff, normalizeRowLog_coeff,
      rowMassLog_congr F _ _ t s r hrow, hrow]

theorem exp_log_sub (F : Libm K) (hF : F.Exact) (u m : K) (hu : 0 ≤ u) :
    Dbl.exp F (Dbl.log F (Dbl.fin u) - Dbl.fin m) = Dbl.fin (u / F.exp m) := by
  by_cases h0 : u = 0
  · subst h0
    have : (Dbl.log F (Dbl.fin (0 : K)) - Dbl.fin m : Dbl K) = Dbl.ninf := by
      show Dbl.add (Dbl.log F (Dbl.fin 0)) (Dbl.neg (Dbl.fin m)) = _
      simp [Dbl.log, Dbl.add, Dbl.neg]
    rw [this]
    simp [Dbl.exp]
  · have hpos : 0 < u := lt_of_le_of_ne hu (Ne.symm h0)
    have : Dbl.log F (Dbl.fin u) = Dbl.fin (F.log u) := by simp [Dbl.log, h0, hpos]
    rw [this, Dbl.fin_sub_fin]
    simp [Dbl.exp, hF.exp_sub, hF.exp_log u hpos]

theorem exp_fin_or_log0 (F : Libm K) (hF : F.Exact) (a : Dbl K)
    (h : a = LOG_0 ∨ a.IsFinite) :
    Dbl.exp F a = Dbl.fin (Dbl.exp F a).val ∧ 0 ≤ (Dbl.exp F a).val := by
  cases a with
  | nan => rcases h with h | h
           · cases h
           · exact absurd h id
  | pinf => rcases h with h | h
            · cases h
            · exact absurd h id
  | ninf => exact ⟨rfl, le_refl (0 : K)⟩
  | fin x => exact ⟨rfl, (hF.exp_pos x).le⟩

/-- In exact arithmetic a row of LOG space whose accumulated mass is not `LOG_0`
sums to 1 after `normalize`. -/
theorem normalize_log_row_sum (F : Libm K) (hF : F.Exact) (m : GCFragModel K) (prior : K)
    (r : Nat) (hlog : m.dspace_ = DistributionSpace.LOG) (hnn : m.normalized_ = false)
    (hr : r < m.condBins_) (hp : 0 ≤ prior)
    (hcells : ∀ c, c < m.numGCBins_ → m.counts_.coeff r c = LOG_0 ∨ (m.counts_.coeff r c).IsFinite)
    (hmass : rowMassLog F (Dbl.log F (Dbl.fin prior)) m.numGCBins_ m.counts_ r ≠ LOG_0) :
    sumCols m.numGCBins_ (fun c => (m.normalize F (Dbl.fin prior)).counts_.coeff r c) = 1 := by
  have hlp : Dbl.exp F (Dbl.log F (Dbl.fin prior)) = Dbl.fin prior := Dbl.exp_log F hF _ hp
  have hterm : ∀ c, c < m.numGCBins_ →
      Dbl.exp F (Dbl.log F (Dbl.fin prior)) + Dbl.exp F (m.counts_.coeff r c) =
        Dbl.fin (prior + (Dbl.exp F (m.counts_.coeff r c)).val) := by
    intro c hc
    rw [hlp, (exp_fin_or_log0 F hF _ (hcells c hc)).1]
    rfl
  have hE := exp_rowMassLog F hF (Dbl.log F (Dbl.fin prior)) m.numGCBins_ m.counts_ r
  rw [sumCols_congr _ _ _ hterm, sumCols_fin] at hE
  generalize hMdef : rowMassLog F (Dbl.log F (Dbl.fin prior)) m.numGCBins_ m.counts_ r = M
    at hE hmass
  cases M with
  | nan => cases hE
  | pinf => cases hE
  | ninf => exact absurd rfl hmass
  | fin mu =>
    have hmu : F.exp mu =
        ∑ c in Finset.range m.numGCBins_, (prior + (Dbl.exp F (m.counts_.coeff r c)).val) := by
      have : Dbl.fin (F.exp mu) = Dbl.fin
          (∑ c in Finset.range m.numGCBins_, (prior + (Dbl.exp F (m.counts_.coeff r c)).val)) := hE
      exact Dbl.fin.inj this
    have hcell : ∀ c, c < m.numGCBins_ →
        (m.normalize F (Dbl.fin prior)).counts_.coeff r c =
          Dbl.fin ((prior + (Dbl.exp F (m.counts_.coeff r c)).val) / F.exp mu) := by
      intro c hc
      rw [normalize_log_coeff F m _ hlog hnn, hMdef, if_pos ⟨hr, hc, hmass⟩]
      unfold logAdd
      rw [hterm c hc]
      exact exp_log_sub F hF _ mu
        (add_nonneg hp (exp_fin_or_log0 F hF _ (hcells c hc)).2)
    rw [sumCols_congr _ _ _ hcell, sumCols_fin, ← Finset.sum_div, ← hmu,
      div_self (ne_of_gt (hF.exp_pos mu))]
    rfl

end NormalizeLog

/-! ## The ratio of two models -/

section Ratio

variable {K : Type} [LinearOrderedField K]

open GCFragModel

end Ratio

/-! ## Merging two models -/

section Combine

variable {K : Type} [LinearOrderedField K]

open GCFragModel

/-- The call `combineCounts` on two models of the same space, when `other`
covers the cells of `this`: the merged table, cell by cell. -/
theorem combineCounts_ok (F : Libm K) (a b : GCFragModel K) (hs : a.dspace_ = b.dspace_)
    (hR : a.condBins_ ≤ b.condBins_) (hn : a.numGCBins_ ≤ b.numGCBins_) :
    ∃ m, a.combineCounts F b = Except.ok m ∧ m.condBins_ = a.condBins_ ∧
      m.numGCBins_ = a.numGCBins_ ∧ m.dspace_ = a.dspace_ ∧ m.normalized_ = a.normalized_ ∧
      ∀ i j, m.counts_.coeff i j =
        if i < a.condBins_ ∧ j < a.numGCBins_ then
          (if a.dspace_ = DistributionSpace.LOG then
            logAdd F (a.counts_.coeff i j) (b.counts_.coeff i j)
          else a.counts_.coeff i j + b.counts_.coeff i j)
        else a.counts_.coeff i j := by
  unfold GCFragModel.combineCounts
  rw [if_neg (not_not.mpr hs)]
  by_cases hlog : a.dspace_ = DistributionSpace.LOG
  · rw [if_pos hlog, zipLoop_eq _ _ b _ _ hR hn]
    refine ⟨_, rfl, rfl, rfl, rfl, rfl, ?_⟩
    intro i j
    have h := zipLoop_fold_coeff a.condBins_ a.numGCBins_ b.counts_
      (fun _ _ x o => logAdd F x o) a.counts_ i j
    rw [h, if_pos hlog]
  · rw [if_neg hlog, zipLoop_eq _ _ b _ _ hR hn]
    refine ⟨_, rfl, rfl, rfl, rfl, rfl, ?_⟩
    intro i j
    have h := zipLoop_fold_coeff a.condBins_ a.numGCBins_ b.counts_
      (fun _ _ x o => x + o) a.counts_ i j
    rw [h, if_neg hlog]

theorem combineCounts_exit_iff (F : Libm K) (a b : GCFragModel K) :
    a.combineCounts F b = Except.error Fault.exit1 ↔ a.dspace_ ≠ b.dspace_ := by
  unfold GCFragModel.combineCounts
  constructor
  · intro h
    by_contra hs
    rw [if_neg (not_not.mpr hs)] at h
    by_cases hlog : a.dspace_ = DistributionSpace.LOG
    · rw [if_pos hlog] at h
      cases hz : zipLoop a.condBins_ a.numGCBins_ b (fun _ _ x o => logAdd F x o) a.counts_ with
      | ok t => rw [hz] at h; cases h
      | error e =>
        rw [hz] at h
        have he : e = Fault.exit1 := by
          cases e with
          | exit1 => rfl
          | outOfBounds => cases h
        rw [he] at hz
        exact zipLoop_ne_exit _ _ _ _ _ hz
    · rw [if_neg hlog] at h
      cases hz : zipLoop a.condBins_ a.numGCBins_ b (fun _ _ x o => x + o) a.counts_ with
      | ok t => rw [hz] at h; cases h
      | error e =>
        rw [hz] at h
        have he : e = Fault.exit1 := by
          cases e with
          | exit1 => rfl
          | outOfBounds => cases h
        rw [he] at hz
        exact zipLoop_ne_exit _ _ _ _ _ hz
  · intro hs
    rw [if_pos hs]

end Combine

/-! ## Flags and shape under the operations -/

section Flags

variable {K : Type} [LinearOrderedField K]

open GCFragModel

theorem initCounts_coeff (s : DistributionSpace) (i j : Nat) :
    (initCounts s : MatrixXd K).coeff i j =
      if s = DistributionSpace.LOG then LOG_0 else 0 := by
  unfold initCounts
  by_cases h : s = DistributionSpace.LOG
  · rw [if_pos h, if_pos h]
    show Dbl.mul (Dbl.fin 1) Dbl.ninf = Dbl.ninf
    simp [Dbl.mul, Dbl.inf]
  · rw [if_neg h, if_neg h]

/-- A successful `inc` keeps the dimensions, the space and the normalized flag. -/
theorem inc_flags (F : Libm K) (m m1 : GCFragModel K) (d : GCDesc) (w : Dbl K)
    (h : m.inc F d w = some m1) :
    m1.condBins_ = m.condBins_ ∧ m1.numGCBins_ = m.numGCBins_ ∧
      m1.dspace_ = m.dspace_ ∧ m1.normalized_ = m.normalized_ := by
  unfold GCFragModel.inc at h
  cases hctx : m.ctxOf d with
  | none => simp [hctx] at h
  | some ctx =>
    cases hold : m.coeff ctx d.fragBin with
    | none => simp [hctx, hold] at h
    | some old =>
      by_cases hlog : m.dspace_ = DistributionSpace.LOG
      · simp [hctx, hold, hlog] at h
        rw [← h]
        exact ⟨rfl, rfl, hlog.symm ▸ rfl, rfl⟩
      · simp [hctx, hold, hlog] at h
        rw [← h]
        exact ⟨rfl, rfl, rfl, rfl⟩

/-- A successful `combineCounts` keeps the dimensions, the space and the normalized flag. -/
theorem combineCounts_flags (F : Libm K) (m other m1 : GCFragModel K)
    (h : m.combineCounts F other = Except.ok m1) :
    m1.condBins_ = m.condBins_ ∧ m1.numGCBins_ = m.numGCBins_ ∧
      m1.dspace_ = m.dspace_ ∧ m1.normalized_ = m.normalized_ := by
  unfold GCFragModel.combineCounts at h
  by_cases hs : m.dspace_ ≠ other.dspace_
  · rw [if_pos hs] at h
    cases h
  · rw [if_neg hs] at h
    by_cases hlog : m.dspace_ = DistributionSpace.LOG
    · rw [if_pos hlog] at h
      cases hz : zipLoop m.condBins_ m.numGCBins_ other (fun _ _ x o => logAdd F x o) m.counts_ with
      | error e => rw [hz] at h; cases h
      | ok t =>
        rw [hz] at h
        cases h
        exact ⟨rfl, rfl, rfl, rfl⟩
    · rw [if_neg hlog] at h
      cases hz : zipLoop m.condBins_ m.numGCBins_ other (fun _ _ x o => x + o) m.counts_ with
      | error e => rw [hz] at h; cases h
      | ok t =>
        rw [hz] at h
        cases h
        exact ⟨rfl, rfl, rfl, rfl⟩

theorem normalize_of_normalized (F : Libm K) (m : GCFragModel K) (prior : Dbl K)
    (h : m.normalized_ = true) : m.normalize F prior = m := by
  unfold GCFragModel.normalize
  simp [h]

/-- What a successful `ratio` leaves: both inputs as `normalize()` with the
default prior leaves them, and a returned model built by the constructor. -/
theorem ratio_ok (F : Libm K) (a b : GCFragModel K) (maxRatio : Dbl K)
    (res : RatioResult K) (h : a.ratio F b maxRatio = Except.ok res) :
    res.self = a.normalize F defaultPrior ∧ res.other = b.normalize F defaultPrior ∧
      res.ratioModel.normalized_ = false ∧
      res.ratioModel.dspace_ = (a.normalize F defaultPrior).dspace_ ∧
      res.ratioModel.condBins_ = a.condBins_ ∧ res.ratioModel.numGCBins_ = a.numGCBins_ := by
  have ha : (if (!a.normalized_) = true then a.normalize F defaultPrior else a) =
      a.normalize F defaultPrior := by
    cases hn : a.normalized_
    · simp
    · simp [normalize_of_normalized F a _ hn]
  have hb : (if (!b.normalized_) = true then b.normalize F defaultPrior else b) =
      b.normalize F defaultPrior := by
    cases hn : b.normalized_
    · simp
    · simp [normalize_of_normalized F b _ hn]
  unfold GCFragModel.ratio at h
  simp only [ha, hb] at h
  generalize hz : zipLoop _ _ _ _ _ = z at h
  cases z with
  | error e => cases h
  | ok t =>
    cases h
    exact ⟨rfl, rfl, rfl, rfl, (normalize_flags F a defaultPrior).1,
      (normalize_flags F a defaultPrior).2.1⟩

/-- The call `ratio` when `other` covers the shape of the receiver: it succeeds,
and the returned table holds the clamped quotients of the two normalized tables. -/
theorem ratio_covered (F : Libm K) (a b : GCFragModel K) (maxRatio : Dbl K)
    (hR : a.condBins_ ≤ b.condBins_) (hn : a.numGCBins_ ≤ b.numGCBins_) :
    ∃ res, a.ratio F b maxRatio = Except.ok res ∧
      ∀ i j, i < a.condBins_ → j < a.numGCBins_ →
        res.ratioModel.counts_.coeff i j =
          clampRat maxRatio (1 / maxRatio)
            ((a.normalize F defaultPrior).counts_.coeff i j /
              (b.normalize F defaultPrior).counts_.coeff i j) := by
  have ha : (if (!a.normalized_) = true then a.normalize F defaultPrior else a) =
      a.normalize F defaultPrior := by
    cases hn : a.normalized_
    · simp
    · simp [normalize_of_normalized F a _ hn]
  have hb : (if (!b.normalized_) = true then b.normalize F defaultPrior else b) =
      b.normalize F defaultPrior := by
    cases hn : b.normalized_
    · simp
    · simp [normalize_of_normalized F b _ hn]
  have fa := normalize_flags F a defaultPrior
  have fb := normalize_flags F b defaultPrior
  unfold GCFragModel.ratio
  simp only [ha, hb]
  rw [zipLoop_eq _ _ (b.normalize F defaultPrior) _ _ (by rw [fa.1, fb.1]; exact hR)
    (by rw [fa.2.1, fb.2.1]; exact hn)]
  refine ⟨_, rfl, ?_⟩
  intro i j hi hj
  have h := zipLoop_fold_coeff (a.normalize F defaultPrior).condBins_
    (a.normalize F defaultPrior).numGCBins_ (b.normalize F defaultPrior).counts_
    (fun r c _ o => clampRat maxRatio (1 / maxRatio)
      ((a.normalize F defaultPrior).counts_.coeff r c / o))
    (GCFragModel.new (a.normalize F defaultPrior).condBins_
      (a.normalize F defaultPrior).numGCBins_ (a.normalize F defaultPrior).dspace_).counts_ i j
  rw [if_pos ⟨by rw [fa.1]; exact hi, by rw [fa.2.1]; exact hj⟩] at h
  exact h

end Flags

/-! ## The bin descriptor -/

section Bins

open GCDesc

theorem trunc_intCast_div (a : Int) (b : Nat) (hb : 0 < b) :
    trunc ((a : ℚ) / (b : ℚ)) = a.tdiv b := by
  have hbq : (0 : ℚ) < (b : ℚ) := by exact_mod_cast hb
  unfold trunc
  by_cases ha : 0 ≤ a
  · have hq : (0 : ℚ) ≤ (a : ℚ) / (b : ℚ) := by
      apply div_nonneg _ hbq.le
      exact_mod_cast ha
    rw [if_pos hq, Rat.floor_intCast_div_natCast, Int.tdiv_eq_ediv ha (by omega)]
  · have ha1 : a < 0 := by omega
    have hq : ¬ (0 : ℚ) ≤ (a : ℚ) / (b : ℚ) := by
      rw [not_le]
      apply div_neg_of_neg_of_pos _ hbq
      exact_mod_cast ha1
    rw [if_neg hq]
    have h1 : (a : ℚ) / (b : ℚ) = -((((-a : Int)) : ℚ) / (b : ℚ)) := by
      push_cast
      ring
    rw [h1, Int.ceil_neg, Rat.floor_intCast_div_natCast,
      ← Int.tdiv_eq_ediv (by omega) (by omega), Int.neg_tdiv, neg_neg]

/-- The body of `fragBin(n)` and `contextBin(n)` in integer arithmetic, for a positive resolution. -/
theorem binOf_eq (frac n : Int) (hn : 1 ≤ n) (hn32 : n ≤ 2147483648) :
    binOf frac n =
      if inInt32 ((frac * n).tdiv 100) then some (min (n - 1) ((frac * n).tdiv 100)) else none := by
  have hnq : (n : ℚ) ≠ 0 := by
    have : (0 : ℚ) < (n : ℚ) := by exact_mod_cast (by omega : (0 : Int) < n)
    exact ne_of_gt this
  have hw : (100 : ℚ) / (n : ℚ) ≠ 0 := div_ne_zero (by norm_num) hnq
  have hq : (frac : ℚ) / ((100 : ℚ) / (n : ℚ)) = ((frac * n : Int) : ℚ) / ((100 : Nat) : ℚ) := by
    push_cast
    field_simp
  have hn1 : inInt32 (n - 1) := by
    unfold inInt32
    constructor <;> omega
  unfold binOf
  simp only [Dbl.fin_div_fin _ _ hnq, Dbl.fin_div_fin _ _ hw, castInt32, hq,
    trunc_intCast_div _ 100 (by norm_num), if_pos hn1]
  by_cases h : inInt32 ((frac * n).tdiv 100)
  · simp [h]
  · simp [h]

end Bins

/-! ## Degenerate rows, smoothing and index safety -/

section Rows

variable {K : Type} [LinearOrderedField K]

open GCFragModel GCDesc

theorem logAdd_log0 (F : Libm K) : logAdd F (LOG_0 : Dbl K) LOG_0 = LOG_0 := by
  show Dbl.log F (Dbl.add (Dbl.fin 0) (Dbl.fin 0)) = Dbl.ninf
  simp [Dbl.add, Dbl.log]

/-- A row of `LOG_0` cells accumulates the mass `LOG_0` under the prior `log 0`. -/
theorem rowMassLog_degenerate (F : Libm K) (t : MatrixXd K) (r : Nat) (n : Nat)
    (h : ∀ c, c < n → t.coeff r c = LOG_0) : rowMassLog F LOG_0 n t r = LOG_0 := by
  unfold rowMassLog
  induction n with
  | zero => rfl
  | succ k ih =>
    rw [List.range_succ, List.foldl_append]
    simp only [List.foldl_cons, List.foldl_nil]
    rw [ih (fun c hc => h c (Nat.lt_succ_of_lt hc)), h k (Nat.lt_succ_self k), logAdd_log0,
      logAdd_log0]

/-- A normalized cell of LINEAR space as a real number. -/
theorem normalize_linear_cell_fin (F : Libm K) (m : GCFragModel K) (prior : K) (r c : Nat)
    (hlin : m.dspace_ = DistributionSpace.LINEAR) (hnn : m.normalized_ = false)
    (hr : r < m.condBins_) (hc : c < m.numGCBins_)
    (hcells : ∀ j, j < m.numGCBins_ → (m.counts_.coeff r j).IsFinite)
    (hpos : 0 < ∑ j in Finset.range m.numGCBins_, (prior + (m.counts_.coeff r j).val)) :
    (m.normalize F (Dbl.fin prior)).counts_.coeff r c =
      Dbl.fin ((prior + (m.counts_.coeff r c).val) /
        ∑ j in Finset.range m.numGCBins_, (prior + (m.counts_.coeff r j).val)) := by
  have hterm : ∀ j, j < m.numGCBins_ →
      Dbl.fin prior + m.counts_.coeff r j = Dbl.fin (prior + (m.counts_.coeff r j).val) := by
    intro j hj
    rw [Dbl.eq_fin_of_isFinite _ (hcells j hj)]
    rfl
  have hM : sumCols m.numGCBins_ (fun j => Dbl.fin prior + m.counts_.coeff r j) =
      Dbl.fin (∑ j in Finset.range m.numGCBins_, (prior + (m.counts_.coeff r j).val)) := by
    rw [sumCols_congr _ _ _ hterm, sumCols_fin]
  have hmass : 0 < sumCols m.numGCBins_ (fun j => Dbl.fin prior + m.counts_.coeff r j) := by
    rw [hM, Dbl.zero_eq, Dbl.fin_lt_fin]
    exact hpos
  rw [normalize_linear_coeff F m _ hlin hnn, if_pos ⟨hr, hc, hmass⟩, hM, hterm c hc,
    Dbl.fin_div_fin _ _ (ne_of_gt hpos)]

/-- The body of `fragBin(n)` and `contextBin(n)` with the floor of the exact
quotient, for a percentile that is not negative. -/
theorem binOf_floor (frac n : Int) (hn : 1 ≤ n) (hn32 : n ≤ 2147483647) (hf : 0 ≤ frac)
    (hrep : ⌊(frac : ℚ) / (100 / (n : ℚ))⌋ ≤ 2147483647) :
    binOf frac n = some (min (n - 1) ⌊(frac : ℚ) / (100 / (n : ℚ))⌋) := by
  have hnq : (0 : ℚ) < (n : ℚ) := by exact_mod_cast (by omega : (0 : Int) < n)
  have hw : (0 : ℚ) < 100 / (n : ℚ) := div_pos (by norm_num) hnq
  have hq : (0 : ℚ) ≤ (frac : ℚ) / (100 / (n : ℚ)) :=
    div_nonneg (by exact_mod_cast hf) hw.le
  have hn1 : inInt32 (n - 1) := by
    unfold inInt32
    constructor <;> omega
  have htr : trunc ((frac : ℚ) / (100 / (n : ℚ))) = ⌊(frac : ℚ) / (100 / (n : ℚ))⌋ := by
    unfold trunc
    rw [if_pos hq]
  have hin : inInt32 ⌊(frac : ℚ) / (100 / (n : ℚ))⌋ := by
    have : 0 ≤ ⌊(frac : ℚ) / (100 / (n : ℚ))⌋ := Int.floor_nonneg.mpr hq
    unfold inInt32
    constructor <;> omega
  unfold binOf
  simp only [Dbl.fin_div_fin _ _ (ne_of_gt hnq), Dbl.fin_div_fin _ _ (ne_of_gt hw), castInt32,
    htr, if_pos hn1, if_pos hin, Option.map_some']

/-- The body of `fragBin(n)` and `contextBin(n)` for a negative percentile: the
conversion rounds toward zero, which is the ceiling of the exact quotient. -/
theorem binOf_ceil (frac n : Int) (hn : 1 ≤ n) (hn32 : n ≤ 2147483647) (hf : frac < 0)
    (hrep : -2147483648 ≤ ⌈(frac : ℚ) / (100 / (n : ℚ))⌉) :
    binOf frac n = some (min (n - 1) ⌈(frac : ℚ) / (100 / (n : ℚ))⌉) := by
  have hnq : (0 : ℚ) < (n : ℚ) := by exact_mod_cast (by omega : (0 : Int) < n)
  have hw : (0 : ℚ) < 100 / (n : ℚ) := div_pos (by norm_num) hnq
  have hq : (frac : ℚ) / (100 / (n : ℚ)) < 0 :=
    div_neg_of_neg_of_pos (by exact_mod_cast hf) hw
  have hn1 : inInt32 (n - 1) := by
    unfold inInt32
    constructor <;> omega
  have htr : trunc ((frac : ℚ) / (100 / (n : ℚ))) = ⌈(frac : ℚ) / (100 / (n : ℚ))⌉ := by
    unfold trunc
    rw [if_neg (not_le.mpr hq)]
  have hin : inInt32 ⌈(frac : ℚ) / (100 / (n : ℚ))⌉ := by
    have : ⌈(frac : ℚ) / (100 / (n : ℚ))⌉ ≤ 0 := Int.ceil_le.mpr (by exact_mod_cast hq.le)
    unfold inInt32
    constructor <;> omega
  unfold binOf
  simp only [Dbl.fin_div_fin _ _ (ne_of_gt hnq), Dbl.fin_div_fin _ _ (ne_of_gt hw), castInt32,
    htr, if_pos hn1, if_pos hin, Option.map_some']

/-- The call `inc` when the addressed cell is inside the table, in either space. -/
theorem inc_of_ctx (F : Libm K) (m : GCFragModel K) (d : GCDesc) (w : Dbl K) (r : Int)
    (hctx : m.ctxOf d = some r)
    (hin : 0 ≤ r ∧ r < m.condBins_ ∧ 0 ≤ d.fragFrac ∧ d.fragFrac < m.numGCBins_) :
    m.inc F d w = some (GCFragModel.mk m.condBins_ m.numGCBins_ m.dspace_ m.normalized_
      (m.counts_.set r.toNat d.fragFrac.toNat
        (if m.dspace_ = DistributionSpace.LOG then
          logAdd F (m.counts_.coeff r.toNat d.fragFrac.toNat) w
        else m.counts_.coeff r.toNat d.fragFrac.toNat + w))) := by
  have hcoeff : m.coeff r d.fragFrac = some (m.counts_.coeff r.toNat d.fragFrac.toNat) := by
    unfold GCFragModel.coeff
    rw [if_pos hin]
  by_cases hlog : m.dspace_ = DistributionSpace.LOG
  · simp [GCFragModel.inc, hctx, GCDesc.fragBin, hcoeff, hlog]
  · simp [GCFragModel.inc, hctx, GCDesc.fragBin, hcoeff, hlog]

end Rows

/-! ## Accumulation of a list of observations -/

section Accumulation

variable {K : Type} [LinearOrderedField K]

open GCFragModel GCDesc

omit [LinearOrderedField K] in
theorem cellOf_some (R n : Nat) (d : GCDesc) (i j : Nat) (h : cellOf R n d = some (i, j)) :
    ∃ r : Int, (if R > 1 then d.contextBinN (narrow32 R) else some 0) = some r ∧
      (0 ≤ r ∧ r < R ∧ 0 ≤ d.fragFrac ∧ d.fragFrac < n) ∧
      r.toNat = i ∧ d.fragFrac.toNat = j := by
  unfold cellOf at h
  cases hctx : (if R > 1 then d.contextBinN (narrow32 R) else some 0) with
  | none => rw [hctx] at h; cases h
  | some r =>
    rw [hctx] at h
    simp only [GCDesc.fragBin] at h
    by_cases hin : 0 ≤ r ∧ r < R ∧ 0 ≤ d.fragFrac ∧ d.fragFrac < n
    · rw [if_pos hin] at h
      have h2 : (r.toNat, d.fragFrac.toNat) = (i, j) := Option.some.inj h
      exact ⟨r, rfl, hin, (Prod.mk.inj h2).1, (Prod.mk.inj h2).2⟩
    · rw [if_neg hin] at h
      cases h

omit [LinearOrderedField K] in
theorem cellOf_of_ne_none (R n : Nat) (d : GCDesc) (h : cellOf R n d ≠ none) :
    ∃ i j, cellOf R n d = some (i, j) := by
  cases hc : cellOf R n d with
  | none => exact absurd hc h
  | some p => exact ⟨p.1, p.2, rfl⟩

/-- The call `inc` for a descriptor in range: the addressed cell receives the weight. -/
theorem inc_of_cell (F : Libm K) (m : GCFragModel K) (d : GCDesc) (w : Dbl K) (i j : Nat)
    (h : cellOf m.condBins_ m.numGCBins_ d = some (i, j)) :
    m.inc F d w = some (GCFragModel.mk m.condBins_ m.numGCBins_ m.dspace_ m.normalized_
      (m.counts_.set i j
        (if m.dspace_ = DistributionSpace.LOG then logAdd F (m.counts_.coeff i j) w
        else m.counts_.coeff i j + w))) := by
  obtain ⟨r, hctx, hin, hi, hj⟩ := cellOf_some _ _ d i j h
  have := inc_of_ctx F m d w r hctx hin
  rw [hi, hj] at this
  exact this

theorem cellTotal_nil {M : Type} [AddCommMonoid M] (R n i j : Nat) :
    cellTotal R n ([] : List (GCDesc × M)) i j = 0 := rfl

theorem cellTotal_cons {M : Type} [AddCommMonoid M] (R n : Nat) (o : GCDesc × M)
    (rest : List (GCDesc × M)) (i j : Nat) :
    cellTotal R n (o :: rest) i j =
      (if cellOf R n o.1 = some (i, j) then o.2 else 0) + cellTotal R n rest i j := by
  unfold cellTotal
  rw [List.map_cons, List.sum_cons]

theorem cellTotal_append {M : Type} [AddCommMonoid M] (R n : Nat)
    (xs ys : List (GCDesc × M)) (i j : Nat) :
    cellTotal R n (xs ++ ys) i j = cellTotal R n xs i j + cellTotal R n ys i j := by
  unfold cellTotal
  rw [List.map_append, List.sum_append]

theorem cellTotal_nonneg (R n : Nat) (obs : List (GCDesc × K)) (h : ∀ o ∈ obs, 0 < o.2)
    (i j : Nat) : 0 ≤ cellTotal R n obs i j := by
  induction obs with
  | nil => exact le_refl _
  | cons o rest ih =>
    rw [cellTotal_cons]
    apply add_nonneg
    · by_cases hc : cellOf R n o.1 = some (i, j)
      · rw [if_pos hc]
        exact (h o (List.mem_cons_self o rest)).le
      · rw [if_neg hc]
    · exact ih (fun x hx => h x (List.mem_cons_of_mem o hx))

theorem cellTotal_fin (R n : Nat) (obs : List (GCDesc × K)) (i j : Nat) :
    cellTotal R n (obs.map (fun o => (o.1, Dbl.fin o.2))) i j =
      Dbl.fin (cellTotal R n obs i j) := by
  induction obs with
  | nil => rfl
  | cons o rest ih =>
    rw [List.map_cons, cellTotal_cons, cellTotal_cons, ih]
    by_cases hc : cellOf R n o.1 = some (i, j)
    · simp only [if_pos hc, Dbl.fin_add_fin]
    · simp only [if_neg hc, Dbl.zero_eq, Dbl.fin_add_fin]

/-- In LINEAR space, after the calls `inc` for a list of observations in range
every cell holds its old value plus the total weight it received. -/
theorem incAll_linear (F : Libm K) (obs : List (GCDesc × Dbl K)) :
    ∀ m : GCFragModel K, m.dspace_ = DistributionSpace.LINEAR →
      (∀ o ∈ obs, cellOf m.condBins_ m.numGCBins_ o.1 ≠ none) →
      ∃ m1, m.incAll F obs = some m1 ∧ m1.condBins_ = m.condBins_ ∧
        m1.numGCBins_ = m.numGCBins_ ∧ m1.dspace_ = m.dspace_ ∧
        m1.normalized_ = m.normalized_ ∧
        ∀ a b, m1.counts_.coeff a b =
          m.counts_.coeff a b + cellTotal m.condBins_ m.numGCBins_ obs a b := by
  induction obs with
  | nil =>
    intro m _ _
    exact ⟨m, rfl, rfl, rfl, rfl, rfl, fun a b => by rw [cellTotal_nil, add_zero]⟩
  | cons o rest ih =>
    intro m hlin hin
    obtain ⟨i, j, hcell⟩ := cellOf_of_ne_none _ _ o.1 (hin o (List.mem_cons_self o rest))
    have hne : m.dspace_ ≠ DistributionSpace.LOG := by rw [hlin]; decide
    have hinc := inc_of_cell F m o.1 o.2 i j hcell
    rw [if_neg hne] at hinc
    obtain ⟨m1, h1, hR, hn, hs, hf, hc⟩ := ih
      (GCFragModel.mk m.condBins_ m.numGCBins_ m.dspace_ m.normalized_
        (m.counts_.set i j (m.counts_.coeff i j + o.2))) hlin
      (fun x hx => hin x (List.mem_cons_of_mem o hx))
    refine ⟨m1, ?_, hR, hn, hs, hf, ?_⟩
    · show (m.inc F o.1 o.2).bind (fun m1 => incAll F m1 rest) = some m1
      rw [hinc]
      exact h1
    · intro a b
      rw [hc a b, cellTotal_cons, hcell, MatrixXd.coeff_set]
      by_cases hab : a = i ∧ b = j
      · have : some (i, j) = some (a, b) := by rw [hab.1, hab.2]
        rw [if_pos hab, if_pos this, hab.1, hab.2, add_assoc]
      · have : ¬ (some (i, j) = some (a, b)) := by
          intro h
          have h2 : (i, j) = (a, b) := Option.some.inj h
          exact hab ⟨(Prod.mk.inj h2).1.symm, (Prod.mk.inj h2).2.symm⟩
        rw [if_neg hab, if_neg this, zero_add]

/-- In LOG space, after the calls `inc` with the logarithms of positive weights,
the exponential of every cell is the exponential of its old value plus the
total weight it received. -/
theorem incAll_log (F : Libm K) (hF : F.Exact) (obs : List (GCDesc × K))
    (hw : ∀ o ∈ obs, 0 < o.2) :
    ∀ m : GCFragModel K, m.dspace_ = DistributionSpace.LOG →
      (∀ o ∈ obs, cellOf m.condBins_ m.numGCBins_ o.1 ≠ none) →
      ∃ m1, m.incAll F (obs.map (fun o => (o.1, Dbl.log F (Dbl.fin o.2)))) = some m1 ∧
        m1.condBins_ = m.condBins_ ∧ m1.numGCBins_ = m.numGCBins_ ∧
        m1.dspace_ = m.dspace_ ∧ m1.normalized_ = m.normalized_ ∧
        ∀ a b, Dbl.exp F (m1.counts_.coeff a b) =
          Dbl.exp F (m.counts_.coeff a b) +
            Dbl.fin (cellTotal m.condBins_ m.numGCBins_ obs a b) := by
  induction obs with
  | nil =>
    intro m _ _
    refine ⟨m, rfl, rfl, rfl, rfl, rfl, fun a b => ?_⟩
    rw [cellTotal_nil]
    exact (add_zero _).symm
  | cons o rest ih =>
    intro m hlog hin
    obtain ⟨i, j, hcell⟩ := cellOf_of_ne_none _ _ o.1 (hin o (List.mem_cons_self o rest))
    have hinc := inc_of_cell F m o.1 (Dbl.log F (Dbl.fin o.2)) i j hcell
    rw [if_pos hlog] at hinc
    obtain ⟨m1, h1, hR, hn, hs, hf, hc⟩ := ih
      (fun x hx => hw x (List.mem_cons_of_mem o hx))
      (GCFragModel.mk m.condBins_ m.numGCBins_ m.dspace_ m.normalized_
        (m.counts_.set i j (logAdd F (m.counts_.coeff i j) (Dbl.log F (Dbl.fin o.2))))) hlog
      (fun x hx => hin x (List.mem_cons_of_mem o hx))
    refine ⟨m1, ?_, hR, hn, hs, hf, ?_⟩
    · show (m.inc F o.1 (Dbl.log F (Dbl.fin o.2))).bind (fun m1 => incAll F m1 _) = some m1
      rw [hinc]
      exact h1
    · intro a b
      have hwpos : (Dbl.fin o.2 : Dbl K).NotNeg := (hw o (List.mem_cons_self o rest)).le
      rw [hc a b, cellTotal_cons, hcell, MatrixXd.coeff_set]
      by_cases hab : a = i ∧ b = j
      · have : some (i, j) = some (a, b) := by rw [hab.1, hab.2]
        rw [if_pos hab, if_pos this, exp_logAdd F hF, Dbl.exp_log F hF _ hwpos, hab.1, hab.2,
          ← Dbl.fin_add_fin, add_assoc]
      · have : ¬ (some (i, j) = some (a, b)) := by
          intro h
          have h2 : (i, j) = (a, b) := Option.some.inj h
          exact hab ⟨(Prod.mk.inj h2).1.symm, (Prod.mk.inj h2).2.symm⟩
        rw [if_neg hab, if_neg this, zero_add]

theorem exp_eq_fin (F : Libm K) (x : Dbl K) (t : K) (h : Dbl.exp F x = Dbl.fin t) :
    (x = LOG_0 ∨ x.IsFinite) ∧ (Dbl.exp F x).val = t := by
  refine ⟨?_, by rw [h]; rfl⟩
  cases x with
  | nan => cases h
  | pinf => cases h
  | ninf => exact Or.inl rfl
  | fin y => exact Or.inr trivial

/-- A normalized cell of LOG space as a real number, in exact arithmetic. -/
theorem normalize_log_cell_fin (F : Libm K) (hF : F.Exact) (m : GCFragModel K) (prior : K)
    (r c : Nat) (hlog : m.dspace_ = DistributionSpace.LOG) (hnn : m.normalized_ = false)
    (hr : r < m.condBins_) (hc : c < m.numGCBins_) (hp : 0 ≤ prior)
    (hcells : ∀ j, j < m.numGCBins_ →
      m.counts_.coeff r j = LOG_0 ∨ (m.counts_.coeff r j).IsFinite)
    (hpos : 0 < ∑ j in Finset.range m.numGCBins_,
      (prior + (Dbl.exp F (m.counts_.coeff r j)).val)) :
    (m.normalize F (Dbl.fin prior)).counts_.coeff r c =
      Dbl.fin ((prior + (Dbl.exp F (m.counts_.coeff r c)).val) /
        ∑ j in Finset.range m.numGCBins_, (prior + (Dbl.exp F (m.counts_.coeff r j)).val)) := by
  have hlp : Dbl.exp F (Dbl.log F (Dbl.fin prior)) = Dbl.fin prior := Dbl.exp_log F hF _ hp
  have hterm : ∀ j, j < m.numGCBins_ →
      Dbl.exp F (Dbl.log F (Dbl.fin prior)) + Dbl.exp F (m.counts_.coeff r j) =
        Dbl.fin (prior + (Dbl.exp F (m.counts_.coeff r j)).val) := by
    intro j hj
    rw [hlp, (exp_fin_or_log0 F hF _ (hcells j hj)).1]
    rfl
  have hE := exp_rowMassLog F hF (Dbl.log F (Dbl.fin prior)) m.numGCBins_ m.counts_ r
  rw [sumCols_congr _ _ _ hterm, sumCols_fin] at hE
  generalize hMdef : rowMassLog F (Dbl.log F (Dbl.fin prior)) m.numGCBins_ m.counts_ r = M
    at hE
  cases M with
  | nan => cases hE
  | pinf => cases hE
  | ninf =>
    have h0 : (0 : K) = ∑ j in Finset.range m.numGCBins_,
        (prior + (Dbl.exp F (m.counts_.coeff r j)).val) := Dbl.fin.inj hE
    rw [← h0] at hpos
    exact absurd hpos (lt_irrefl 0)
  | fin mu =>
    have hmu : F.exp mu = ∑ j in Finset.range m.numGCBins_,
        (prior + (Dbl.exp F (m.counts_.coeff r j)).val) := Dbl.fin.inj hE
    have hmass : (Dbl.fin mu : Dbl K) ≠ LOG_0 := by
      intro h
      cases h
    rw [normalize_log_coeff F m _ hlog hnn, hMdef, if_pos ⟨hr, hc, hmass⟩, ← hmu]
    unfold logAdd
    rw [hterm c hc]
    exact exp_log_sub F hF _ mu (add_nonneg hp (exp_fin_or_log0 F hF _ (hcells c hc)).2)

end Accumulation

/-! ## Rounding to binary64 -/

section Rounding

theorem roundEven_sub_le (y : ℚ) : |((roundEven y : Int) : ℚ) - y| ≤ 1 / 2 := by
  have h1 : (⌊y⌋ : ℚ) ≤ y := Int.floor_le y
  have h2 : y < ⌊y⌋ + 1 := Int.lt_floor_add_one y
  unfold roundEven
  split_ifs with ha hb hc
  · rw [abs_le]; constructor <;> linarith
  · rw [abs_le]; push_cast; constructor <;> linarith
  · rw [abs_le]; constructor <;> linarith
  · rw [abs_le]; push_cast; constructor <;> linarith

theorem roundEven_eq_of_lt (y : ℚ) (n : Int) (h : |y - n| < 1 / 2) : roundEven y = n := by
  rw [abs_lt] at h
  have h1 : (⌊y⌋ : ℚ) ≤ y := Int.floor_le y
  have h2 : y < ⌊y⌋ + 1 := Int.lt_floor_add_one y
  have key : ∀ k : Int, |(k : ℚ) - y| ≤ 1 / 2 → k = n := by
    intro k hk
    rw [abs_le] at hk
    have h3 : ((k - n : Int) : ℚ) < 1 := by push_cast; linarith [hk.1, hk.2, h.1, h.2]
    have h4 : (-1 : ℚ) < ((k - n : Int) : ℚ) := by push_cast; linarith [hk.1, hk.2, h.1, h.2]
    have h5 : k - n < 1 := by exact_mod_cast h3
    have h6 : -1 < k - n := by exact_mod_cast h4
    omega
  exact key _ (roundEven_sub_le y)

theorem roundEven_intCast (n : Int) : roundEven (n : ℚ) = n :=
  roundEven_eq_of_lt _ n (by simp)

theorem roundEven_tie (y : ℚ) (n : Int) (h : y = n + 1 / 2) :
    roundEven y = if n % 2 = 0 then n else n + 1 := by
  have hf : ⌊y⌋ = n := by
    rw [Int.floor_eq_iff, h]
    constructor <;> linarith
  unfold roundEven
  rw [hf, h]
  have e : (n : ℚ) + 1 / 2 - n = 1 / 2 := by ring
  rw [e, if_neg (lt_irrefl _), if_neg (lt_irrefl _)]

theorem ulpExp_eq (x : ℚ) (e : Int) (h1 : (2 : ℚ) ^ e ≤ |x|) (h2 : |x| < (2 : ℚ) ^ (e + 1)) :
    ulpExp x = max e (-1022) - 52 := by
  have hpos : 0 < |x| := lt_of_lt_of_le (zpow_pos (by norm_num) e) h1
  have hlog : Int.log 2 |x| = e := by
    have a : e ≤ Int.log 2 |x| := by
      rw [← Int.zpow_le_iff_le_log (by norm_num) hpos]
      exact_mod_cast h1
    have b : Int.log 2 |x| < e + 1 := by
      rw [← Int.lt_zpow_iff_log_lt (by norm_num) hpos]
      exact_mod_cast h2
    omega
  unfold ulpExp
  rw [hlog]

/-- The value of `fl64` from the unit in the last place and the rounded multiple. -/
theorem fl64_eq (x : ℚ) (k n : Int) (hk : ulpExp x = k) (hn : roundEven (x / 2 ^ k) = n)
    (hy : |(n : ℚ) * 2 ^ k| < (2 : ℚ) ^ (1024 : Int)) :
    fl64 x = Dbl.fin ((n : ℚ) * 2 ^ k) := by
  unfold fl64
  simp only [hk, hn]
  rw [if_neg (not_le.mpr hy)]

/-- A value that is a multiple `n * 2^k` of its unit in the last place is not rounded. -/
theorem fl64_exact (x : ℚ) (e n : Int) (h1 : (2 : ℚ) ^ e ≤ |x|) (h2 : |x| < (2 : ℚ) ^ (e + 1))
    (he : e ≤ 1023) (hx : x = (n : ℚ) * 2 ^ (max e (-1022) - 52)) : fl64 x = Dbl.fin x := by
  have hk := ulpExp_eq x e h1 h2
  have hu : (0 : ℚ) < 2 ^ (max e (-1022) - 52) := zpow_pos (by norm_num) _
  have hn : roundEven (x / 2 ^ (max e (-1022) - 52)) = n := by
    have : x / 2 ^ (max e (-1022) - 52) = (n : ℚ) := by
      rw [hx]; field_simp
    rw [this, roundEven_intCast]
  have hlt : |x| < (2 : ℚ) ^ (1024 : Int) :=
    lt_of_lt_of_le h2 (zpow_le_zpow_right₀ (by norm_num) (by omega))
  rw [fl64_eq x _ n hk hn (by rw [← hx]; exact hlt), ← hx]

theorem fl64_zero : fl64 0 = Dbl.fin 0 := by
  have hk : ulpExp 0 = -52 := by
    unfold ulpExp
    simp [Int.log_of_right_le_zero]
  have h := fl64_eq 0 (-52) 0 hk (by simp [roundEven])
    (by rw [Int.cast_zero, zero_mul, abs_zero]; exact zpow_pos (by norm_num) _)
  simpa using h

/-- The relative error of a rounding in the normal range is at most `2^-53`. -/
theorem fl64_rel (x : ℚ) (hlo : (2 : ℚ) ^ (-1022 : Int) ≤ |x|) (hhi : |x| ≤ (2 : ℚ) ^ (1023 : Int)) :
    ∃ y : ℚ, fl64 x = Dbl.fin y ∧ |y - x| ≤ |x| * 2 ^ (-53 : Int) := by
  have hpos : 0 < |x| := lt_of_lt_of_le (zpow_pos (by norm_num) _) hlo
  have h1 : (2 : ℚ) ^ (Int.log 2 |x|) ≤ |x| := by
    exact_mod_cast Int.zpow_log_le_self (b := 2) (by norm_num) hpos
  have h2 : |x| < (2 : ℚ) ^ (Int.log 2 |x| + 1) := by
    exact_mod_cast Int.lt_zpow_succ_log_self (b := 2) (by norm_num) |x|
  have he : -1022 ≤ Int.log 2 |x| := by
    rw [← Int.zpow_le_iff_le_log (by norm_num) hpos]
    exact_mod_cast hlo
  have hk : ulpExp x = Int.log 2 |x| - 52 := by
    rw [ulpExp_eq x _ h1 h2, max_eq_left he]
  have hu : (0 : ℚ) < 2 ^ (Int.log 2 |x| - 52) := zpow_pos (by norm_num) _
  have hr := roundEven_sub_le (x / 2 ^ (Int.log 2 |x| - 52))
  have herr : |((roundEven (x / 2 ^ (Int.log 2 |x| - 52)) : Int) : ℚ) * 2 ^ (Int.log 2 |x| - 52) - x|
      ≤ |x| * 2 ^ (-53 : Int) := by
    have e1 : ((roundEven (x / 2 ^ (Int.log 2 |x| - 52)) : Int) : ℚ) * 2 ^ (Int.log 2 |x| - 52) - x
        = (((roundEven (x / 2 ^ (Int.log 2 |x| - 52)) : Int) : ℚ) - x / 2 ^ (Int.log 2 |x| - 52))
          * 2 ^ (Int.log 2 |x| - 52) := by
      field_simp
    rw [e1, abs_mul, abs_of_pos hu]
    have e2 : (2 : ℚ) ^ (Int.log 2 |x| - 52) = 2 ^ (Int.log 2 |x|) * 2 ^ (-53 : Int) * 2 := by
      rw [show Int.log 2 |x| - 52 = Int.log 2 |x| + (-53) + 1 by ring,
        zpow_add₀ (by norm_num), zpow_add₀ (by norm_num), zpow_one]
    have hu53 : (0 : ℚ) < 2 ^ (-53 : Int) := zpow_pos (by norm_num) _
    calc |((roundEven (x / 2 ^ (Int.log 2 |x| - 52)) : Int) : ℚ) - x / 2 ^ (Int.log 2 |x| - 52)|
          * 2 ^ (Int.log 2 |x| - 52)
        ≤ 1 / 2 * 2 ^ (Int.log 2 |x| - 52) := mul_le_mul_of_nonneg_right hr hu.le
      _ = 2 ^ (Int.log 2 |x|) * 2 ^ (-53 : Int) := by rw [e2]; ring
      _ ≤ |x| * 2 ^ (-53 : Int) := mul_le_mul_of_nonneg_right h1 hu53.le
  refine ⟨_, fl64_eq x _ _ hk rfl ?_, herr⟩
  have h3 := abs_sub_abs_le_abs_sub
    (((roundEven (x / 2 ^ (Int.log 2 |x| - 52)) : Int) : ℚ) * 2 ^ (Int.log 2 |x| - 52)) x
  have h4 : |x| * 2 ^ (-53 : Int) ≤ |x| := by
    have : (2 : ℚ) ^ (-53 : Int) ≤ 1 := by norm_num
    nlinarith [hpos]
  have h5 : (2 : ℚ) ^ (1023 : Int) + 2 ^ (1023 : Int) = 2 ^ (1024 : Int) := by norm_num
  linarith

end Rounding

/-! ## The bins in binary64 -/

section Bins64

theorem castInt32_fin (y : ℚ) (h : inInt32 (trunc y)) :
    castInt32 (Dbl.fin y) = some (trunc y) := by
  show (if inInt32 (trunc y) then some (trunc y) else none) = _
  rw [if_pos h]

theorem trunc_near_nonint (m : Int) (y : ℚ) (hm : ¬ (100 : Int) ∣ m)
    (hy : |y - (m : ℚ) / 100| < 1 / 100) :
    trunc y = trunc ((m : ℚ) / 100) ∧ |trunc ((m : ℚ) / 100)| ≤ |m| / 100 := by
  rw [abs_lt] at hy
  have hr1 : 1 ≤ m % 100 := by
    have h0 : 0 ≤ m % 100 := Int.emod_nonneg m (by decide)
    have hne : m % 100 ≠ 0 := fun h => hm (Int.dvd_of_emod_eq_zero h)
    omega
  have hr2 : m % 100 ≤ 99 := by
    have := Int.emod_lt_of_pos m (by decide : (0 : Int) < 100)
    omega
  have hdm : m = 100 * (m / 100) + m % 100 := (Int.ediv_add_emod m 100).symm
  have hq : (m : ℚ) / 100 = ((m / 100 : Int) : ℚ) + ((m % 100 : Int) : ℚ) / 100 := by
    have : (m : ℚ) = 100 * ((m / 100 : Int) : ℚ) + ((m % 100 : Int) : ℚ) := by
      exact_mod_cast hdm
    rw [this]; ring
  have c1 : (1 : ℚ) ≤ ((m % 100 : Int) : ℚ) := by exact_mod_cast hr1
  have c2 : ((m % 100 : Int) : ℚ) ≤ 99 := by exact_mod_cast hr2
  by_cases hpos : 0 ≤ m
  · have ha : 0 ≤ m / 100 := Int.ediv_nonneg hpos (by decide)
    have haq : (0 : ℚ) ≤ ((m / 100 : Int) : ℚ) := by exact_mod_cast ha
    have hq0 : (0 : ℚ) ≤ (m : ℚ) / 100 := by rw [hq]; linarith
    have hy0 : (0 : ℚ) ≤ y := by linarith
    have f1 : ⌊y⌋ = m / 100 := by
      rw [Int.floor_eq_iff]; constructor <;> linarith
    have f2 : ⌊(m : ℚ) / 100⌋ = m / 100 := by
      rw [Int.floor_eq_iff]; constructor <;> linarith
    unfold trunc
    rw [if_pos hy0, if_pos hq0, f1, f2]
    refine ⟨rfl, ?_⟩
    rw [abs_of_nonneg ha, abs_of_nonneg hpos]
  · have hneg : m < 0 := not_le.mp hpos
    have hmq : (m : ℚ) < 0 := by exact_mod_cast hneg
    have ha : m / 100 + 1 ≤ 0 := by omega
    have haq : ((m / 100 : Int) : ℚ) + 1 ≤ 0 := by exact_mod_cast ha
    have hq0 : ¬ (0 : ℚ) ≤ (m : ℚ) / 100 := by
      rw [not_le]; linarith
    have hy0 : ¬ (0 : ℚ) ≤ y := by
      rw [not_le]
      have : (m : ℚ) / 100 ≤ -1 / 100 := by
        have : (m : ℚ) ≤ -1 := by exact_mod_cast (by omega : m ≤ -1)
        linarith
      linarith
    have f1 : ⌈y⌉ = m / 100 + 1 := by
      rw [Int.ceil_eq_iff]; push_cast; constructor <;> linarith
    have f2 : ⌈(m : ℚ) / 100⌉ = m / 100 + 1 := by
      rw [Int.ceil_eq_iff]; push_cast; constructor <;> linarith
    unfold trunc
    rw [if_neg hy0, if_neg hq0, f1, f2]
    refine ⟨rfl, ?_⟩
    rw [abs_of_nonpos ha, abs_of_neg hneg]
    omega

theorem trunc_near_int (k : Int) (y : ℚ) (hy : |y - (k : ℚ)| < 1 / 100) :
    trunc y = k ∨ trunc y = k - Int.sign k := by
  rw [abs_lt] at hy
  rcases lt_trichotomy k 0 with hk | hk | hk
  · have hkq : (k : ℚ) ≤ -1 := by exact_mod_cast (by omega : k ≤ -1)
    have hy0 : ¬ (0 : ℚ) ≤ y := by rw [not_le]; linarith
    unfold trunc
    rw [if_neg hy0, Int.sign_eq_neg_one_of_neg hk]
    by_cases hle : y ≤ k
    · left
      rw [Int.ceil_eq_iff]; constructor <;> linarith
    · right
      rw [Int.ceil_eq_iff]; push_cast; constructor <;> linarith
  · subst hk
    left
    unfold trunc
    by_cases hy0 : (0 : ℚ) ≤ y
    · rw [if_pos hy0, Int.floor_eq_iff]
      simp only [Int.cast_zero] at hy ⊢
      constructor <;> linarith
    · rw [if_neg hy0, Int.ceil_eq_iff]
      simp only [Int.cast_zero] at hy ⊢
      rw [not_le] at hy0
      constructor <;> linarith
  · have hkq : (1 : ℚ) ≤ (k : ℚ) := by exact_mod_cast (by omega : 1 ≤ k)
    have hy0 : (0 : ℚ) ≤ y := by linarith
    unfold trunc
    rw [if_pos hy0, Int.sign_eq_one_of_pos hk]
    by_cases hle : (k : ℚ) ≤ y
    · left
      rw [Int.floor_eq_iff]; constructor <;> linarith
    · right
      rw [not_le] at hle
      rw [Int.floor_eq_iff]; push_cast; constructor <;> linarith

/-- The double quotient `frac / (100.0 / n)` is within `2^-20` of the exact one. -/
theorem quot64_near (p n : Int) (hn : 1 ≤ n) (hn32 : n ≤ 2147483647)
    (hq : |p * n| < 214748364800) :
    ∃ y : ℚ, Binary64.div (Dbl.fin (p : ℚ)) (Binary64.div (Dbl.fin 100) (Dbl.fin (n : ℚ))) =
        Dbl.fin y ∧ |y - ((p * n : Int) : ℚ) / 100| < 1 / 100 := by
  have hnq : (1 : ℚ) ≤ (n : ℚ) := by exact_mod_cast hn
  have hnq2 : (n : ℚ) ≤ 2147483647 := by exact_mod_cast hn32
  have hn0 : (n : ℚ) ≠ 0 := by linarith
  have hnpos : (0 : ℚ) < (n : ℚ) := by linarith
  have ht : (0 : ℚ) < 100 / (n : ℚ) := div_pos (by norm_num) hnpos
  have ht100 : (100 : ℚ) / (n : ℚ) ≤ 100 := by
    rw [div_le_iff₀ hnpos]; linarith
  have htlo : (100 : ℚ) / 2147483647 ≤ 100 / (n : ℚ) :=
    div_le_div_of_nonneg_left (by norm_num) hnpos hnq2
  have hδ : (2 : ℚ) ^ (-53 : Int) = 1 / 9007199254740992 := by norm_num
  obtain ⟨w, hw, hwerr⟩ := fl64_rel (100 / (n : ℚ))
    (by rw [abs_of_pos ht]; refine le_trans ?_ htlo; norm_num)
    (by rw [abs_of_pos ht]; refine le_trans ht100 ?_; norm_num)
  rw [abs_of_pos ht, hδ, abs_le] at hwerr
  have hwpos : 0 < w := by nlinarith [hwerr.1]
  have hwne : w ≠ 0 := ne_of_gt hwpos
  have e1 : Binary64.div (Dbl.fin 100) (Dbl.fin (n : ℚ)) = Dbl.fin w := by
    unfold Binary64.div
    rw [Dbl.fin_div_fin _ _ hn0]
    exact hw
  rw [e1]
  by_cases hp : p = 0
  · subst hp
    refine ⟨0, ?_, ?_⟩
    · unfold Binary64.div
      rw [Dbl.fin_div_fin _ _ hwne]
      show fl64 _ = _
      simp only [Int.cast_zero, zero_div]
      exact fl64_zero
    · simp
  · have hP : (1 : ℚ) ≤ |(p : ℚ)| := by
      have : 1 ≤ |p| := Int.one_le_abs hp
      exact_mod_cast this
    have hqq : |(p : ℚ)| * (n : ℚ) < 214748364800 := by
      have h1 : |p * n| = |p| * n := by rw [abs_mul, abs_of_pos (by omega : (0 : Int) < n)]
      rw [h1] at hq
      exact_mod_cast hq
    have hxabs : |(p : ℚ) / w| = |(p : ℚ)| / w := by rw [abs_div, abs_of_pos hwpos]
    have hwup : w ≤ 101 := by nlinarith [hwerr.2]
    have hwlo : 100 / (n : ℚ) * (1 / 2) ≤ w := by nlinarith [hwerr.1]
    have hA1 : (1 : ℚ) / 101 ≤ |(p : ℚ)| / w := by
      rw [div_le_div_iff₀ (by norm_num) hwpos]; nlinarith
    have hA2 : |(p : ℚ)| / w ≤ 4294967296 := by
      rw [div_le_iff₀ hwpos]
      have h3 : |(p : ℚ)| * (n : ℚ) ≤ 4294967296 * (100 * (1 / 2)) := by linarith
      have h4 : 100 / (n : ℚ) * (n : ℚ) = 100 := by field_simp
      nlinarith [hwlo, hnpos, mul_le_mul_of_nonneg_right hwlo hnpos.le]
    obtain ⟨y, hy, hyerr⟩ := fl64_rel ((p : ℚ) / w)
      (by rw [hxabs]; refine le_trans ?_ hA1; norm_num)
      (by rw [hxabs]; refine le_trans hA2 ?_; norm_num)
    rw [hxabs, hδ] at hyerr
    refine ⟨y, ?_, ?_⟩
    · unfold Binary64.div
      rw [Dbl.fin_div_fin _ _ hwne]
      exact hy
    · have hxq : |(p : ℚ) / w - ((p * n : Int) : ℚ) / 100| ≤
          |(p : ℚ)| / w * (1 / 9007199254740992) := by
        have e2 : (p : ℚ) / w - ((p * n : Int) : ℚ) / 100 =
            (p : ℚ) / w * ((100 / (n : ℚ) - w) / (100 / (n : ℚ))) := by
          push_cast
          field_simp
          ring
        rw [e2, abs_mul, hxabs]
        apply mul_le_mul_of_nonneg_left _ (by positivity)
        rw [abs_div, abs_of_pos ht, div_le_iff₀ ht, abs_le]
        constructor <;> linarith [hwerr.1, hwerr.2]
      have h5 : |y - ((p * n : Int) : ℚ) / 100| ≤
          |y - (p : ℚ) / w| + |(p : ℚ) / w - ((p * n : Int) : ℚ) / 100| := by
        have := abs_add (y - (p : ℚ) / w) ((p : ℚ) / w - ((p * n : Int) : ℚ) / 100)
        simpa using this
      have h6 : |(p : ℚ)| / w * (1 / 9007199254740992) ≤ 4294967296 * (1 / 9007199254740992) :=
        mul_le_mul_of_nonneg_right hA2 (by norm_num)
      have h7 : (4294967296 : ℚ) * (1 / 9007199254740992) + 4294967296 * (1 / 9007199254740992)
          < 1 / 100 := by norm_num
      linarith

/-- The bin computed in binary64 against the exact quotient `frac * n / 100`. -/
theorem binOf64_spec (p n : Int) (hn : 1 ≤ n) (hn32 : n ≤ 2147483647)
    (hq : |p * n| < 214748364800) :
    (¬ (100 : Int) ∣ p * n →
      Binary64.binOf p n = some (min (n - 1) (trunc ((p : ℚ) / (100 / (n : ℚ)))))) ∧
    ((100 : Int) ∣ p * n →
      Binary64.binOf p n = some (min (n - 1) (p * n / 100)) ∨
      Binary64.binOf p n = some (min (n - 1) (p * n / 100 - Int.sign p))) := by
  obtain ⟨y, hy, hnear⟩ := quot64_near p n hn hn32 hq
  have hin : inInt32 (n - 1) := by unfold inInt32; constructor <;> omega
  have hb : Binary64.binOf p n = (castInt32 (Dbl.fin y)).map (fun b => min (n - 1) b) := by
    unfold Binary64.binOf
    simp only [hy, if_pos hin]
  have hnq : (0 : ℚ) < (n : ℚ) := by exact_mod_cast (by omega : (0 : Int) < n)
  have hquot : (p : ℚ) / (100 / (n : ℚ)) = ((p * n : Int) : ℚ) / 100 := by
    push_cast
    field_simp
  constructor
  · intro hnd
    obtain ⟨ht, hbound⟩ := trunc_near_nonint (p * n) y hnd hnear
    have hrange : inInt32 (trunc y) := by
      rw [ht]
      have : |trunc (((p * n : Int) : ℚ) / 100)| < 2147483648 := by omega
      rw [abs_lt] at this
      unfold inInt32
      constructor <;> omega
    rw [hb, hquot, ← ht]
    rw [castInt32_fin y hrange]
    rfl
  · intro hd
    obtain ⟨k, hk⟩ := hd
    have hkdiv : p * n / 100 = k := by rw [hk]; exact Int.mul_ediv_cancel_left k (by decide)
    have hnear2 : |y - (k : ℚ)| < 1 / 100 := by
      have : ((p * n : Int) : ℚ) / 100 = (k : ℚ) := by
        rw [hk]; push_cast; field_simp
      rw [this] at hnear
      exact hnear
    have hkabs : |k| < 2147483648 := by
      rw [hk, abs_mul] at hq
      have : |(100 : Int)| = 100 := by decide
      rw [this] at hq
      omega
    have hsign : Int.sign k = Int.sign p := by
      have : Int.sign (p * n) = Int.sign (100 * k) := by rw [hk]
      rw [Int.sign_mul, Int.sign_mul, Int.sign_eq_one_of_pos (by omega : (0 : Int) < n),
        Int.sign_eq_one_of_pos (by decide : (0 : Int) < 100)] at this
      omega
    rw [abs_lt] at hkabs
    rcases trunc_near_int k y hnear2 with ht | ht
    · left
      have hrange : inInt32 (trunc y) := by
        rw [ht]; unfold inInt32; constructor <;> omega
      rw [hb, hkdiv, ← ht]
      rw [castInt32_fin y hrange]
      rfl
    · right
      have hs : -1 ≤ Int.sign k ∧ Int.sign k ≤ 1 ∧ (0 < k → Int.sign k = 1) ∧
          (k < 0 → Int.sign k = -1) ∧ (k = 0 → Int.sign k = 0) :=
        ⟨by rcases lt_trichotomy k 0 with h | h | h
            · rw [Int.sign_eq_neg_one_of_neg h]
            · rw [h]; decide
            · rw [Int.sign_eq_one_of_pos h]; decide,
          by rcases lt_trichotomy k 0 with h | h | h
             · rw [Int.sign_eq_neg_one_of_neg h]; decide
             · rw [h]; decide
             · rw [Int.sign_eq_one_of_pos h],
          Int.sign_eq_one_of_pos, Int.sign_eq_neg_one_of_neg, fun h => by rw [h]; rfl⟩
      have hrange : inInt32 (trunc y) := by
        rw [ht]; unfold inInt32
        rcases lt_trichotomy k 0 with h | h | h
        · rw [hs.2.2.2.1 h]; constructor <;> omega
        · rw [hs.2.2.2.2 h]; constructor <;> omega
        · rw [hs.2.2.1 h]; constructor <;> omega
      rw [hb, hkdiv, ← hsign, ← ht]
      rw [castInt32_fin y hrange]
      rfl

end Bins64

/-! ## The model in binary64 -/

section Program64

open GCFragModel

theorem Dbl.rnd_fin (x : ℚ) : (Dbl.fin x).rnd = fl64 x := rfl

/-- The rounding of a positive value that is not half way between two doubles. -/
theorem fl64_near (x y : ℚ) (e n : Int) (h1 : (2 : ℚ) ^ e ≤ x) (h2 : x < (2 : ℚ) ^ (e + 1))
    (he : -1022 ≤ e) (hn : |x / 2 ^ (e - 52) - (n : ℚ)| < 1 / 2)
    (hy : y = (n : ℚ) * 2 ^ (e - 52)) (hmax : |y| < (2 : ℚ) ^ (1024 : Int)) :
    fl64 x = Dbl.fin y := by
  have hx : 0 < x := lt_of_lt_of_le (zpow_pos (by norm_num) e) h1
  have hk : ulpExp x = e - 52 := by
    rw [ulpExp_eq x e (by rw [abs_of_pos hx]; exact h1) (by rw [abs_of_pos hx]; exact h2),
      max_eq_left he]
  rw [hy] at hmax ⊢
  exact fl64_eq x _ n hk (roundEven_eq_of_lt _ n hn) hmax

/-- The rounding of a positive value half way between two doubles. -/
theorem fl64_tie (x y : ℚ) (e n m : Int) (h1 : (2 : ℚ) ^ e ≤ x) (h2 : x < (2 : ℚ) ^ (e + 1))
    (he : -1022 ≤ e) (hn : x / 2 ^ (e - 52) = (n : ℚ) + 1 / 2)
    (hm : (if n % 2 = 0 then n else n + 1) = m)
    (hy : y = (m : ℚ) * 2 ^ (e - 52)) (hmax : |y| < (2 : ℚ) ^ (1024 : Int)) :
    fl64 x = Dbl.fin y := by
  have hx : 0 < x := lt_of_lt_of_le (zpow_pos (by norm_num) e) h1
  have hk : ulpExp x = e - 52 := by
    rw [ulpExp_eq x e (by rw [abs_of_pos hx]; exact h1) (by rw [abs_of_pos hx]; exact h2),
      max_eq_left he]
  rw [hy] at hmax ⊢
  exact fl64_eq x _ m hk (by rw [roundEven_tie _ n hn, hm]) hmax

/-- The double `0.1`. -/
theorem fl64_tenth : fl64 (1 / 10) = Dbl.fin (3602879701896397 / 36028797018963968) :=
  fl64_near _ _ (-4) 7205759403792794 (by norm_num) (by norm_num) (by norm_num)
    (by norm_num [abs_lt]) (by norm_num) (by norm_num [abs_lt])

/-- The double `0.2`. -/
theorem fl64_fifth : fl64 (1 / 5) = Dbl.fin (3602879701896397 / 18014398509481984) :=
  fl64_near _ _ (-3) 7205759403792794 (by norm_num) (by norm_num) (by norm_num)
    (by norm_num [abs_lt]) (by norm_num) (by norm_num [abs_lt])

/-- The double `0.3`. -/
theorem fl64_three_tenths : fl64 (3 / 10) = Dbl.fin (5404319552844595 / 18014398509481984) :=
  fl64_near _ _ (-2) 5404319552844595 (by norm_num) (by norm_num) (by norm_num)
    (by norm_num [abs_lt]) (by norm_num) (by norm_num [abs_lt])

/-- In binary64, `0.0 + 0.1` is `0.1`. -/
theorem add64_zero_tenth :
    Binary64.add (Dbl.fin 0) (Dbl.fin (3602879701896397 / 36028797018963968)) =
      Dbl.fin (3602879701896397 / 36028797018963968) := by
  show fl64 (0 + 3602879701896397 / 36028797018963968) = _
  exact fl64_near _ _ (-4) 7205759403792794 (by norm_num) (by norm_num) (by norm_num)
    (by norm_num [abs_lt]) (by norm_num) (by norm_num [abs_lt])

/-- In binary64, `0.0 + 0.2` is `0.2`. -/
theorem add64_zero_fifth :
    Binary64.add (Dbl.fin 0) (Dbl.fin (3602879701896397 / 18014398509481984)) =
      Dbl.fin (3602879701896397 / 18014398509481984) := by
  show fl64 (0 + 3602879701896397 / 18014398509481984) = _
  exact fl64_near _ _ (-3) 7205759403792794 (by norm_num) (by norm_num) (by norm_num)
    (by norm_num [abs_lt]) (by norm_num) (by norm_num [abs_lt])

/-- In binary64, `0.1 + 0.2` is `0.30000000000000004`: the exact sum is half way
between two doubles and goes to the even one. -/
theorem add64_tenth_fifth :
    Binary64.add (Dbl.fin (3602879701896397 / 36028797018963968))
        (Dbl.fin (3602879701896397 / 18014398509481984)) =
      Dbl.fin (1351079888211149 / 4503599627370496) := by
  show fl64 (3602879701896397 / 36028797018963968 + 3602879701896397 / 18014398509481984) = _
  exact fl64_tie _ _ (-2) 5404319552844595 5404319552844596 (by norm_num) (by norm_num)
    (by norm_num) (by norm_num) (by decide) (by norm_num) (by norm_num [abs_lt])

/-- In binary64, `(0.1 + 0.2) + 0.3` is `0.6000000000000001`. -/
theorem add64_tenth_fifth_three_tenths :
    Binary64.add (Dbl.fin (1351079888211149 / 4503599627370496))
        (Dbl.fin (5404319552844595 / 18014398509481984)) =
      Dbl.fin (1351079888211149 / 2251799813685248) := by
  show fl64 (1351079888211149 / 4503599627370496 + 5404319552844595 / 18014398509481984) = _
  exact fl64_tie _ _ (-1) 5404319552844595 5404319552844596 (by norm_num) (by norm_num)
    (by norm_num) (by norm_num) (by decide) (by norm_num) (by norm_num [abs_lt])

/-- In binary64, `0.2 + 0.3` is `0.5`. -/
theorem add64_fifth_three_tenths :
    Binary64.add (Dbl.fin (3602879701896397 / 18014398509481984))
        (Dbl.fin (5404319552844595 / 18014398509481984)) = Dbl.fin (1 / 2) := by
  show fl64 (3602879701896397 / 18014398509481984 + 5404319552844595 / 18014398509481984) = _
  exact fl64_near _ _ (-1) 4503599627370496 (by norm_num) (by norm_num) (by norm_num)
    (by norm_num [abs_lt]) (by norm_num) (by norm_num [abs_lt])

/-- In binary64, `0.1 + 0.5` is `0.6`. -/
theorem add64_tenth_half :
    Binary64.add (Dbl.fin (3602879701896397 / 36028797018963968)) (Dbl.fin (1 / 2)) =
      Dbl.fin (5404319552844595 / 9007199254740992) := by
  show fl64 (3602879701896397 / 36028797018963968 + 1 / 2) = _
  exact fl64_near _ _ (-1) 5404319552844595 (by norm_num) (by norm_num) (by norm_num)
    (by norm_num [abs_lt]) (by norm_num) (by norm_num [abs_lt])

/-- The call `combineCounts` in binary64 on two models of the same space, when
`other` covers the cells of `this`: the merged table, cell by cell. -/
theorem combineCounts64_ok (L : Binary64.Lib) (a b : GCFragModel ℚ) (hs : a.dspace_ = b.dspace_)
    (hR : a.condBins_ ≤ b.condBins_) (hn : a.numGCBins_ ≤ b.numGCBins_) :
    ∃ m, Binary64.combineCounts L a b = Except.ok m ∧ m.condBins_ = a.condBins_ ∧
      m.numGCBins_ = a.numGCBins_ ∧ m.dspace_ = a.dspace_ ∧ m.normalized_ = a.normalized_ ∧
      ∀ i j, m.counts_.coeff i j =
        if i < a.condBins_ ∧ j < a.numGCBins_ then
          (if a.dspace_ = DistributionSpace.LOG then
            L.logAdd (a.counts_.coeff i j) (b.counts_.coeff i j)
          else Binary64.add (a.counts_.coeff i j) (b.counts_.coeff i j))
        else a.counts_.coeff i j := by
  unfold Binary64.combineCounts
  rw [if_neg (not_not.mpr hs)]
  by_cases hlog : a.dspace_ = DistributionSpace.LOG
  · rw [if_pos hlog, zipLoop_eq _ _ b _ _ hR hn]
    refine ⟨_, rfl, rfl, rfl, rfl, rfl, ?_⟩
    intro i j
    have h := zipLoop_fold_coeff a.condBins_ a.numGCBins_ b.counts_
      (fun _ _ x o => L.logAdd x o) a.counts_ i j
    rw [h, if_pos hlog]
  · rw [if_neg hlog, zipLoop_eq _ _ b _ _ hR hn]
    refine ⟨_, rfl, rfl, rfl, rfl, rfl, ?_⟩
    intro i j
    have h := zipLoop_fold_coeff a.condBins_ a.numGCBins_ b.counts_
      (fun _ _ x o => Binary64.add x o) a.counts_ i j
    rw [h, if_neg hlog]

/-- The sum of two doubles in binary64 does not depend on their order. -/
theorem add64_comm (a b : Dbl ℚ) : Binary64.add a b = Binary64.add b a := by
  unfold Binary64.add
  rw [add_comm]

/-- In binary64 `combineCounts` is still commutative cell-wise (in LOG space when
`logAdd` is symmetric): rounding breaks the associativity of the merge, not its
symmetry. -/
theorem combineCounts64_comm (L : Binary64.Lib) (a b : GCFragModel ℚ) (hab : SameShape a b)
    (hs : a.dspace_ = b.dspace_)
    (hL : a.dspace_ = DistributionSpace.LOG → ∀ u v, L.logAdd u v = L.logAdd v u) :
    ∃ ab ba, Binary64.combineCounts L a b = Except.ok ab ∧
      Binary64.combineCounts L b a = Except.ok ba ∧
      ∀ i j, i < a.condBins_ → j < a.numGCBins_ →
        ab.counts_.coeff i j = ba.counts_.coeff i j := by
  obtain ⟨ab, h1, _, _, _, _, abcell⟩ :=
    combineCounts64_ok L a b hs (le_of_eq hab.1) (le_of_eq hab.2)
  obtain ⟨ba, h2, _, _, _, _, bacell⟩ :=
    combineCounts64_ok L b a hs.symm (le_of_eq hab.1.symm) (le_of_eq hab.2.symm)
  refine ⟨ab, ba, h1, h2, ?_⟩
  intro i j hi hj
  have hib : i < b.condBins_ := by rw [← hab.1]; exact hi
  have hjb : j < b.numGCBins_ := by rw [← hab.2]; exact hj
  have e1 := abcell i j
  have e2 := bacell i j
  rw [if_pos ⟨hi, hj⟩] at e1
  rw [if_pos ⟨hib, hjb⟩, ← hs] at e2
  rw [e1, e2]
  by_cases hlog : a.dspace_ = DistributionSpace.LOG
  · rw [if_pos hlog, if_pos hlog]
    exact hL hlog _ _
  · rw [if_neg hlog, if_neg hlog, add64_comm]

/-- The call `inc` in binary64 on a LINEAR table of one row, for the percentiles 0. -/
theorem inc64_cell0 (L : Binary64.Lib) (m : GCFragModel ℚ) (w : Dbl ℚ) (h1 : m.condBins_ = 1)
    (hn : 0 < m.numGCBins_) (hlin : m.dspace_ = DistributionSpace.LINEAR) :
    Binary64.inc L m (GCDesc.mk 0 0) w =
      some (GCFragModel.mk m.condBins_ m.numGCBins_ m.dspace_ m.normalized_
        (m.counts_.set 0 0 (Binary64.add (m.counts_.coeff 0 0) w))) := by
  have hctx : Binary64.ctxOf m (GCDesc.mk 0 0) = some 0 := by
    unfold Binary64.ctxOf
    rw [if_neg (by omega)]
  have hcoeff : m.coeff 0 0 = some (m.counts_.coeff 0 0) := by
    have := GCFragModel.coeff_natCast m 0 0 (by omega) hn
    simpa using this
  have hne : m.dspace_ ≠ DistributionSpace.LOG := by rw [hlin]; decide
  simp [Binary64.inc, hctx, hcoeff, hne, GCDesc.fragBin]

/-- The calls `inc` in binary64 for a list of weights of the cell (0, 0) of a
LINEAR table of one row: the cell receives the weights one after the other. -/
theorem incAll64_cell0 (L : Binary64.Lib) (ws : List (Dbl ℚ)) :
    ∀ m : GCFragModel ℚ, m.condBins_ = 1 → 0 < m.numGCBins_ →
      m.dspace_ = DistributionSpace.LINEAR →
      ∃ m1, Binary64.incAll L m (ws.map (fun w => (GCDesc.mk 0 0, w))) = some m1 ∧
        m1.condBins_ = m.condBins_ ∧ m1.numGCBins_ = m.numGCBins_ ∧ m1.dspace_ = m.dspace_ ∧
        m1.counts_.coeff 0 0 = ws.foldl Binary64.add (m.counts_.coeff 0 0) := by
  induction ws with
  | nil => intro m _ _ _; exact ⟨m, rfl, rfl, rfl, rfl, rfl⟩
  | cons w rest ih =>
    intro m h1 hn hlin
    obtain ⟨m1, e1, e2, e3, e4, e5⟩ := ih
      (GCFragModel.mk m.condBins_ m.numGCBins_ m.dspace_ m.normalized_
        (m.counts_.set 0 0 (Binary64.add (m.counts_.coeff 0 0) w))) h1 hn hlin
    refine ⟨m1, ?_, e2, e3, e4, ?_⟩
    · show (Binary64.inc L m (GCDesc.mk 0 0) w).bind _ = _
      rw [inc64_cell0 L m w h1 hn hlin]
      exact e1
    · rw [e5]
      simp [MatrixXd.coeff_set]

end Program64


/-! ## The claims of the specification -/

section Claims

variable {K : Type} [LinearOrderedField K]

open GCDesc GCFragModel

/-- C2: in LINEAR space, on a model that is not yet normalized, `normalize(prior)`
replaces each cell of every row whose mass `sum over columns of (prior + cell)`
is positive by `(prior + cell) / rowMass`. -/
theorem normalize_linear_cells (F : Libm K) (m : GCFragModel K) (prior : Dbl K) (r c : Nat)
    (hlin : m.dspace_ = DistributionSpace.LINEAR) (hnn : m.normalized_ = false)
    (hr : r < m.condBins_) (hc : c < m.numGCBins_)
    (hmass : 0 < sumCols m.numGCBins_ (fun j => prior + m.counts_.coeff r j)) :
    (m.normalize F prior).counts_.coeff r c =
      (prior + m.counts_.coeff r c) / sumCols m.numGCBins_ (fun j => prior + m.counts_.coeff r j) := by
  rw [normalize_linear_coeff F m prior hlin hnn, if_pos ⟨hr, hc, hmass⟩]

/-- Witness of C2, the scenario of the specification: a fresh 1 x 101 LINEAR
model, weight 1 three times at the fragment percentile 50 and once at 90, then
`normalize(0)`: the cell (0,50) is 3/4, the cell (0,90) is 1/4, every other
cell is 0. -/
theorem normalize_linear_cells_witness :
    ∃ m4 : GCFragModel ℚ,
      (GCFragModel.new 1 101 DistributionSpace.LINEAR).incAll (Libm.mk id id)
        [(GCDesc.mk 50 0, 1), (GCDesc.mk 50 0, 1), (GCDesc.mk 50 0, 1), (GCDesc.mk 90 0, 1)]
        = some m4 ∧
      (m4.normalize (Libm.mk id id) 0).counts_.coeff 0 50 = Dbl.fin (3 / 4) ∧
      (m4.normalize (Libm.mk id id) 0).counts_.coeff 0 90 = Dbl.fin (1 / 4) ∧
      ∀ c, c < 101 → c ≠ 50 → c ≠ 90 →
        (m4.normalize (Libm.mk id id) 0).counts_.coeff 0 c = Dbl.fin 0 := by
  refine ⟨_, scenario_incAll _, ?_, ?_, ?_⟩
  · rw [normalize_linear_cells _ _ 0 0 50 rfl rfl (by decide) (by decide)
      (by rw [scenario_rowMass]; simp [Dbl.zero_eq]), scenario_rowMass]
    simp [Dbl.zero_eq, Dbl.fin_div_fin]
  · rw [normalize_linear_cells _ _ 0 0 90 rfl rfl (by decide) (by decide)
      (by rw [scenario_rowMass]; simp [Dbl.zero_eq]), scenario_rowMass]
    simp [Dbl.zero_eq, Dbl.fin_div_fin]
  · intro c hc h5 h9
    rw [normalize_linear_cells _ _ 0 0 c rfl rfl (by decide) hc
      (by rw [scenario_rowMass]; simp [Dbl.zero_eq]), scenario_rowMass]
    simp [Dbl.zero_eq, h5, h9, Dbl.fin_div_fin]

/-- Counterexample to C3 as stated ("every prior"): a fresh 1 x 1 LOG model over
the reals, with the real exponential and logarithm, normalized with the prior
`-1`.  `std::log(-1)` is NaN, the accumulated row mass is NaN, which is not
`LOG_0`, and the only cell of the row becomes NaN: the row does not sum to 1. -/
theorem normalize_row_sum_counterexample :
    (GCFragModel.new 1 1 DistributionSpace.LOG : GCFragModel ℝ).normalized_ = false ∧
    rowMassLog (Libm.mk Real.exp Real.log) (Dbl.log (Libm.mk Real.exp Real.log) (Dbl.fin (-1))) 1
      (GCFragModel.new 1 1 DistributionSpace.LOG : GCFragModel ℝ).counts_ 0 ≠ LOG_0 ∧
    sumCols 1 (fun c => ((GCFragModel.new 1 1 DistributionSpace.LOG : GCFragModel ℝ).normalize
      (Libm.mk Real.exp Real.log) (Dbl.fin (-1))).counts_.coeff 0 c) ≠ 1 := by
  have hlog : Dbl.log (Libm.mk Real.exp Real.log) (Dbl.fin (-1 : ℝ)) = Dbl.nan := by
    simp [Dbl.log]
  have hmass : ∀ t : MatrixXd ℝ,
      rowMassLog (Libm.mk Real.exp Real.log) Dbl.nan 1 t 0 = Dbl.nan := by
    intro t
    simp [rowMassLog, List.range_succ]
  refine ⟨rfl, ?_, ?_⟩
  · rw [hlog, hmass]
    simp [LOG_0]
  · have hcell : ((GCFragModel.new 1 1 DistributionSpace.LOG : GCFragModel ℝ).normalize
        (Libm.mk Real.exp Real.log) (Dbl.fin (-1))).counts_.coeff 0 0 = Dbl.nan := by
      rw [normalize_log_coeff _ _ _ rfl rfl, hlog]
      simp only [GCFragModel.new, hmass]
      simp [LOG_0]
    simp [sumCols, hcell, Dbl.one_eq]

/-- C3 (amended): after `normalize(prior)` on a model that is not yet normalized,
every non-degenerate row sums to exactly 1 in exact arithmetic: in LINEAR space
a row of real cells with `sum over columns of (prior + cell) > 0`; in LOG space,
for a prior `≥ 0`, a row whose cells are real logarithms or `LOG_0` and whose
accumulated row mass is not `LOG_0`. -/
theorem normalize_row_sum (F : Libm K) (m : GCFragModel K) (prior : K) (r : Nat)
    (hnn : m.normalized_ = false) (hr : r < m.condBins_)
    (hrow :
      (m.dspace_ = DistributionSpace.LINEAR ∧
        (∀ c, c < m.numGCBins_ → (m.counts_.coeff r c).IsFinite) ∧
        0 < sumCols m.numGCBins_ (fun c => Dbl.fin prior + m.counts_.coeff r c)) ∨
      (m.dspace_ = DistributionSpace.LOG ∧ F.Exact ∧ 0 ≤ prior ∧
        (∀ c, c < m.numGCBins_ →
          m.counts_.coeff r c = LOG_0 ∨ (m.counts_.coeff r c).IsFinite) ∧
        rowMassLog F (Dbl.log F (Dbl.fin prior)) m.numGCBins_ m.counts_ r ≠ LOG_0)) :
    sumCols m.numGCBins_ (fun c => (m.normalize F (Dbl.fin prior)).counts_.coeff r c) = 1 := by
  rcases hrow with ⟨hlin, hcells, hmass⟩ | ⟨hlog, hF, hp, hcells, hmass⟩
  · exact normalize_linear_row_sum F m prior r hlin hnn hr hcells hmass
  · exact normalize_log_row_sum F hF m prior r hlog hnn hr hp hcells hmass

/-- Witness of C3 (amended): the row of the 3/4, 1/4 scenario in LINEAR space
with the prior 0, and the row of a fresh 1 x 1 LOG model over the reals, with
the real exponential and logarithm and the prior 1/10. -/
theorem normalize_row_sum_witness :
    sumCols 101 (fun c => ((GCFragModel.mk 1 101 DistributionSpace.LINEAR false
        (MatrixXd.mk (fun i j => if i = 0 ∧ j = 90 then Dbl.fin (1 : ℚ)
          else if i = 0 ∧ j = 50 then Dbl.fin 3 else Dbl.fin 0))).normalize
        (Libm.mk id id) (Dbl.fin 0)).counts_.coeff 0 c) = 1 ∧
    sumCols 1 (fun c => ((GCFragModel.new 1 1 DistributionSpace.LOG : GCFragModel ℝ).normalize
        (Libm.mk Real.exp Real.log) (Dbl.fin (1 / 10))).counts_.coeff 0 c) = 1 := by
  have hF : (Libm.mk Real.exp Real.log).Exact :=
    ⟨Real.exp_pos, Real.exp_sub, fun y hy => Real.exp_log hy⟩
  have hinit : ∀ i j, (GCFragModel.new 1 1 DistributionSpace.LOG : GCFragModel ℝ).counts_.coeff i j
      = LOG_0 := by
    intro i j
    show Dbl.mul (Dbl.fin 1) Dbl.ninf = Dbl.ninf
    simp [Dbl.mul, Dbl.inf]
  constructor
  · refine normalize_row_sum (Libm.mk id id) _ 0 0 rfl (by decide) (Or.inl ⟨rfl, ?_, ?_⟩)
    · intro c _
      show Dbl.IsFinite (if 0 = 0 ∧ c = 90 then Dbl.fin (1 : ℚ)
        else if 0 = 0 ∧ c = 50 then Dbl.fin 3 else Dbl.fin 0)
      split_ifs <;> exact trivial
    · have h := scenario_rowMass
      rw [Dbl.zero_eq] at h
      show 0 < sumCols 101 _
      rw [h]
      simp [Dbl.zero_eq]
  · refine normalize_row_sum (Libm.mk Real.exp Real.log) _ (1 / 10) 0 rfl (by decide)
      (Or.inr ⟨rfl, hF, by norm_num, fun c _ => Or.inl (hinit 0 c), ?_⟩)
    intro h
    have hE := exp_rowMassLog (Libm.mk Real.exp Real.log) hF
      (Dbl.log (Libm.mk Real.exp Real.log) (Dbl.fin (1 / 10))) 1
      (GCFragModel.new 1 1 DistributionSpace.LOG : GCFragModel ℝ).counts_ 0
    have h1 : (GCFragModel.new 1 1 DistributionSpace.LOG : GCFragModel ℝ).numGCBins_ = 1 := rfl
    rw [h1] at h
    rw [h, Dbl.exp_log _ hF (Dbl.fin (1 / 10)) (by show (0 : ℝ) ≤ 1 / 10; norm_num)] at hE
    simp [sumCols, hinit, LOG_0] at hE

/-- C4: normalization is idempotent: `normalize(q)` after `normalize(p)` leaves the
whole model as `normalize(p)` left it; on a model whose normalized flag is
true, `normalize` changes nothing. -/
theorem normalize_idempotent (F : Libm K) (m : GCFragModel K) (p q : Dbl K) :
    (m.normalize F p).normalize F q = m.normalize F p ∧
    (m.normalized_ = true → m.normalize F q = m) := by
  constructor
  · have h := (normalize_flags F m p).2.2.1
    unfold GCFragModel.normalize at h ⊢
    cases hn : m.normalized_
    · simp
    · simp [hn]
  · intro hn
    unfold GCFragModel.normalize
    simp [hn]

/-- Witness of C4: a model already normalized, normalized again with another prior. -/
theorem normalize_idempotent_witness :
    ((GCFragModel.new 2 3 DistributionSpace.LINEAR : GCFragModel ℚ).normalize (Libm.mk id id) 1).normalized_
      = true ∧
    ((GCFragModel.new 2 3 DistributionSpace.LINEAR : GCFragModel ℚ).normalize (Libm.mk id id) 1).normalize
      (Libm.mk id id) (Dbl.fin 5) =
    (GCFragModel.new 2 3 DistributionSpace.LINEAR : GCFragModel ℚ).normalize (Libm.mk id id) 1 :=
  ⟨rfl, (normalize_idempotent (Libm.mk id id)
    ((GCFragModel.new 2 3 DistributionSpace.LINEAR : GCFragModel ℚ).normalize (Libm.mk id id) 1)
    1 (Dbl.fin 5)).2 rfl⟩

/-- Counterexample to C7 as stated, in binary64: three 1 x 1 LINEAR models
holding the doubles 0.1, 0.2 and 0.3.  The merge `(a + b) + c` leaves
`0.6000000000000001` in the cell, the merge `a + (b + c)` leaves `0.6`: the sum
of doubles is rounded at every step and is not associative. -/
theorem combineCounts_comm_assoc_counterexample :
    ∃ ab abc bc abc',
      Binary64.combineCounts (Binary64.Lib.ofLibm (Libm.mk id id))
        (GCFragModel.mk 1 1 DistributionSpace.LINEAR false (MatrixXd.mk (fun _ _ => fl64 (1 / 10))))
        (GCFragModel.mk 1 1 DistributionSpace.LINEAR false (MatrixXd.mk (fun _ _ => fl64 (1 / 5))))
        = Except.ok ab ∧
      Binary64.combineCounts (Binary64.Lib.ofLibm (Libm.mk id id)) ab
        (GCFragModel.mk 1 1 DistributionSpace.LINEAR false (MatrixXd.mk (fun _ _ => fl64 (3 / 10))))
        = Except.ok abc ∧
      Binary64.combineCounts (Binary64.Lib.ofLibm (Libm.mk id id))
        (GCFragModel.mk 1 1 DistributionSpace.LINEAR false (MatrixXd.mk (fun _ _ => fl64 (1 / 5))))
        (GCFragModel.mk 1 1 DistributionSpace.LINEAR false (MatrixXd.mk (fun _ _ => fl64 (3 / 10))))
        = Except.ok bc ∧
      Binary64.combineCounts (Binary64.Lib.ofLibm (Libm.mk id id))
        (GCFragModel.mk 1 1 DistributionSpace.LINEAR false (MatrixXd.mk (fun _ _ => fl64 (1 / 10))))
        bc = Except.ok abc' ∧
      abc.counts_.coeff 0 0 = Dbl.fin (1351079888211149 / 2251799813685248) ∧
      abc'.counts_.coeff 0 0 = Dbl.fin (5404319552844595 / 9007199254740992) ∧
      abc.counts_.coeff 0 0 ≠ abc'.counts_.coeff 0 0 := by
  obtain ⟨ab, h1, abR0, abn0, abs0, _, abcell0⟩ := combineCounts64_ok (Binary64.Lib.ofLibm (Libm.mk id id))
    (GCFragModel.mk 1 1 DistributionSpace.LINEAR false (MatrixXd.mk (fun _ _ => fl64 (1 / 10))))
    (GCFragModel.mk 1 1 DistributionSpace.LINEAR false (MatrixXd.mk (fun _ _ => fl64 (1 / 5))))
    (show DistributionSpace.LINEAR = DistributionSpace.LINEAR from rfl)
    (show (1 : Nat) ≤ 1 from le_refl 1) (show (1 : Nat) ≤ 1 from le_refl 1)
  have abR : ab.condBins_ = 1 := abR0
  have abn : ab.numGCBins_ = 1 := abn0
  have abs1 : ab.dspace_ = DistributionSpace.LINEAR := abs0
  have abcell : ab.counts_.coeff 0 0 = Dbl.fin (1351079888211149 / 4503599627370496) := by
    rw [abcell0 0 0, if_pos ⟨by decide, by decide⟩, if_neg (by decide)]
    show Binary64.add (fl64 (1 / 10)) (fl64 (1 / 5)) = _
    rw [fl64_tenth, fl64_fifth, add64_tenth_fifth]
  obtain ⟨abc, h2, _, _, _, _, abccell0⟩ := combineCounts64_ok (Binary64.Lib.ofLibm (Libm.mk id id)) ab
    (GCFragModel.mk 1 1 DistributionSpace.LINEAR false (MatrixXd.mk (fun _ _ => fl64 (3 / 10))))
    abs1 (le_of_eq abR) (le_of_eq abn)
  have abccell : abc.counts_.coeff 0 0 = Dbl.fin (1351079888211149 / 2251799813685248) := by
    rw [abccell0 0 0, if_pos ⟨by rw [abR]; decide, by rw [abn]; decide⟩,
      if_neg (by rw [abs1]; decide), abcell]
    show Binary64.add _ (fl64 (3 / 10)) = _
    rw [fl64_three_tenths, add64_tenth_fifth_three_tenths]
  obtain ⟨bc, h3, bcR0, bcn0, bcs0, _, bccell0⟩ := combineCounts64_ok (Binary64.Lib.ofLibm (Libm.mk id id))
    (GCFragModel.mk 1 1 DistributionSpace.LINEAR false (MatrixXd.mk (fun _ _ => fl64 (1 / 5))))
    (GCFragModel.mk 1 1 DistributionSpace.LINEAR false (MatrixXd.mk (fun _ _ => fl64 (3 / 10))))
    (show DistributionSpace.LINEAR = DistributionSpace.LINEAR from rfl)
    (show (1 : Nat) ≤ 1 from le_refl 1) (show (1 : Nat) ≤ 1 from le_refl 1)
  have bcR : bc.condBins_ = 1 := bcR0
  have bcn : bc.numGCBins_ = 1 := bcn0
  have bcs1 : bc.dspace_ = DistributionSpace.LINEAR := bcs0
  have bccell : bc.counts_.coeff 0 0 = Dbl.fin (1 / 2) := by
    rw [bccell0 0 0, if_pos ⟨by decide, by decide⟩, if_neg (by decide)]
    show Binary64.add (fl64 (1 / 5)) (fl64 (3 / 10)) = _
    rw [fl64_fifth, fl64_three_tenths, add64_fifth_three_tenths]
  obtain ⟨abc', h4, _, _, _, _, abccell0'⟩ := combineCounts64_ok (Binary64.Lib.ofLibm (Libm.mk id id))
    (GCFragModel.mk 1 1 DistributionSpace.LINEAR false (MatrixXd.mk (fun _ _ => fl64 (1 / 10))))
    bc bcs1.symm (le_of_eq bcR.symm) (le_of_eq bcn.symm)
  have abccell' : abc'.counts_.coeff 0 0 = Dbl.fin (5404319552844595 / 9007199254740992) := by
    rw [abccell0' 0 0, if_pos ⟨by decide, by decide⟩, if_neg (by decide), bccell]
    show Binary64.add (fl64 (1 / 10)) _ = _
    rw [fl64_tenth, add64_tenth_half]
  refine ⟨ab, abc, bc, abc', h1, h2, h3, h4, abccell, abccell', ?_⟩
  rw [abccell, abccell']
  intro h
  have := Dbl.fin.inj h
  norm_num at this

/-- C7 (amended): `combineCounts` is commutative cell-wise, in binary64
arithmetic as in exact arithmetic, and associative cell-wise in exact
arithmetic.  In exact arithmetic (the sum of a cell taken without rounding, the
exact exponential and logarithm in LOG space), for models `a`, `b`, `c` of equal
shape and equal space, the five merges succeed, the table of
`combineCounts(combineCounts(a,b), c)` equals the table of
`combineCounts(a, combineCounts(b,c))`, the table of `combineCounts(a,b)` equals
the table of `combineCounts(b,a)`, and each merged cell is the sum in LINEAR
space and `logAdd` in LOG space.  In binary64, for models `x`, `y` of equal
shape and equal space (in LOG space with a `logAdd` that is symmetric in its
arguments), the two merges succeed and the table of `combineCounts(x,y)` equals
the table of `combineCounts(y,x)`. -/
theorem combineCounts_comm_assoc (F : Libm K) (a b c : GCFragModel K)
    (hab : SameShape a b) (hbc : SameShape b c)
    (sab : a.dspace_ = b.dspace_) (sbc : b.dspace_ = c.dspace_)
    (hF : a.dspace_ = DistributionSpace.LOG → F.Exact)
    (L : Binary64.Lib) (x y : GCFragModel ℚ) (hxy : SameShape x y)
    (sxy : x.dspace_ = y.dspace_)
    (hL : x.dspace_ = DistributionSpace.LOG → ∀ u v, L.logAdd u v = L.logAdd v u) :
    (∃ ab ba bc abc abc', a.combineCounts F b = Except.ok ab ∧
      b.combineCounts F a = Except.ok ba ∧ b.combineCounts F c = Except.ok bc ∧
      ab.combineCounts F c = Except.ok abc ∧ a.combineCounts F bc = Except.ok abc' ∧
      ∀ i j, i < a.condBins_ → j < a.numGCBins_ →
        abc.counts_.coeff i j = abc'.counts_.coeff i j ∧
        ab.counts_.coeff i j = ba.counts_.coeff i j ∧
        ab.counts_.coeff i j =
          (if a.dspace_ = DistributionSpace.LOG then
            logAdd F (a.counts_.coeff i j) (b.counts_.coeff i j)
          else a.counts_.coeff i j + b.counts_.coeff i j)) ∧
    (∃ xy yx, Binary64.combineCounts L x y = Except.ok xy ∧
      Binary64.combineCounts L y x = Except.ok yx ∧
      ∀ i j, i < x.condBins_ → j < x.numGCBins_ →
        xy.counts_.coeff i j = yx.counts_.coeff i j) := by
  refine ⟨?_, combineCounts64_comm L x y hxy sxy hL⟩
  obtain ⟨ab, hab1, abR, abn, abs, _, abcell⟩ :=
    combineCounts_ok F a b sab (le_of_eq hab.1) (le_of_eq hab.2)
  obtain ⟨ba, hba1, _, _, _, _, bacell⟩ :=
    combineCounts_ok F b a sab.symm (le_of_eq hab.1.symm) (le_of_eq hab.2.symm)
  obtain ⟨bc, hbc1, bcR, bcn, bcs, _, bccell⟩ :=
    combineCounts_ok F b c sbc (le_of_eq hbc.1) (le_of_eq hbc.2)
  obtain ⟨abc, habc1, _, _, _, _, abccell⟩ :=
    combineCounts_ok F ab c (by rw [abs, sab, sbc])
      (by rw [abR, hab.1, hbc.1]) (by rw [abn, hab.2, hbc.2])
  obtain ⟨abc', habc2, _, _, _, _, abccell'⟩ :=
    combineCounts_ok F a bc (by rw [bcs, sab])
      (by rw [bcR, hab.1]) (by rw [bcn, hab.2])
  refine ⟨ab, ba, bc, abc, abc', hab1, hba1, hbc1, habc1, habc2, ?_⟩
  intro i j hi hj
  have hib : i < b.condBins_ := by rw [← hab.1]; exact hi
  have hjb : j < b.numGCBins_ := by rw [← hab.2]; exact hj
  have e1 := abccell i j
  have e2 := abccell' i j
  have e3 := abcell i j
  have e4 := bacell i j
  have e5 := bccell i j
  have hbs : b.dspace_ = a.dspace_ := sab.symm
  have hrange : i < a.condBins_ ∧ j < a.numGCBins_ := ⟨hi, hj⟩
  have hrangeb : i < b.condBins_ ∧ j < b.numGCBins_ := ⟨hib, hjb⟩
  simp only [abR, abn, abs, hbs, hrange, hrangeb, if_true] at e1 e2 e3 e4 e5
  rw [e3] at e1
  rw [e5] at e2
  refine ⟨?_, ?_, e3⟩
  · rw [e1, e2]
    by_cases hlog : a.dspace_ = DistributionSpace.LOG
    · simp only [if_pos hlog]
      exact logAdd_assoc F (hF hlog) _ _ _
    · simp only [if_neg hlog]
      exact add_assoc _ _ _
  · rw [e3, e4]
    by_cases hlog : a.dspace_ = DistributionSpace.LOG
    · simp only [if_pos hlog]
      exact logAdd_comm F _ _
    · simp only [if_neg hlog]
      exact add_comm _ _

/-- Witness of C7 (amended): three 1 x 1 LOG models over the reals, with the real
exponential and logarithm, holding `log 1`, `LOG_0` and the logarithm 1; in
binary64, two 1 x 1 LINEAR models holding the doubles 0.1 and 0.2. -/
theorem combineCounts_comm_assoc_witness :
    (∃ ab ba bc abc abc',
      (GCFragModel.mk 1 1 DistributionSpace.LOG false (MatrixXd.mk (fun _ _ => Dbl.fin (0 : ℝ)))).combineCounts
        (Libm.mk Real.exp Real.log)
        (GCFragModel.mk 1 1 DistributionSpace.LOG false (MatrixXd.mk (fun _ _ => LOG_0))) = Except.ok ab ∧
      (GCFragModel.mk 1 1 DistributionSpace.LOG false (MatrixXd.mk (fun _ _ => LOG_0))).combineCounts
        (Libm.mk Real.exp Real.log)
        (GCFragModel.mk 1 1 DistributionSpace.LOG false (MatrixXd.mk (fun _ _ => Dbl.fin (0 : ℝ))))
        = Except.ok ba ∧
      (GCFragModel.mk 1 1 DistributionSpace.LOG false (MatrixXd.mk (fun _ _ => LOG_0))).combineCounts
        (Libm.mk Real.exp Real.log)
        (GCFragModel.mk 1 1 DistributionSpace.LOG false (MatrixXd.mk (fun _ _ => Dbl.fin (1 : ℝ))))
        = Except.ok bc ∧
      ab.combineCounts (Libm.mk Real.exp Real.log)
        (GCFragModel.mk 1 1 DistributionSpace.LOG false (MatrixXd.mk (fun _ _ => Dbl.fin (1 : ℝ))))
        = Except.ok abc ∧
      (GCFragModel.mk 1 1 DistributionSpace.LOG false (MatrixXd.mk (fun _ _ => Dbl.fin (0 : ℝ)))).combineCounts
        (Libm.mk Real.exp Real.log) bc = Except.ok abc' ∧
      abc.counts_.coeff 0 0 = abc'.counts_.coeff 0 0 ∧
      ab.counts_.coeff 0 0 = ba.counts_.coeff 0 0) ∧
    (∃ xy yx,
      Binary64.combineCounts (Binary64.Lib.ofLibm (Libm.mk id id))
        (GCFragModel.mk 1 1 DistributionSpace.LINEAR false (MatrixXd.mk (fun _ _ => fl64 (1 / 10))))
        (GCFragModel.mk 1 1 DistributionSpace.LINEAR false (MatrixXd.mk (fun _ _ => fl64 (1 / 5))))
        = Except.ok xy ∧
      Binary64.combineCounts (Binary64.Lib.ofLibm (Libm.mk id id))
        (GCFragModel.mk 1 1 DistributionSpace.LINEAR false (MatrixXd.mk (fun _ _ => fl64 (1 / 5))))
        (GCFragModel.mk 1 1 DistributionSpace.LINEAR false (MatrixXd.mk (fun _ _ => fl64 (1 / 10))))
        = Except.ok yx ∧
      xy.counts_.coeff 0 0 = yx.counts_.coeff 0 0) := by
  obtain ⟨⟨ab, ba, bc, abc, abc', h1, h2, h3, h4, h5, hcell⟩, ⟨xy, yx, k1, k2, kcell⟩⟩ :=
    combineCounts_comm_assoc (Libm.mk Real.exp Real.log)
      (GCFragModel.mk 1 1 DistributionSpace.LOG false (MatrixXd.mk (fun _ _ => Dbl.fin (0 : ℝ))))
      (GCFragModel.mk 1 1 DistributionSpace.LOG false (MatrixXd.mk (fun _ _ => LOG_0)))
      (GCFragModel.mk 1 1 DistributionSpace.LOG false (MatrixXd.mk (fun _ _ => Dbl.fin (1 : ℝ))))
      ⟨rfl, rfl⟩ ⟨rfl, rfl⟩ rfl rfl
      (fun _ => ⟨Real.exp_pos, Real.exp_sub, fun y hy => Real.exp_log hy⟩)
      (Binary64.Lib.ofLibm (Libm.mk id id))
      (GCFragModel.mk 1 1 DistributionSpace.LINEAR false (MatrixXd.mk (fun _ _ => fl64 (1 / 10))))
      (GCFragModel.mk 1 1 DistributionSpace.LINEAR false (MatrixXd.mk (fun _ _ => fl64 (1 / 5))))
      (show (1 : Nat) = 1 ∧ (1 : Nat) = 1 from ⟨rfl, rfl⟩)
      (show DistributionSpace.LINEAR = DistributionSpace.LINEAR from rfl)
      (fun h => absurd (show DistributionSpace.LINEAR = DistributionSpace.LOG from h) (by decide))
  exact ⟨⟨ab, ba, bc, abc, abc', h1, h2, h3, h4, h5,
    (hcell 0 0 (by decide) (by decide)).1, (hcell 0 0 (by decide) (by decide)).2.1⟩,
    ⟨xy, yx, k1, k2, kcell 0 0 (show 0 < 1 from Nat.one_pos) (show 0 < 1 from Nat.one_pos)⟩⟩

/-- Counterexample to C8 as stated: two LINEAR models, so of equal space, of
shapes 2 x 2 and 1 x 2.  The loop of `combineCounts` reads `other.counts_(1,0)`,
which is outside the 1 x 2 matrix: the call does not succeed, although the
spaces are equal. -/
theorem combineCounts_fails_counterexample :
    (GCFragModel.new 2 2 DistributionSpace.LINEAR : GCFragModel ℚ).dspace_ =
      (GCFragModel.new 1 2 DistributionSpace.LINEAR : GCFragModel ℚ).dspace_ ∧
    (GCFragModel.new 2 2 DistributionSpace.LINEAR : GCFragModel ℚ).combineCounts (Libm.mk id id)
      (GCFragModel.new 1 2 DistributionSpace.LINEAR) = Except.error Fault.outOfBounds ∧
    ¬ ∃ m, (GCFragModel.new 2 2 DistributionSpace.LINEAR : GCFragModel ℚ).combineCounts
      (Libm.mk id id) (GCFragModel.new 1 2 DistributionSpace.LINEAR) = Except.ok m := by
  have h : (GCFragModel.new 2 2 DistributionSpace.LINEAR : GCFragModel ℚ).combineCounts
      (Libm.mk id id) (GCFragModel.new 1 2 DistributionSpace.LINEAR) =
      Except.error Fault.outOfBounds := by
    rfl
  refine ⟨rfl, h, ?_⟩
  rintro ⟨m, hm⟩
  rw [h] at hm
  cases hm

/-- C8 (amended): `combineCounts` takes the fatal exit, and produces no merged
value, if and only if the spaces of the two models differ; when the spaces are
equal and `other` has at least the rows and the columns of `this` (so when the
shapes are equal), it succeeds, the merged model keeps the common space, and
`other` is not modified. -/
theorem combineCounts_fails_iff (F : Libm K) (a b : GCFragModel K) :
    (a.combineCounts F b = Except.error Fault.exit1 ↔ a.dspace_ ≠ b.dspace_) ∧
    (a.dspace_ ≠ b.dspace_ → ∀ m, a.combineCounts F b ≠ Except.ok m) ∧
    (a.dspace_ = b.dspace_ → a.condBins_ ≤ b.condBins_ → a.numGCBins_ ≤ b.numGCBins_ →
      ∃ m, a.combineCounts F b = Except.ok m ∧ m.dspace_ = a.dspace_ ∧ m.dspace_ = b.dspace_) := by
  refine ⟨combineCounts_exit_iff F a b, ?_, ?_⟩
  · intro hs m hm
    rw [(combineCounts_exit_iff F a b).mpr hs] at hm
    cases hm
  · intro hs hR hn
    obtain ⟨m, hm, _, _, hsp, _, _⟩ := combineCounts_ok F a b hs hR hn
    exact ⟨m, hm, hsp, by rw [hsp, hs]⟩

/-- Witness of C8 (amended), the fatal scenario of the specification: a model
constructed in LOG space combined with a model constructed in LINEAR space
takes the fatal exit; two LINEAR models of equal shape are merged. -/
theorem combineCounts_fails_iff_witness :
    (GCFragModel.new 3 101 DistributionSpace.LOG : GCFragModel ℚ).combineCounts (Libm.mk id id)
      (GCFragModel.new 3 101 DistributionSpace.LINEAR) = Except.error Fault.exit1 ∧
    ∃ m, (GCFragModel.new 3 101 DistributionSpace.LINEAR : GCFragModel ℚ).combineCounts
      (Libm.mk id id) (GCFragModel.new 3 101 DistributionSpace.LINEAR) = Except.ok m ∧
      m.dspace_ = DistributionSpace.LINEAR :=
  ⟨(combineCounts_fails_iff (Libm.mk id id) (GCFragModel.new 3 101 DistributionSpace.LOG)
      (GCFragModel.new 3 101 DistributionSpace.LINEAR)).1.mpr (by decide),
    by
      obtain ⟨m, hm, hs, _⟩ := (combineCounts_fails_iff (Libm.mk id id)
        (GCFragModel.new 3 101 DistributionSpace.LINEAR : GCFragModel ℚ)
        (GCFragModel.new 3 101 DistributionSpace.LINEAR)).2.2 rfl (le_refl _) (le_refl _)
      exact ⟨m, hm, hs⟩⟩

/-- Counterexample to C12 as stated: two fresh 1 x 2 LINEAR models and
`maxRatio = 10`.  The model returned by `ratio` holds the cell 1 with the
normalized flag false, and a subsequent `normalize()` turns that cell into 1/2. -/
theorem ratio_result_flag_counterexample :
    ∃ res, (GCFragModel.new 1 2 DistributionSpace.LINEAR : GCFragModel ℚ).ratio (Libm.mk id id)
        (GCFragModel.new 1 2 DistributionSpace.LINEAR) (Dbl.fin 10) = Except.ok res ∧
      res.ratioModel.normalized_ = false ∧
      res.ratioModel.counts_.coeff 0 0 = Dbl.fin 1 ∧
      (res.ratioModel.normalize (Libm.mk id id) defaultPrior).counts_.coeff 0 0 =
        Dbl.fin (1 / 2) := by
  obtain ⟨res, hres, hcell⟩ := ratio_covered (Libm.mk id id)
    (GCFragModel.new 1 2 DistributionSpace.LINEAR : GCFragModel ℚ)
    (GCFragModel.new 1 2 DistributionSpace.LINEAR) (Dbl.fin 10) (le_refl _) (le_refl _)
  obtain ⟨_, _, hflag, hspace, hR, hn⟩ := ratio_ok _ _ _ _ res hres
  have hin : ∀ j, ((GCFragModel.new 1 2 DistributionSpace.LINEAR : GCFragModel ℚ).normalize
      (Libm.mk id id) defaultPrior).counts_.coeff 0 j = if j < 2 then Dbl.fin (1 / 2) else 0 := by
    intro j
    rw [normalize_linear_coeff _ _ _ rfl rfl]
    simp only [GCFragModel.new, initCounts_coeff, defaultPrior, sumCols, Finset.sum_range_succ,
      Finset.sum_range_zero]
    by_cases hj : j < 2
    · simp [hj, Dbl.zero_eq, Dbl.fin_div_fin]
      norm_num
    · simp [hj, Dbl.zero_eq]
  have hone : ∀ j, j < 2 → res.ratioModel.counts_.coeff 0 j = Dbl.fin 1 := by
    intro j hj
    rw [hcell 0 j (by decide) hj, hin, if_pos hj, Dbl.fin_div_fin _ _ (by norm_num),
      Dbl.one_eq, Dbl.fin_div_fin _ _ (by norm_num)]
    simp [clampRat]
    norm_num
  have hlin : res.ratioModel.dspace_ = DistributionSpace.LINEAR := by
    rw [hspace]
    rfl
  refine ⟨res, hres, hflag, hone 0 (by decide), ?_⟩
  rw [normalize_linear_coeff _ _ _ hlin hflag]
  have hR1 : res.ratioModel.condBins_ = 1 := hR
  have hn2 : res.ratioModel.numGCBins_ = 2 := hn
  simp only [hR1, hn2, defaultPrior, sumCols, Finset.sum_range_succ, Finset.sum_range_zero,
    hone 0 (by decide), hone 1 (by decide)]
  simp [Dbl.zero_eq]
  norm_num
  rw [Dbl.fin_div_fin _ _ (by norm_num)]
  norm_num

/-- C11: log/linear equivalence in exact arithmetic: for every shape, every list
of observations (descriptor in range, weight `w > 0`) and every prior `> 0`,
accumulating the observations with `inc` in a fresh LOG model with the weights
`log w` and in a fresh LINEAR model with the weights `w` succeeds, and after
`normalize(prior)` the two tables are equal cell for cell. -/
theorem log_linear_equivalence (F : Libm K) (hF : F.Exact) (condBins numGCBins : Nat)
    (obs : List (GCDesc × K)) (prior : K) (hp : 0 < prior) (hw : ∀ o ∈ obs, 0 < o.2)
    (hin : ∀ o ∈ obs, cellOf condBins numGCBins o.1 ≠ none) :
    ∃ mlog mlin,
      (GCFragModel.new condBins numGCBins DistributionSpace.LOG).incAll F
        (obs.map (fun o => (o.1, Dbl.log F (Dbl.fin o.2)))) = some mlog ∧
      (GCFragModel.new condBins numGCBins DistributionSpace.LINEAR).incAll F
        (obs.map (fun o => (o.1, Dbl.fin o.2))) = some mlin ∧
      ∀ i j, i < condBins → j < numGCBins →
        (mlog.normalize F (Dbl.fin prior)).counts_.coeff i j =
          (mlin.normalize F (Dbl.fin prior)).counts_.coeff i j := by
  obtain ⟨mlog, hlog1, gR0, gn0, gs0, gf0, gcell0⟩ := incAll_log F hF obs hw
    (GCFragModel.new condBins numGCBins DistributionSpace.LOG) rfl hin
  obtain ⟨mlin, hlin1, lR0, ln0, ls0, lf0, lcell0⟩ := incAll_linear F
    (obs.map (fun o => (o.1, Dbl.fin o.2)))
    (GCFragModel.new condBins numGCBins DistributionSpace.LINEAR) rfl
    (fun x hx => by
      obtain ⟨o, ho, rfl⟩ := List.mem_map.mp hx
      exact hin o ho)
  have gR : mlog.condBins_ = condBins := gR0
  have gn : mlog.numGCBins_ = numGCBins := gn0
  have gs : mlog.dspace_ = DistributionSpace.LOG := gs0
  have gf : mlog.normalized_ = false := gf0
  have gcell : ∀ a b, Dbl.exp F (mlog.counts_.coeff a b) =
      Dbl.exp F ((initCounts DistributionSpace.LOG : MatrixXd K).coeff a b) +
        Dbl.fin (cellTotal condBins numGCBins obs a b) := gcell0
  have lR : mlin.condBins_ = condBins := lR0
  have ln : mlin.numGCBins_ = numGCBins := ln0
  have ls : mlin.dspace_ = DistributionSpace.LINEAR := ls0
  have lf : mlin.normalized_ = false := lf0
  have lcell : ∀ a b, mlin.counts_.coeff a b =
      (initCounts DistributionSpace.LINEAR : MatrixXd K).coeff a b +
        cellTotal condBins numGCBins (obs.map (fun o => (o.1, Dbl.fin o.2))) a b := lcell0
  refine ⟨mlog, mlin, hlog1, hlin1, ?_⟩
  intro i j hi hj
  have hT : ∀ a b, 0 ≤ cellTotal condBins numGCBins obs a b :=
    fun a b => cellTotal_nonneg condBins numGCBins obs hw a b
  have hlinc : ∀ a b, mlin.counts_.coeff a b = Dbl.fin (cellTotal condBins numGCBins obs a b) := by
    intro a b
    rw [lcell a b, cellTotal_fin, initCounts_coeff, if_neg (by decide), zero_add]
  have hlogc : ∀ a b, Dbl.exp F (mlog.counts_.coeff a b) =
      Dbl.fin (cellTotal condBins numGCBins obs a b) := by
    intro a b
    rw [gcell a b, initCounts_coeff, if_pos rfl]
    show Dbl.fin 0 + Dbl.fin _ = _
    rw [Dbl.fin_add_fin, zero_add]
  have hvlin : ∀ a b, (mlin.counts_.coeff a b).val = cellTotal condBins numGCBins obs a b := by
    intro a b
    rw [hlinc a b]
    rfl
  have hvlog : ∀ a b, (Dbl.exp F (mlog.counts_.coeff a b)).val =
      cellTotal condBins numGCBins obs a b := fun a b => (exp_eq_fin F _ _ (hlogc a b)).2
  have hpos : 0 < ∑ c in Finset.range numGCBins, (prior + cellTotal condBins numGCBins obs i c) := by
    apply Finset.sum_pos
    · intro c _
      exact add_pos_of_pos_of_nonneg hp (hT i c)
    · exact ⟨j, Finset.mem_range.mpr hj⟩
  have e1 := normalize_log_cell_fin F hF mlog prior i j gs gf
    (by rw [gR]; exact hi) (by rw [gn]; exact hj) hp.le
    (fun c _ => (exp_eq_fin F _ _ (hlogc i c)).1)
    (by
      rw [gn]
      simp only [hvlog]
      exact hpos)
  have e2 := normalize_linear_cell_fin F mlin prior i j ls lf
    (by rw [lR]; exact hi) (by rw [ln]; exact hj)
    (fun c _ => by rw [hlinc i c]; exact trivial)
    (by
      rw [ln]
      simp only [hvlin]
      exact hpos)
  rw [e1, e2, gn, ln]
  simp only [hvlog, hvlin]

/-- Witness of C11: over the reals, with the real exponential and logarithm: a
3 x 101 table, the observations (50, 100) with the weight 2 and (90, 0) with
the weight 1/2, and the prior 1/10. -/
theorem log_linear_equivalence_witness :
    ∃ mlog mlin,
      (GCFragModel.new 3 101 DistributionSpace.LOG : GCFragModel ℝ).incAll
        (Libm.mk Real.exp Real.log)
        ([(GCDesc.mk 50 100, (2 : ℝ)), (GCDesc.mk 90 0, 1 / 2)].map
          (fun o => (o.1, Dbl.log (Libm.mk Real.exp Real.log) (Dbl.fin o.2)))) = some mlog ∧
      (GCFragModel.new 3 101 DistributionSpace.LINEAR : GCFragModel ℝ).incAll
        (Libm.mk Real.exp Real.log)
        ([(GCDesc.mk 50 100, (2 : ℝ)), (GCDesc.mk 90 0, 1 / 2)].map
          (fun o => (o.1, Dbl.fin o.2))) = some mlin ∧
      ∀ i j, i < 3 → j < 101 →
        (mlog.normalize (Libm.mk Real.exp Real.log) (Dbl.fin (1 / 10))).counts_.coeff i j =
          (mlin.normalize (Libm.mk Real.exp Real.log) (Dbl.fin (1 / 10))).counts_.coeff i j :=
  log_linear_equivalence (Libm.mk Real.exp Real.log)
    ⟨Real.exp_pos, Real.exp_sub, fun y hy => Real.exp_log hy⟩ 3 101
    [(GCDesc.mk 50 100, (2 : ℝ)), (GCDesc.mk 90 0, 1 / 2)] (1 / 10) (by norm_num)
    (by
      intro o ho
      simp only [List.mem_cons, List.mem_singleton, List.not_mem_nil, or_false] at ho
      rcases ho with rfl | rfl <;> norm_num)
    (by
      intro o ho
      simp only [List.mem_cons, List.mem_singleton, List.not_mem_nil, or_false] at ho
      have h1 : cellOf 3 101 (GCDesc.mk 50 100) = some (2, 50) := by
        unfold cellOf
        rw [if_pos (by decide), show narrow32 3 = 3 by decide]
        show (match binOf 100 3 with
          | none => none
          | some ctx => _) = _
        rw [binOf_eq 100 3 (by decide) (by decide)]
        decide
      have h2 : cellOf 3 101 (GCDesc.mk 90 0) = some (0, 90) := by
        unfold cellOf
        rw [if_pos (by decide), show narrow32 3 = 3 by decide]
        show (match binOf 0 3 with
          | none => none
          | some ctx => _) = _
        rw [binOf_eq 0 3 (by decide) (by decide)]
        decide
      rcases ho with rfl | rfl
      · rw [h1]; exact Option.some_ne_none _
      · rw [h2]; exact Option.some_ne_none _)

/-- C12 (amended): for two models of equal shape and every `maxRatio`, `ratio`
succeeds and returns a model built by the constructor: its shape is the shape
of the receiver, its normalized flag is false, and its space is the space of
the receiver after normalization, which is LINEAR as soon as the receiver
satisfies "normalized implies LINEAR". -/
theorem ratio_result_flag (F : Libm K) (a b : GCFragModel K) (maxRatio : Dbl K)
    (hs : SameShape a b) :
    ∃ res, a.ratio F b maxRatio = Except.ok res ∧
      res.ratioModel.normalized_ = false ∧
      res.ratioModel.condBins_ = a.condBins_ ∧ res.ratioModel.numGCBins_ = a.numGCBins_ ∧
      res.ratioModel.dspace_ = (a.normalize F defaultPrior).dspace_ ∧
      ((a.normalized_ = true → a.dspace_ = DistributionSpace.LINEAR) →
        res.ratioModel.dspace_ = DistributionSpace.LINEAR) := by
  obtain ⟨res, hres, _⟩ := ratio_covered F a b maxRatio (le_of_eq hs.1) (le_of_eq hs.2)
  obtain ⟨_, _, hflag, hspace, hR, hn⟩ := ratio_ok F a b maxRatio res hres
  refine ⟨res, hres, hflag, hR, hn, hspace, ?_⟩
  intro hinv
  rw [hspace]
  cases hna : a.normalized_
  · exact (normalize_flags F a defaultPrior).2.2.2 hna
  · rw [normalize_of_normalized F a _ hna]
    exact hinv hna

/-- Witness of C12 (amended): two fresh 3 x 101 LOG models and `maxRatio = 10`. -/
theorem ratio_result_flag_witness :
    ∃ res, (GCFragModel.new 3 101 DistributionSpace.LOG : GCFragModel ℚ).ratio (Libm.mk id id)
        (GCFragModel.new 3 101 DistributionSpace.LOG) (Dbl.fin 10) = Except.ok res ∧
      res.ratioModel.normalized_ = false ∧
      res.ratioModel.dspace_ = DistributionSpace.LINEAR := by
  obtain ⟨res, hres, hflag, _, _, _, hlin⟩ := ratio_result_flag (Libm.mk id id)
    (GCFragModel.new 3 101 DistributionSpace.LOG : GCFragModel ℚ)
    (GCFragModel.new 3 101 DistributionSpace.LOG) (Dbl.fin 10) ⟨rfl, rfl⟩
  exact ⟨res, hres, hflag, hlin (fun h => by cases h)⟩

/-- C13: `reset(s)` leaves the model equal to a model freshly constructed with
the same two dimensions and the space `s`: every cell is `LOG_0` if `s` is LOG
and 0 if `s` is LINEAR, the normalized flag is false, the dimensions are
unchanged. -/
theorem reset_eq_new (m : GCFragModel K) (s : DistributionSpace) :
    m.reset s = GCFragModel.new m.condBins_ m.numGCBins_ s ∧
    (∀ i j, (m.reset s).counts_.coeff i j = if s = DistributionSpace.LOG then LOG_0 else 0) ∧
    (m.reset s).normalized_ = false ∧ (m.reset s).dspace_ = s ∧
    (m.reset s).condBins_ = m.condBins_ ∧ (m.reset s).numGCBins_ = m.numGCBins_ :=
  ⟨rfl, fun i j => initCounts_coeff s i j, rfl, rfl, rfl, rfl⟩

/-- C14: in every state reachable from construction through `reset`, `inc`,
`combineCounts`, `normalize` and `ratio` (the three models that `ratio` leaves
included), a true normalized flag implies the space LINEAR. -/
theorem normalized_implies_linear (F : Libm K) (m : GCFragModel K) (h : Reachable F m) :
    m.normalized_ = true → m.dspace_ = DistributionSpace.LINEAR := by
  induction h with
  | construct condBins numGCBins dspace => intro hn; cases hn
  | reset m dspace _ _ => intro hn; cases hn
  | inc m m1 desc w _ hinc ih =>
    obtain ⟨_, _, hs, hf⟩ := inc_flags F m m1 desc w hinc
    rw [hs, hf]
    exact ih
  | combineCounts m other m1 _ _ hcomb ih _ =>
    obtain ⟨_, _, hs, hf⟩ := combineCounts_flags F m other m1 hcomb
    rw [hs, hf]
    exact ih
  | normalize m prior _ ih =>
    intro _
    cases hn : m.normalized_
    · exact (normalize_flags F m prior).2.2.2 hn
    · rw [normalize_of_normalized F m prior hn]
      exact ih hn
  | ratioSelf m other maxRatio res _ _ hr ih _ =>
    intro _
    rw [(ratio_ok F m other maxRatio res hr).1]
    cases hn : m.normalized_
    · exact (normalize_flags F m defaultPrior).2.2.2 hn
    · rw [normalize_of_normalized F m _ hn]
      exact ih hn
  | ratioOther m other maxRatio res _ _ hr _ ih =>
    intro _
    rw [(ratio_ok F m other maxRatio res hr).2.1]
    cases hn : other.normalized_
    · exact (normalize_flags F other defaultPrior).2.2.2 hn
    · rw [normalize_of_normalized F other _ hn]
      exact ih hn
  | ratioModel m other maxRatio res _ _ hr _ _ =>
    intro hn
    rw [(ratio_ok F m other maxRatio res hr).2.2.1] at hn
    cases hn

/-- Witness of C14: a LOG model after `reset`, then `normalize`. -/
theorem normalized_implies_linear_witness :
    (((GCFragModel.new 3 101 DistributionSpace.LINEAR : GCFragModel ℚ).reset
      DistributionSpace.LOG).normalize (Libm.mk id id) defaultPrior).normalized_ = true ∧
    (((GCFragModel.new 3 101 DistributionSpace.LINEAR : GCFragModel ℚ).reset
      DistributionSpace.LOG).normalize (Libm.mk id id) defaultPrior).dspace_ =
      DistributionSpace.LINEAR :=
  ⟨rfl, normalized_implies_linear (Libm.mk id id) _
    (Reachable.normalize _ _ (Reachable.reset _ _ (Reachable.construct 3 101 _))) rfl⟩

/-- Counterexample to C16 as stated, in binary64.  At the percentile 50 and
the resolution 22 the exact quotient is 11, but `100.0 / 22` is rounded to
`5117726849284655 / 2^50` and `50 / w` to `6192449487634431 / 2^49`, just below
11: the bin is 10, the formula of the claim gives 11.  At the percentile `-1`
and the resolution 3 the conversion to `int32_t` rounds the quotient toward
zero: the bin is 0, while the floor gives `min(2, -1) = -1`. -/
theorem bin_formula_counterexample :
    (Binary64.fragBinN (GCDesc.mk 50 50) 22 = some 10 ∧
      min ((22 : Int) - 1) ⌊((50 : Int) : ℚ) / (100 / ((22 : Int) : ℚ))⌋ = 11) ∧
    (Binary64.fragBinN (GCDesc.mk (-1) (-1)) 3 = some 0 ∧
      min ((3 : Int) - 1) ⌊((-1 : Int) : ℚ) / (100 / ((3 : Int) : ℚ))⌋ = -1) := by
  have hw : Binary64.div (Dbl.fin 100) (Dbl.fin ((22 : Int) : ℚ)) =
      Dbl.fin (5117726849284655 / 1125899906842624) := by
    unfold Binary64.div
    rw [Dbl.fin_div_fin _ _ (by norm_num)]
    show fl64 _ = _
    exact fl64_near _ _ 2 5117726849284655 (by norm_num) (by norm_num) (by norm_num)
      (by norm_num [abs_lt]) (by norm_num) (by norm_num [abs_lt])
  have hq : Binary64.div (Dbl.fin ((50 : Int) : ℚ))
      (Dbl.fin (5117726849284655 / 1125899906842624)) =
      Dbl.fin (6192449487634431 / 562949953421312) := by
    unfold Binary64.div
    rw [Dbl.fin_div_fin _ _ (by norm_num)]
    show fl64 _ = _
    exact fl64_near _ _ 3 6192449487634431 (by norm_num) (by norm_num) (by norm_num)
      (by norm_num [abs_lt]) (by norm_num) (by norm_num [abs_lt])
  have ht : trunc (6192449487634431 / 562949953421312) = 10 := by
    unfold trunc
    rw [if_pos (by norm_num), Int.floor_eq_iff]
    norm_num
  have h1 : Binary64.fragBinN (GCDesc.mk 50 50) 22 = some 10 := by
    show Binary64.binOf 50 22 = some 10
    unfold Binary64.binOf
    simp only [hw, hq]
    rw [if_pos (by decide), castInt32_fin _ (by rw [ht]; decide), ht]
    decide
  have h2 : ⌊((50 : Int) : ℚ) / (100 / ((22 : Int) : ℚ))⌋ = 11 := by
    rw [Int.floor_eq_iff]
    norm_num
  have h3 : Binary64.fragBinN (GCDesc.mk (-1) (-1)) 3 = some 0 := by
    show Binary64.binOf (-1) 3 = some 0
    rw [(binOf64_spec (-1) 3 (by decide) (by decide) (by decide)).1 (by decide)]
    have : trunc (((-1 : Int) : ℚ) / (100 / ((3 : Int) : ℚ))) = 0 := by
      unfold trunc
      rw [if_neg (by norm_num), Int.ceil_eq_iff]
      norm_num
    rw [this]
    decide
  have h4 : ⌊((-1 : Int) : ℚ) / (100 / ((3 : Int) : ℚ))⌋ = -1 := by
    rw [Int.floor_eq_iff]
    norm_num
  refine ⟨⟨h1, ?_⟩, ⟨h3, ?_⟩⟩
  · rw [h2]
    decide
  · rw [h4]
    decide

/-- C16 (amended): for a resolution `1 ≤ n ≤ 2^31 - 1` and a percentile `p`
with `|p * n| < 100 * 2^31` (the quotient fits an `int32_t`), `fragBin(n)` and
`contextBin(n)`, computed in binary64, are `min(n-1, t)` where: when 100 does
not divide `p * n`, `t` is the exact quotient `p / (100/n)` rounded toward zero
(`trunc`: its floor when it is `≥ 0`, its ceiling when it is negative); when 100
divides `p * n`, `t` is the exact quotient `k = p * n / 100` or `k` moved one
unit toward zero (`k - sign p`), as the double quotient can fall just below
the integer. -/
theorem bin_formula (d : GCDesc) (n : Int) (hn : 1 ≤ n) (hn32 : n ≤ 2147483647) :
    (|d.fragFrac * n| < 214748364800 →
      (¬ (100 : Int) ∣ d.fragFrac * n →
        Binary64.fragBinN d n =
          some (min (n - 1) (trunc ((d.fragFrac : ℚ) / (100 / (n : ℚ)))))) ∧
      ((100 : Int) ∣ d.fragFrac * n →
        Binary64.fragBinN d n = some (min (n - 1) (d.fragFrac * n / 100)) ∨
        Binary64.fragBinN d n =
          some (min (n - 1) (d.fragFrac * n / 100 - Int.sign d.fragFrac)))) ∧
    (|d.contextFrac * n| < 214748364800 →
      (¬ (100 : Int) ∣ d.contextFrac * n →
        Binary64.contextBinN d n =
          some (min (n - 1) (trunc ((d.contextFrac : ℚ) / (100 / (n : ℚ)))))) ∧
      ((100 : Int) ∣ d.contextFrac * n →
        Binary64.contextBinN d n = some (min (n - 1) (d.contextFrac * n / 100)) ∨
        Binary64.contextBinN d n =
          some (min (n - 1) (d.contextFrac * n / 100 - Int.sign d.contextFrac)))) :=
  ⟨fun hf => binOf64_spec d.fragFrac n hn hn32 hf,
    fun hc => binOf64_spec d.contextFrac n hn hn32 hc⟩

/-- Witness of C16 (amended): the percentiles 66 and -1 at the resolution 3
(100 divides neither 198 nor -3): the bins are `min(2, 1) = 1` and
`min(2, 0) = 0`. -/
theorem bin_formula_witness :
    Binary64.fragBinN (GCDesc.mk 66 (-1)) 3 = some 1 ∧
    Binary64.contextBinN (GCDesc.mk 66 (-1)) 3 = some 0 := by
  have h := bin_formula (GCDesc.mk 66 (-1)) 3 (by decide) (by decide)
  have h1 := (h.1 (by decide)).1 (by decide)
  have h2 := (h.2 (by decide)).1 (by decide)
  have t1 : trunc (((66 : Int) : ℚ) / (100 / ((3 : Int) : ℚ))) = 1 := by
    unfold trunc
    rw [if_pos (by norm_num), Int.floor_eq_iff]
    norm_num
  have t2 : trunc (((-1 : Int) : ℚ) / (100 / ((3 : Int) : ℚ))) = 0 := by
    unfold trunc
    rw [if_neg (by norm_num), Int.ceil_eq_iff]
    norm_num
  refine ⟨?_, ?_⟩
  · rw [h1]
    show some (min ((3 : Int) - 1) (trunc (((66 : Int) : ℚ) / (100 / ((3 : Int) : ℚ))))) = some 1
    rw [t1]
    decide
  · rw [h2]
    show some (min ((3 : Int) - 1) (trunc (((-1 : Int) : ℚ) / (100 / ((3 : Int) : ℚ))))) = some 0
    rw [t2]
    decide

/-- C17: degenerate row: on a model that is not yet normalized, a row without
observed mass (every cell 0 in LINEAR space, every cell `LOG_0` in LOG space)
keeps every cell under `normalize(0)`, while the normalized flag becomes true
and the space LINEAR. -/
theorem normalize_degenerate_row (F : Libm K) (m : GCFragModel K) (r : Nat)
    (hnn : m.normalized_ = false)
    (hrow :
      (m.dspace_ = DistributionSpace.LINEAR ∧
        ∀ c, c < m.numGCBins_ → m.counts_.coeff r c = 0) ∨
      (m.dspace_ = DistributionSpace.LOG ∧
        ∀ c, c < m.numGCBins_ → m.counts_.coeff r c = LOG_0)) :
    (∀ c, (m.normalize F 0).counts_.coeff r c = m.counts_.coeff r c) ∧
    (m.normalize F 0).normalized_ = true ∧
    (m.normalize F 0).dspace_ = DistributionSpace.LINEAR := by
  have hflags := normalize_flags F m 0
  refine ⟨?_, hflags.2.2.1, hflags.2.2.2 hnn⟩
  intro c
  rcases hrow with ⟨hlin, hz⟩ | ⟨hlog, hz⟩
  · rw [normalize_linear_coeff F m 0 hlin hnn]
    have hsum : sumCols m.numGCBins_ (fun j => (0 : Dbl K) + m.counts_.coeff r j) = 0 := by
      rw [sumCols_congr _ _ (fun _ => (0 : Dbl K)) (fun j hj => by
        show (0 : Dbl K) + m.counts_.coeff r j = 0
        rw [hz j hj, zero_add])]
      unfold sumCols
      exact Finset.sum_const_zero
    rw [hsum, if_neg (fun h => Dbl.ltIrrefl _ h.2.2)]
  · rw [normalize_log_coeff F m 0 hlog hnn]
    have hlp : Dbl.log F (0 : Dbl K) = LOG_0 := by
      show Dbl.log F (Dbl.fin 0) = Dbl.ninf
      simp [Dbl.log]
    rw [hlp, rowMassLog_degenerate F m.counts_ r m.numGCBins_ hz,
      if_neg (fun h => h.2.2 rfl)]

/-- Witness of C17: the row 1 of a fresh 2 x 3 LOG model. -/
theorem normalize_degenerate_row_witness :
    (∀ c, ((GCFragModel.new 2 3 DistributionSpace.LOG : GCFragModel ℚ).normalize
        (Libm.mk id id) 0).counts_.coeff 1 c =
      (GCFragModel.new 2 3 DistributionSpace.LOG : GCFragModel ℚ).counts_.coeff 1 c) ∧
    ((GCFragModel.new 2 3 DistributionSpace.LOG : GCFragModel ℚ).normalize
      (Libm.mk id id) 0).normalized_ = true ∧
    ((GCFragModel.new 2 3 DistributionSpace.LOG : GCFragModel ℚ).normalize
      (Libm.mk id id) 0).dspace_ = DistributionSpace.LINEAR :=
  normalize_degenerate_row (Libm.mk id id)
    (GCFragModel.new 2 3 DistributionSpace.LOG : GCFragModel ℚ) 1 rfl
    (Or.inr ⟨rfl, fun c _ => by
      show (initCounts DistributionSpace.LOG : MatrixXd ℚ).coeff 1 c = LOG_0
      rw [initCounts_coeff]
      rfl⟩)

/-- C18: for two distinct models of equal shape and every `maxRatio`, the call
`a.ratio(b, maxRatio)` succeeds and leaves `a` in the state that `normalize()`
with the default prior 0.1 gives `a`, and `b` in the state that it gives `b`;
an input whose normalized flag was true is left entirely unchanged. -/
theorem ratio_effect_on_inputs (F : Libm K) (a b : GCFragModel K) (maxRatio : Dbl K)
    (hs : SameShape a b) :
    ∃ res, a.ratio F b maxRatio = Except.ok res ∧
      res.self = a.normalize F (Dbl.fin (1 / 10)) ∧
      res.other = b.normalize F (Dbl.fin (1 / 10)) ∧
      (a.normalized_ = true → res.self = a) ∧ (b.normalized_ = true → res.other = b) := by
  obtain ⟨res, hres, _⟩ := ratio_covered F a b maxRatio (le_of_eq hs.1) (le_of_eq hs.2)
  obtain ⟨h1, h2, _⟩ := ratio_ok F a b maxRatio res hres
  refine ⟨res, hres, h1, h2, ?_, ?_⟩
  · intro hn
    rw [h1]
    exact normalize_of_normalized F a _ hn
  · intro hn
    rw [h2]
    exact normalize_of_normalized F b _ hn

/-- Witness of C18: a fresh LINEAR model against a model already normalized. -/
theorem ratio_effect_on_inputs_witness :
    ∃ res, (GCFragModel.new 1 2 DistributionSpace.LINEAR : GCFragModel ℚ).ratio (Libm.mk id id)
        (GCFragModel.mk 1 2 DistributionSpace.LINEAR true (MatrixXd.mk (fun _ _ => Dbl.fin (1 / 2))))
        (Dbl.fin 10) = Except.ok res ∧
      res.self = (GCFragModel.new 1 2 DistributionSpace.LINEAR : GCFragModel ℚ).normalize
        (Libm.mk id id) (Dbl.fin (1 / 10)) ∧
      res.other =
        GCFragModel.mk 1 2 DistributionSpace.LINEAR true (MatrixXd.mk (fun _ _ => Dbl.fin (1 / 2))) := by
  obtain ⟨res, hres, h1, _, _, h4⟩ := ratio_effect_on_inputs (Libm.mk id id)
    (GCFragModel.new 1 2 DistributionSpace.LINEAR : GCFragModel ℚ)
    (GCFragModel.mk 1 2 DistributionSpace.LINEAR true (MatrixXd.mk (fun _ _ => Dbl.fin (1 / 2))))
    (Dbl.fin 10) ⟨rfl, rfl⟩
  exact ⟨res, hres, h1, h4 rfl⟩

/-- Counterexample to C20 as stated, in binary64: a 1 x 1 LINEAR table, whose
only cell every descriptor with the percentiles 0 addresses, `xs` with the
weight 0.1 and `ys` with the weights 0.2 and 0.3.  The merged cell is
`0.1 + (0.2 + 0.3) = 0.6`, the cell of the single model is
`(0.1 + 0.2) + 0.3 = 0.6000000000000001`. -/
theorem merge_agrees_with_sequential_counterexample :
    cellOf 1 1 (GCDesc.mk 0 0) = some (0, 0) ∧
    ∃ a b ab s,
      Binary64.incAll (Binary64.Lib.ofLibm (Libm.mk id id)) (GCFragModel.new 1 1 DistributionSpace.LINEAR)
        [(GCDesc.mk 0 0, fl64 (1 / 10))] = some a ∧
      Binary64.incAll (Binary64.Lib.ofLibm (Libm.mk id id)) (GCFragModel.new 1 1 DistributionSpace.LINEAR)
        [(GCDesc.mk 0 0, fl64 (1 / 5)), (GCDesc.mk 0 0, fl64 (3 / 10))] = some b ∧
      Binary64.combineCounts (Binary64.Lib.ofLibm (Libm.mk id id)) a b = Except.ok ab ∧
      Binary64.incAll (Binary64.Lib.ofLibm (Libm.mk id id)) (GCFragModel.new 1 1 DistributionSpace.LINEAR)
        ([(GCDesc.mk 0 0, fl64 (1 / 10))] ++
          [(GCDesc.mk 0 0, fl64 (1 / 5)), (GCDesc.mk 0 0, fl64 (3 / 10))]) = some s ∧
      ab.counts_.coeff 0 0 = Dbl.fin (5404319552844595 / 9007199254740992) ∧
      s.counts_.coeff 0 0 = Dbl.fin (1351079888211149 / 2251799813685248) ∧
      ab.counts_.coeff 0 0 ≠ s.counts_.coeff 0 0 := by
  refine ⟨by decide, ?_⟩
  obtain ⟨a, ha, aR0, an0, as0, acell0⟩ := incAll64_cell0 (Binary64.Lib.ofLibm (Libm.mk id id)) [fl64 (1 / 10)]
    (GCFragModel.new 1 1 DistributionSpace.LINEAR) rfl (by decide) rfl
  obtain ⟨b, hb, bR0, bn0, bs0, bcell0⟩ := incAll64_cell0 (Binary64.Lib.ofLibm (Libm.mk id id))
    [fl64 (1 / 5), fl64 (3 / 10)]
    (GCFragModel.new 1 1 DistributionSpace.LINEAR) rfl (by decide) rfl
  obtain ⟨s, hs, _, _, _, scell0⟩ := incAll64_cell0 (Binary64.Lib.ofLibm (Libm.mk id id))
    [fl64 (1 / 10), fl64 (1 / 5), fl64 (3 / 10)]
    (GCFragModel.new 1 1 DistributionSpace.LINEAR) rfl (by decide) rfl
  have aR : a.condBins_ = 1 := aR0
  have an : a.numGCBins_ = 1 := an0
  have as1 : a.dspace_ = DistributionSpace.LINEAR := as0
  have bR : b.condBins_ = 1 := bR0
  have bn : b.numGCBins_ = 1 := bn0
  have bs1 : b.dspace_ = DistributionSpace.LINEAR := bs0
  have acell : a.counts_.coeff 0 0 = Dbl.fin (3602879701896397 / 36028797018963968) := by
    rw [acell0]
    show Binary64.add (Dbl.fin 0) (fl64 (1 / 10)) = _
    rw [fl64_tenth, add64_zero_tenth]
  have bcell : b.counts_.coeff 0 0 = Dbl.fin (1 / 2) := by
    rw [bcell0]
    show Binary64.add (Binary64.add (Dbl.fin 0) (fl64 (1 / 5))) (fl64 (3 / 10)) = _
    rw [fl64_fifth, fl64_three_tenths, add64_zero_fifth, add64_fifth_three_tenths]
  have scell : s.counts_.coeff 0 0 = Dbl.fin (1351079888211149 / 2251799813685248) := by
    rw [scell0]
    show Binary64.add (Binary64.add (Binary64.add (Dbl.fin 0) (fl64 (1 / 10))) (fl64 (1 / 5)))
      (fl64 (3 / 10)) = _
    rw [fl64_tenth, fl64_fifth, fl64_three_tenths, add64_zero_tenth, add64_tenth_fifth,
      add64_tenth_fifth_three_tenths]
  obtain ⟨ab, hab, _, _, _, _, abcell0⟩ := combineCounts64_ok (Binary64.Lib.ofLibm (Libm.mk id id)) a b
    (by rw [as1, bs1]) (by rw [aR, bR]) (by rw [an, bn])
  have abcell : ab.counts_.coeff 0 0 = Dbl.fin (5404319552844595 / 9007199254740992) := by
    rw [abcell0 0 0, if_pos ⟨by rw [aR]; decide, by rw [an]; decide⟩,
      if_neg (by rw [as1]; decide), acell, bcell, add64_tenth_half]
  refine ⟨a, b, ab, s, ha, hb, hab, hs, abcell, scell, ?_⟩
  rw [abcell, scell]
  intro h
  have := Dbl.fin.inj h
  norm_num at this

/-- C20 (amended): in exact arithmetic (the sum of a cell taken without
rounding), merge agrees with sequential accumulation: in LINEAR space, for every
shape and two lists `xs` and `ys` of observations in range, accumulating `xs`
in one fresh model and `ys` in another and merging the second into the first
with `combineCounts` succeeds and gives, cell for cell, the table obtained by
accumulating `xs` followed by `ys` in a single fresh model. -/
theorem merge_agrees_with_sequential (F : Libm K) (condBins numGCBins : Nat)
    (xs ys : List (GCDesc × Dbl K))
    (hx : ∀ o ∈ xs, cellOf condBins numGCBins o.1 ≠ none)
    (hy : ∀ o ∈ ys, cellOf condBins numGCBins o.1 ≠ none) :
    ∃ a b ab s,
      (GCFragModel.new condBins numGCBins DistributionSpace.LINEAR).incAll F xs = some a ∧
      (GCFragModel.new condBins numGCBins DistributionSpace.LINEAR).incAll F ys = some b ∧
      a.combineCounts F b = Except.ok ab ∧
      (GCFragModel.new condBins numGCBins DistributionSpace.LINEAR).incAll F (xs ++ ys) = some s ∧
      ∀ i j, i < condBins → j < numGCBins → ab.counts_.coeff i j = s.counts_.coeff i j := by
  obtain ⟨a, ha, aR0, an0, as0, _, acell0⟩ := incAll_linear F xs
    (GCFragModel.new condBins numGCBins DistributionSpace.LINEAR) rfl hx
  obtain ⟨b, hb, bR0, bn0, bs0, _, bcell0⟩ := incAll_linear F ys
    (GCFragModel.new condBins numGCBins DistributionSpace.LINEAR) rfl hy
  obtain ⟨s, hs, _, _, _, _, scell0⟩ := incAll_linear F (xs ++ ys)
    (GCFragModel.new condBins numGCBins DistributionSpace.LINEAR) rfl
    (fun o ho => by
      rcases List.mem_append.mp ho with h | h
      · exact hx o h
      · exact hy o h)
  have aR : a.condBins_ = condBins := aR0
  have an : a.numGCBins_ = numGCBins := an0
  have as1 : a.dspace_ = DistributionSpace.LINEAR := as0
  have bR : b.condBins_ = condBins := bR0
  have bn : b.numGCBins_ = numGCBins := bn0
  have bs1 : b.dspace_ = DistributionSpace.LINEAR := bs0
  have acell : ∀ i j, a.counts_.coeff i j =
      (initCounts DistributionSpace.LINEAR : MatrixXd K).coeff i j +
        cellTotal condBins numGCBins xs i j := acell0
  have bcell : ∀ i j, b.counts_.coeff i j =
      (initCounts DistributionSpace.LINEAR : MatrixXd K).coeff i j +
        cellTotal condBins numGCBins ys i j := bcell0
  have scell : ∀ i j, s.counts_.coeff i j =
      (initCounts DistributionSpace.LINEAR : MatrixXd K).coeff i j +
        cellTotal condBins numGCBins (xs ++ ys) i j := scell0
  obtain ⟨ab, hab, _, _, _, _, abcell⟩ := combineCounts_ok F a b (by rw [as1, bs1])
    (by rw [aR, bR]) (by rw [an, bn])
  refine ⟨a, b, ab, s, ha, hb, hab, hs, ?_⟩
  intro i j hi hj
  have hne : a.dspace_ ≠ DistributionSpace.LOG := by rw [as1]; decide
  rw [abcell i j, if_pos ⟨by rw [aR]; exact hi, by rw [an]; exact hj⟩, if_neg hne,
    acell, bcell, scell, cellTotal_append, initCounts_coeff, if_neg (by decide), zero_add,
    zero_add, zero_add]

/-- Witness of C20 (amended): a 3 x 101 table, `xs` with two observations of the cell
(2, 50), `ys` with one of the cell (0, 90). -/
theorem merge_agrees_with_sequential_witness :
    ∃ a b ab s,
      (GCFragModel.new 3 101 DistributionSpace.LINEAR : GCFragModel ℚ).incAll (Libm.mk id id)
        [(GCDesc.mk 50 100, Dbl.fin 2), (GCDesc.mk 50 100, Dbl.fin 3)] = some a ∧
      (GCFragModel.new 3 101 DistributionSpace.LINEAR : GCFragModel ℚ).incAll (Libm.mk id id)
        [(GCDesc.mk 90 0, Dbl.fin 1)] = some b ∧
      a.combineCounts (Libm.mk id id) b = Except.ok ab ∧
      (GCFragModel.new 3 101 DistributionSpace.LINEAR : GCFragModel ℚ).incAll (Libm.mk id id)
        ([(GCDesc.mk 50 100, Dbl.fin 2), (GCDesc.mk 50 100, Dbl.fin 3)] ++
          [(GCDesc.mk 90 0, Dbl.fin 1)]) = some s ∧
      ∀ i j, i < 3 → j < 101 → ab.counts_.coeff i j = s.counts_.coeff i j := by
  have h1 : cellOf 3 101 (GCDesc.mk 50 100) = some (2, 50) := by
    unfold cellOf
    rw [if_pos (by decide), show narrow32 3 = 3 by decide]
    show (match binOf 100 3 with
      | none => none
      | some ctx => _) = _
    rw [binOf_eq 100 3 (by decide) (by decide)]
    decide
  have h2 : cellOf 3 101 (GCDesc.mk 90 0) = some (0, 90) := by
    unfold cellOf
    rw [if_pos (by decide), show narrow32 3 = 3 by decide]
    show (match binOf 0 3 with
      | none => none
      | some ctx => _) = _
    rw [binOf_eq 0 3 (by decide) (by decide)]
    decide
  exact merge_agrees_with_sequential (Libm.mk id id) 3 101
    [(GCDesc.mk 50 100, Dbl.fin 2), (GCDesc.mk 50 100, Dbl.fin 3)]
    [(GCDesc.mk 90 0, Dbl.fin 1)]
    (by
      intro o ho
      simp only [List.mem_cons, List.mem_singleton, List.not_mem_nil, or_false] at ho
      rcases ho with rfl | rfl
      · rw [h1]; exact Option.some_ne_none _
      · rw [h1]; exact Option.some_ne_none _)
    (by
      intro o ho
      simp only [List.mem_singleton] at ho
      rw [ho, h2]
      exact Option.some_ne_none _)

end Claims

end GCFrag
